import Mathlib

/-! terraform-docs, Markdown "compact" format: sanitizer and templates.

A shallow embedding of `internal/format/util.go` (`sanitize`, the code fences,
`convertMultiLineText`) and `internal/format/markdown_compact.go` (the compact
templates, their functions and `Print`).

Texts are lists of characters (`List Char`).  Every regular expression used
by `sanitize` is embedded as a *matcher*: a function that, given the text
starting at the current position, says whether the pattern matches there
(leftmost-first, greedy, as Go's `regexp` does) and if so returns the expanded
replacement together with the length of the match.  `replaceAll` is the
left-to-right, non-overlapping scan of `Regexp.ReplaceAllString`.
-/

namespace TerraformDocs

/-- A text: the sequence of characters of a Go string. -/
abbrev Text := List Char

/-! ## `regexp.ReplaceAllString` -/

/-- A matcher: applied to the text that starts at the current position, it
returns `some (replacement, length)` when the pattern matches there. -/
abbrev Matcher := Text → Option (Text × Nat)

/-- The scan of `ReplaceAllString`.  The first argument counts the characters
of the current match that are still to be skipped.  At a position where the
pattern matches, the replacement is written and the matched characters are
skipped; elsewhere the character is copied. -/
def replaceAllFrom (m : Matcher) : Nat → Text → Text
  | _, [] => []
  | skip + 1, _ :: cs => replaceAllFrom m skip cs
  | 0, c :: cs =>
    match m (c :: cs) with
    | some (rep, len) => rep ++ replaceAllFrom m (len - 1) cs
    | none => c :: replaceAllFrom m 0 cs

/-- The embedding of `regexp.MustCompile(p).ReplaceAllString(s, repl)` for a
pattern `p` that matches no empty text. -/
def replaceAll (m : Matcher) (s : Text) : Text := replaceAllFrom m 0 s

/-! ## The patterns of `sanitize` -/

/-- The placeholder `‡‡‡DOUBLESPACES‡‡‡` (the double dagger is U+2021). -/
def placeholder : Text :=
  [Char.ofNat 8225, Char.ofNat 8225, Char.ofNat 8225] ++ "DOUBLESPACES".toList ++
    [Char.ofNat 8225, Char.ofNat 8225, Char.ofNat 8225]

/-- The text left after the prefix `p`, when `s` starts with `p`. -/
def stripPrefix : Text → Text → Option Text
  | [], s => some s
  | _ :: _, [] => none
  | p :: ps, c :: cs => if p = c then stripPrefix ps cs else none

/-- The sub-pattern `(\r?\n)` at the start of `s`: the line break matched
(the value of `$1`) and the text after it. -/
def lineBreak : Text → Option (Text × Text)
  | '\n' :: rest => some (['\n'], rest)
  | '\r' :: '\n' :: rest => some (['\r', '\n'], rest)
  | _ => none

/-- Pattern ` {2}(\r?\n)`, replacement `‡‡‡DOUBLESPACES‡‡‡$1`. -/
def protectMatcher : Matcher
  | ' ' :: ' ' :: s =>
    match lineBreak s with
    | some (nl, _) => some (placeholder ++ nl, 2 + nl.length)
    | none => none
  | _ => none

/-- Pattern ` +(\r?\n)`, replacement `$1`.  The run ` +` is greedy and a
shorter run cannot be followed by a line break, so the pattern matches at a
space exactly when the whole run of spaces is followed by a line break. -/
def trailingMatcher : Matcher
  | ' ' :: s =>
    match lineBreak (s.dropWhile (· = ' ')) with
    | some (nl, _) => some (nl, 1 + (s.takeWhile (· = ' ')).length + nl.length)
    | none => none
  | _ => none

/-- Pattern ` +$` (no multi-line flag: `$` is the end of the text),
literal replacement by the empty text. -/
def endSpacesMatcher : Matcher
  | ' ' :: s => if s.all (· = ' ') then some ([], 1 + s.length) else none
  | _ => none

/-- Pattern `‡‡‡DOUBLESPACES‡‡‡(\r?\n)`, replacement two spaces and `$1`. -/
def restoreMatcher : Matcher := fun s =>
  match stripPrefix placeholder s with
  | some rest =>
    match lineBreak rest with
    | some (nl, _) => some ([' ', ' '] ++ nl, placeholder.length + nl.length)
    | none => none
  | none => none

/-- Pattern `(\r?\n)  (\r?\n)`, replacement `$1` (the first line break). -/
def blankDoubleMatcher : Matcher := fun s =>
  match lineBreak s with
  | some (nl, ' ' :: ' ' :: rest) =>
    match lineBreak rest with
    | some (nl2, _) => some (nl, nl.length + 2 + nl2.length)
    | none => none
  | _ => none

/-- The greedy iteration `(\r?\n)*` at the start of the text: the number of
line breaks taken, their total length and the last one taken (the value the
group holds after the iteration; empty when nothing was taken).  The
auxiliary function carries the values accumulated so far. -/
def lineBreakRunFrom : Nat → Nat → Text → Text → Nat × Nat × Text
  | cnt, len, _, '\n' :: rest => lineBreakRunFrom (cnt + 1) (len + 1) ['\n'] rest
  | cnt, len, _, '\r' :: '\n' :: rest =>
    lineBreakRunFrom (cnt + 1) (len + 2) ['\r', '\n'] rest
  | cnt, len, last, _ => (cnt, len, last)

/-- The greedy iteration `(\r?\n)*` at the start of the text. -/
def lineBreakRun (s : Text) : Nat × Nat × Text := lineBreakRunFrom 0 0 [] s

/-- Pattern `(\r?\n){3,}`, replacement `$1$1`: the group holds the last line
break of the run. -/
def collapseMatcher : Matcher := fun s =>
  match lineBreakRun s with
  | (cnt, len, last) => if 3 ≤ cnt then some (last ++ last, len) else none

/-- Pattern `(\r?\n){2,}$`, replacement the empty text: the run of line
breaks has to reach the end of the text. -/
def trimEndMatcher : Matcher := fun s =>
  match lineBreakRun s with
  | (cnt, len, _) => if 2 ≤ cnt ∧ len = s.length then some ([], len) else none

/-! ## `sanitize` -/

/-- The embedding of `sanitize` (`util.go`): the seven replacements, in the
order of the source. -/
def sanitize (markdown : Text) : Text :=
  let result := markdown
  let result := replaceAll protectMatcher result
  let result := replaceAll trailingMatcher result
  let result := replaceAll endSpacesMatcher result
  let result := replaceAll restoreMatcher result
  let result := replaceAll blankDoubleMatcher result
  let result := replaceAll collapseMatcher result
  let result := replaceAll trimEndMatcher result
  result


/-! ## Predicates on texts used in the statements -/

/-- Every carriage return of the text is immediately followed by a line feed:
the text has no carriage return that is not part of a `\r\n` line break. -/
def crlfOnly : Text → Bool
  | [] => true
  | '\r' :: '\n' :: s => crlfOnly s
  | '\r' :: _ => false
  | _ :: s => crlfOnly s

/-- A line break, as the patterns of `sanitize` see it: `\n` or `\r\n`. -/
def IsLineBreak (b : Text) : Prop := b = ['\n'] ∨ b = ['\r', '\n']

instance (b : Text) : Decidable (IsLineBreak b) := by
  unfold IsLineBreak; infer_instance

/-- The non-whitespace content of a text: its characters other than space,
carriage return and line feed, in order. -/
def nonWhitespace (s : Text) : Text :=
  s.filter (fun c => c ≠ ' ' ∧ c ≠ '\r' ∧ c ≠ '\n')

/-- No position of the text starts a run of three or more line breaks. -/
def NoTripleBreak (y : Text) : Prop := ∀ t, t <:+ y → (lineBreakRun t).1 < 3

/-- The first three replacements of `sanitize`: protect the double spaces,
strip the spaces before the line breaks, strip the spaces that end the text. -/
def stripPasses (s : Text) : Text :=
  replaceAll endSpacesMatcher (replaceAll trailingMatcher (replaceAll protectMatcher s))

/-- The first four replacements of `sanitize`, which deal with the spaces at
the end of the lines: protect, strip, strip at the end of the text, restore. -/
def trailingSpacePasses (s : Text) : Text :=
  replaceAll restoreMatcher (stripPasses s)

/-! ## Code fences (`util.go`) -/

/-- The embedding of `strings.Contains(code, "\n")`. -/
def containsNewline (code : Text) : Bool := code.contains '\n'

/-- The embedding of `strings.Split(s, "\n")`. -/
def splitLines : Text → List Text
  | [] => [[]]
  | c :: cs =>
    if c = '\n' then [] :: splitLines cs
    else
      match splitLines cs with
      | [] => [[c]]
      | l :: ls => (c :: l) :: ls

/-- The embedding of `strings.Join(lines, "\n")`. -/
def joinLines : List Text → Text
  | [] => []
  | [l] => l
  | l :: ls => l ++ '\n' :: joinLines ls

/-- The embedding of `printFencedCodeBlock`: the text and the flag that tells
whether the fence spans several lines. -/
def printFencedCodeBlock (code language : Text) : Text × Bool :=
  if containsNewline code then
    ("\n\n```".toList ++ language ++ "\n".toList ++ code ++ "\n```\n".toList, true)
  else
    ("`".toList ++ code ++ "`".toList, false)

/-- The embedding of `printFencedCodeBlockWithIndent`. -/
def printFencedCodeBlockWithIndent (code language : Text) : Text :=
  if !containsNewline code then
    "`".toList ++ code ++ "`".toList
  else
    let block := "```".toList ++ language ++ "\n".toList ++ code ++ "\n```".toList
    let lines := (splitLines block).map (fun l => "    ".toList ++ l)
    "\n".toList ++ joinLines lines ++ "\n".toList

/-! ## The data given to the templates

The records of `internal/terraform` and `internal/print` are declared outside
these sources; the structures below have the fields that the templates read.
A field that the templates read through a method (`GetValue`) holds the text
the method returns. -/

/-- The flags of `print.Settings` read by the compact format. -/
structure Settings where
  ShowHeader : Bool
  ShowRequirements : Bool
  ShowProviders : Bool
  ShowModuleCalls : Bool
  ShowResources : Bool
  ShowInputs : Bool
  ShowOutputs : Bool
  ShowRequired : Bool
  ShowSensitivity : Bool
  OutputValues : Bool
  deriving DecidableEq, Repr

/-- A resource of the module. -/
structure Resource where
  FullType : Text
  URL : Text
  deriving DecidableEq, Repr

/-- A requirement of the module. -/
structure Requirement where
  Name : Text
  Version : Text
  deriving DecidableEq, Repr

/-- A provider of the module. -/
structure Provider where
  FullName : Text
  Version : Text
  deriving DecidableEq, Repr

/-- A sub-module call. -/
structure ModuleCall where
  Name : Text
  Source : Text
  Version : Text
  deriving DecidableEq, Repr

/-- An input variable. `TypeExpr` is the field `Type` of the source (a reserved
word here); `GetValue` is the text of its default value, empty when there is
none. -/
structure Input where
  Name : Text
  TypeExpr : Text
  Description : Text
  HasDefault : Bool
  GetValue : Text
  deriving DecidableEq, Repr

/-- An output. `GetValue` is the text of its value. -/
structure Output where
  Name : Text
  Description : Text
  Sensitive : Bool
  GetValue : Text
  deriving DecidableEq, Repr

/-- The module, as the templates see it. -/
structure Module where
  Header : Text
  Requirements : List Requirement
  Providers : List Provider
  ModuleCalls : List ModuleCall
  Resources : List Resource
  Inputs : List Input
  RequiredInputs : List Input
  OptionalInputs : List Input
  Outputs : List Output
  deriving DecidableEq, Repr

/-- The template functions that `internal/template` provides and whose code is
not among the sources; the templates are embedded for any such functions. -/
structure Funcs where
  indent : Nat → Text → Text
  name : Text → Text
  tostring : Text → Text
  sanitizeHeader : Text → Text
  sanitizeTbl : Text → Text

/-- Modelled from the spec: the template function `ternary` of
`internal/template`, the spec's `choose(condition, ifTrue, ifFalse)`, the
generic conditional selector. -/
def ternary (condition : Bool) (trueValue falseValue : Text) : Text :=
  if condition then trueValue else falseValue

/-- Modelled from the spec: the template function `default` of
`internal/template`, the spec's `orDefault(fallback, value)`, which returns
the fallback when the value is empty or absent, else the value. -/
def orDefault (fallback value : Text) : Text :=
  if value = [] then fallback else value

/-! ## The functions registered by `NewMarkdownCompact` -/

/-- The template function `type` (a reserved word here). -/
def typeFn (t : Text) : Text := printFencedCodeBlockWithIndent t "hcl".toList

/-- The template function `inlineType`. -/
def inlineType (t : Text) : Text :=
  let result := (printFencedCodeBlock t "hcl".toList).1
  "<a id='input_".toList ++ t ++ "' href='#".toList ++ t ++ "'>".toList ++ result ++
    "</a>".toList

/-- The template function `inlineOutputType`. -/
def inlineOutputType (t : Text) : Text :=
  let result := (printFencedCodeBlock t "hcl".toList).1
  "<a id='output_".toList ++ t ++ "' href='#".toList ++ t ++ "'>".toList ++ result ++
    "</a>".toList

/-- The template function `value`. -/
def value (v : Text) : Text :=
  if v = "n/a".toList then v else printFencedCodeBlockWithIndent v "json".toList

/-- The template function `isRequired`. -/
def isRequired (settings : Settings) : Bool := settings.ShowRequired

/-- The template function `requiredFlag`. -/
def requiredFlag (r : Bool) : Text :=
  if r then "(Optional)".toList else "(Required)".toList

/-! ## The templates

The registry of `internal/template` hands each template text to
`text/template` after preparing it line by line: every line is trimmed of the
white space around it and ended by a line feed.  The indentation of the Go
constants is therefore not part of the text that is rendered.  Every prepared
text ends with two line feeds, those of the line of its last action and of the
empty line that closes the constant; the template `input`, whose last action
trims nothing after it, is the only one that writes them.

Each template is embedded as the function that `text/template` computes from
the prepared text: literal text is copied as written, a `{{-` removes the
whitespace that precedes it, a `-}}` the whitespace that follows it, `if` and
`with` test for a non-empty value, `range` writes its body once per element,
in order. -/

/-- The action `range`: the body once per element, in the order of the
sequence. -/
def rangeOver {α : Type} (xs : List α) (body : α → Text) : Text :=
  match xs with
  | [] => []
  | x :: rest => body x ++ rangeOver rest body

/-- The template `header` (`compactHeaderTpl`). -/
def compactHeaderTpl (f : Funcs) (settings : Settings) (module : Module) : Text :=
  if settings.ShowHeader then
    if module.Header ≠ [] then
      f.sanitizeHeader module.Header ++ "\n".toList ++ "\n".toList
    else []
  else []

/-- One row of the resources table: the body of the `range` of
`compactResourcesTpl`. -/
def compactResourcesRow (r : Resource) : Text :=
  "\n".toList ++
    (if r.URL.length = 0 then "\n| ".toList ++ r.FullType
     else "| [".toList ++ r.FullType ++ "](".toList ++ r.URL ++ ") |".toList)

/-- The template `resources` (`compactResourcesTpl`). -/
def compactResourcesTpl (f : Funcs) (settings : Settings) (module : Module) : Text :=
  if settings.ShowResources then
    f.indent 0 "#".toList ++ " Resources\n".toList ++
      (if module.Resources.isEmpty then "\nNo resources.\n".toList
       else "\n| Name |\n|------|".toList ++
         rangeOver module.Resources compactResourcesRow ++ "\n".toList) ++
      "\n".toList
  else []

/-- The template `requirements` (`compactRequirementsTpl`). -/
def compactRequirementsTpl (f : Funcs) (settings : Settings) (module : Module) : Text :=
  if settings.ShowRequirements then
    f.indent 0 "#".toList ++ " Requirements\n".toList ++
      (if module.Requirements.isEmpty then "\nNo requirements.\n".toList
       else "\n| Name | Version |\n|------|---------|".toList ++
         rangeOver module.Requirements (fun r =>
           "\n| ".toList ++ f.name r.Name ++ " | ".toList ++
             orDefault "n/a".toList (f.tostring r.Version) ++ " |".toList) ++
         "\n".toList) ++
      "\n".toList
  else []

/-- The template `providers` (`compactProvidersTpl`). -/
def compactProvidersTpl (f : Funcs) (settings : Settings) (module : Module) : Text :=
  if settings.ShowProviders then
    f.indent 0 "#".toList ++ " Providers\n".toList ++
      (if module.Providers.isEmpty then "\nNo provider.\n".toList
       else "\n| Name | Version |\n|------|---------|".toList ++
         rangeOver module.Providers (fun p =>
           "\n| ".toList ++ f.name p.FullName ++ " | ".toList ++
             orDefault "n/a".toList (f.tostring p.Version) ++ " |".toList) ++
         "\n".toList) ++
      "\n".toList
  else []

/-- The template `input` (`compactInputTpl`).  Its text starts with an empty
line and ends after the `end` of its `if`, hence with two line feeds. -/
def compactInputTpl (f : Funcs) (settings : Settings) (input : Input) : Text :=
  "\n".toList ++ "\n".toList ++ "\n- ".toList ++ inlineType input.Name ++ " - ".toList ++
    requiredFlag input.HasDefault ++ " ".toList ++
    f.sanitizeTbl (f.tostring input.Description) ++ "\n\n".toList ++
    f.indent 1 " ".toList ++ " Type: ".toList ++ typeFn (f.tostring input.TypeExpr) ++
    (if input.HasDefault || !isRequired settings then
      "\n\n".toList ++ f.indent 1 " ".toList ++ " Default: ".toList ++
        value (orDefault "n/a".toList input.GetValue)
     else []) ++
    "\n\n".toList

/-- The template `inputs` (`compactInputsTpl`). -/
def compactInputsTpl (f : Funcs) (settings : Settings) (module : Module) : Text :=
  if settings.ShowInputs then
    f.indent 0 "#".toList ++ " Argument Reference\n".toList ++
      (if module.Inputs.isEmpty then "\nNo argument.\n".toList
       else if settings.ShowRequired then
         (if !module.RequiredInputs.isEmpty then
           "\nThe following arguments are required:".toList ++
             rangeOver module.RequiredInputs (fun i =>
               "\n".toList ++ compactInputTpl f settings i)
          else []) ++
         "\n".toList ++
         (if !module.OptionalInputs.isEmpty then
           "\nThe following arguments are optional:".toList ++
             rangeOver module.OptionalInputs (fun i =>
               "\n".toList ++ compactInputTpl f settings i) ++
             "\n".toList
          else []) ++
         "\n".toList
       else
         "The following input variables are supported:".toList ++
           rangeOver module.Inputs (fun i =>
             "\n".toList ++ compactInputTpl f settings i)) ++
      "\n".toList
  else []

/-- One output: the body of the `range` of `compactOutputsTpl`. -/
def compactOutputsItem (f : Funcs) (settings : Settings) (output : Output) : Text :=
  "\n\n- ".toList ++ inlineOutputType output.Name ++ " - ".toList ++
    f.sanitizeTbl (f.tostring output.Description) ++ "\n\n".toList ++
    (if settings.OutputValues then
      let sensitive := ternary output.Sensitive "<sensitive>".toList output.GetValue
      f.indent 1 " ".toList ++ " Value: ".toList ++ value (value sensitive) ++
        "\n\n".toList ++
        (if settings.ShowSensitivity then
          f.indent 1 " ".toList ++ " Sensitive: ".toList ++
            ternary output.Sensitive "yes".toList "no".toList
         else []) ++
        "\n".toList
     else []) ++
    "\n".toList

/-- The template `outputs` (`compactOutputsTpl`). -/
def compactOutputsTpl (f : Funcs) (settings : Settings) (module : Module) : Text :=
  if settings.ShowOutputs then
    f.indent 0 "#".toList ++ " Attributes Reference\n".toList ++
      (if module.Outputs.isEmpty then "\nNo output.\n".toList
       else
         "\nIn addition to arguments above, the following attributes are exported:".toList
           ++ rangeOver module.Outputs (compactOutputsItem f settings) ++ "\n".toList) ++
      "\n".toList
  else []

/-- The template `modulecalls` (`compactModulecallsTpl`). -/
def compactModulecallsTpl (f : Funcs) (settings : Settings) (module : Module) : Text :=
  if settings.ShowModuleCalls then
    f.indent 0 "#".toList ++ " Modules\n".toList ++
      (if module.ModuleCalls.isEmpty then "\nNo Modules.\n".toList
       else "\n| Name | Source | Version |\n|------|--------|---------|".toList ++
         rangeOver module.ModuleCalls (fun c =>
           "\n| ".toList ++ c.Name ++ " | ".toList ++ c.Source ++ " | ".toList ++
             c.Version ++ " |".toList) ++
         "\n".toList) ++
      "\n".toList
  else []

/-- The template `document` (`compactTpl`): the seven sections in order. -/
def compactTpl (f : Funcs) (settings : Settings) (module : Module) : Text :=
  compactHeaderTpl f settings module ++ compactRequirementsTpl f settings module ++
    compactProvidersTpl f settings module ++ compactModulecallsTpl f settings module ++
    compactResourcesTpl f settings module ++ compactInputsTpl f settings module ++
    compactOutputsTpl f settings module

/-! ## `Print` -/

/-- The embedding of `MarkdownCompact.Print`.  The renderer
`c.template.Render` belongs to `internal/template`, outside these sources, and
is a parameter: it returns the rendered text or an error.  The result is the
pair of Go, the text and the error (`none` for `nil`). -/
def Print (ε : Type) (render : Module → Except ε Text) (module : Module) : Text × Option ε :=
  match render module with
  | .error err => ([], some err)
  | .ok rendered => (sanitize rendered, none)

/-- Modelled from the spec: `Render` of the Template Registry
(`internal/template`, outside these sources), the spec's
`render(rootFragment, context)`, for the compact templates.  The registry
prepares each template text line by line (every line trimmed of the white
space around it and ended by a line feed) and executes the template
`document` with `text/template`, which raises no error on the records
above. -/
def renderCompact (ε : Type) (f : Funcs) (settings : Settings) (module : Module) :
    Except ε Text :=
  .ok (compactTpl f settings module)

/-- A module in which the value of every sensitive output is blanked: what
is left of a module when the values of its sensitive outputs are set aside. -/
def withoutSensitiveValues (module : Module) : Module :=
  { module with
    Outputs := module.Outputs.map (fun o => if o.Sensitive then { o with GetValue := [] } else o) }

/-! ## Sample data -/

/-- Sample template functions: the indentation repeats the character twice
more than the level, the other functions copy their argument. -/
def sampleFuncs : Funcs :=
  { indent := fun level char => (List.replicate (2 + level) char).foldr (· ++ ·) []
    name := id
    tostring := id
    sanitizeHeader := id
    sanitizeTbl := id }

/-- Sample settings: every section shown, values and sensitivity shown. -/
def sampleSettings : Settings :=
  { ShowHeader := true, ShowRequirements := true, ShowProviders := true,
    ShowModuleCalls := true, ShowResources := true, ShowInputs := true,
    ShowOutputs := true, ShowRequired := false, ShowSensitivity := true,
    OutputValues := true }

/-- Sample settings that show the resources section only. -/
def sampleResourcesOnly : Settings :=
  { ShowHeader := false, ShowRequirements := false, ShowProviders := false,
    ShowModuleCalls := false, ShowResources := true, ShowInputs := false,
    ShowOutputs := false, ShowRequired := false, ShowSensitivity := false,
    OutputValues := false }

/-- A sample module with one sensitive output whose value is the argument. -/
def sampleModule (secret : Text) : Module :=
  { Header := "Sample".toList
    Requirements := []
    Providers := []
    ModuleCalls := []
    Resources := []
    Inputs := []
    RequiredInputs := []
    OptionalInputs := []
    Outputs := [{ Name := "token".toList, Description := "A token".toList,
                  Sensitive := true, GetValue := secret }] }

/-- A sample input: the variable `region` of type `string`, with a default. -/
def sampleInput : Input :=
  { Name := "region".toList, TypeExpr := "string".toList, Description := "AWS region".toList,
    HasDefault := true, GetValue := "\"us-east-1\"".toList }

/-- A sample resource without URL. -/
def sampleResource : Resource :=
  { FullType := "aws_instance.web".toList, URL := [] }

/-! ## Parts of the template `input` -/

/-- The text that the template `input` writes before its `if`: the line of the
input (anchor, label, description) and the line of its type. -/
def compactInputHead (f : Funcs) (input : Input) : Text :=
  "\n".toList ++ "\n".toList ++ "\n- ".toList ++ inlineType input.Name ++ " - ".toList ++
    requiredFlag input.HasDefault ++ " ".toList ++
    f.sanitizeTbl (f.tostring input.Description) ++ "\n\n".toList ++
    f.indent 1 " ".toList ++ " Type: ".toList ++ typeFn (f.tostring input.TypeExpr)

/-- The text that the template `input` writes inside its `if`: the line of the
default value. -/
def compactInputDefault (f : Funcs) (input : Input) : Text :=
  "\n\n".toList ++ f.indent 1 " ".toList ++ " Default: ".toList ++
    value (orDefault "n/a".toList input.GetValue)

/-- One row of the modules table, without the line feed that precedes it. -/
def moduleCallRow (c : ModuleCall) : Text :=
  "| ".toList ++ c.Name ++ " | ".toList ++ c.Source ++ " | ".toList ++ c.Version ++ " |".toList

/-! ## `convertMultiLineText` (`util.go`) -/

/-- The embedding of `unicode.IsSpace`, the test used by `strings.TrimSpace`:
the white space of Latin-1 and the characters with the property White_Space. -/
def isSpace (c : Char) : Bool :=
  let n := c.toNat
  (9 ≤ n && n ≤ 13) || n = 32 || n = 133 || n = 160 || n = 5760 ||
    (8192 ≤ n && n ≤ 8202) || n = 8232 || n = 8233 || n = 8239 || n = 8287 || n = 12288

/-- The embedding of `strings.TrimSpace`: the text without its leading and
trailing white space. -/
def TrimSpace (s : Text) : Text :=
  ((s.dropWhile isSpace).reverse.dropWhile isSpace).reverse

/-- The literal pattern of `strings.Replace(s, old, new, -1)`: it matches
where the text starts with `old`. -/
def literalMatcher (old new : Text) : Matcher := fun t =>
  match stripPrefix old t with
  | some _ => some (new, old.length)
  | none => none

/-- The embedding of `strings.Replace(s, old, new, -1)` for a non-empty `old`:
every non-overlapping occurrence of `old`, from the left, becomes `new`. -/
def stringsReplace (old new s : Text) : Text := replaceAll (literalMatcher old new) s

/-- The class `\s` of Go's `regexp`: tab, line feed, form feed, carriage
return and space. -/
def regexSpace (c : Char) : Bool :=
  c = '\t' || c = '\n' || c = Char.ofNat 12 || c = '\r' || c = ' '

/-- The class `\w` of Go's `regexp`: the ASCII letters and digits and the
underscore. -/
def regexWord (c : Char) : Bool := c.isAlphanum || c = '_'

/-- Pattern `(\S*)(\r?\n)(\s*)(\w+)`, replacement `$1  $2$3$4`.  The runs
`\S*` and `\s*` are greedy and a shorter run cannot be followed by what the
pattern asks next, so the pattern matches exactly when the whole run of
non-space characters is followed by a line break, the whole run of space after
it by a word character; `\w+` takes the whole run of word characters. -/
def paragraphMatcher : Matcher := fun t =>
  let g1 := t.takeWhile (fun c => !regexSpace c)
  match lineBreak (t.dropWhile (fun c => !regexSpace c)) with
  | some (g2, rest) =>
    let g3 := rest.takeWhile regexSpace
    let g4 := (rest.dropWhile regexSpace).takeWhile regexWord
    if g4.isEmpty then none
    else some (g1 ++ "  ".toList ++ g2 ++ g3 ++ g4, g1.length + g2.length + g3.length + g4.length)
  | none => none

/-- The embedding of `convertMultiLineText`. -/
def convertMultiLineText (s : Text) (isTable : Bool) : Text :=
  let s := if isTable then TrimSpace s else s
  let s := stringsReplace "\n\n".toList "<br><br>".toList s
  let s := replaceAll paragraphMatcher s
  let s := stringsReplace "    \n".toList "  \n".toList s
  let s := stringsReplace "<br>  \n".toList "\n\n".toList s
  if isTable then
    let s := stringsReplace "  \n".toList "<br>".toList s
    let s := stringsReplace "\n".toList "<br>".toList s
    s
  else
    let s := stringsReplace "<br>".toList "\n".toList s
    s

/-- The steps of `convertMultiLineText` that both of its branches share: the
four replacements between the trimming and the `if isTable`. -/
def convertParagraphs (s : Text) : Text :=
  let s := stringsReplace "\n\n".toList "<br><br>".toList s
  let s := replaceAll paragraphMatcher s
  let s := stringsReplace "    \n".toList "  \n".toList s
  let s := stringsReplace "<br>  \n".toList "\n\n".toList s
  s

/-! ## The scan: unfolding and framing -/

theorem replaceAllFrom_skip (m : Matcher) (k : Nat) (s : Text) :
    replaceAllFrom m k s = replaceAllFrom m 0 (s.drop k) := by
  induction s generalizing k with
  | nil => cases k <;> simp [replaceAllFrom]
  | cons c cs ih =>
    cases k with
    | zero => simp
    | succ k => simp only [replaceAllFrom, List.drop_succ_cons]; exact ih k

theorem replaceAll_nil (m : Matcher) : replaceAll m [] = [] := by
  simp [replaceAll, replaceAllFrom]

theorem replaceAll_cons_none (m : Matcher) (c : Char) (cs : Text)
    (h : m (c :: cs) = none) : replaceAll m (c :: cs) = c :: replaceAll m cs := by
  simp [replaceAll, replaceAllFrom, h]

theorem replaceAll_cons_some (m : Matcher) (c : Char) (cs rep : Text) (len : Nat)
    (h : m (c :: cs) = some (rep, len)) :
    replaceAll m (c :: cs) = rep ++ replaceAll m (cs.drop (len - 1)) := by
  simp only [replaceAll, replaceAllFrom, h]
  rw [replaceAllFrom_skip]

/-- Framing on the left: when the pattern matches at no position inside the
prefix `a`, the scan copies `a` and goes on with the rest. -/
theorem replaceAll_append_of_none (m : Matcher) (a s : Text)
    (h : ∀ t, t ≠ [] → t <:+ a → m (t ++ s) = none) :
    replaceAll m (a ++ s) = a ++ replaceAll m s := by
  induction a with
  | nil => simp
  | cons c cs ih =>
    have h1 : m (c :: cs ++ s) = none := h (c :: cs) (by simp) (List.suffix_refl _)
    rw [List.cons_append, replaceAll_cons_none m c (cs ++ s) h1, ih]
    · simp
    · intro t ht hs
      exact h t ht (List.IsSuffix.trans hs (List.suffix_cons c cs))

/-- A scan whose pattern matches nowhere returns the text unchanged. -/
theorem replaceAll_eq_self (m : Matcher) (s : Text)
    (h : ∀ t, t ≠ [] → t <:+ s → m t = none) : replaceAll m s = s := by
  have := replaceAll_append_of_none m s [] (by simpa using h)
  simpa [replaceAll_nil] using this


/-! ## Line breaks -/

theorem lineBreak_nil : lineBreak [] = none := rfl

theorem lineBreak_lf (s : Text) : lineBreak ('\n' :: s) = some (['\n'], s) := rfl

theorem lineBreak_crlf (s : Text) :
    lineBreak ('\r' :: '\n' :: s) = some (['\r', '\n'], s) := rfl

theorem lineBreak_cons_of_ne (c : Char) (s : Text) (h1 : c ≠ '\n') (h2 : c ≠ '\r') :
    lineBreak (c :: s) = none := by
  unfold lineBreak
  split <;> simp_all

theorem lineBreak_some_mem (s nl rest : Text) (h : lineBreak s = some (nl, rest)) :
    '\n' ∈ s := by
  unfold lineBreak at h
  split at h <;> simp_all

theorem lineBreak_some_cases (s nl rest : Text) (h : lineBreak s = some (nl, rest)) :
    (nl = ['\n'] ∧ s = '\n' :: rest) ∨ (nl = ['\r', '\n'] ∧ s = '\r' :: '\n' :: rest) := by
  unfold lineBreak at h
  split at h <;> simp_all


/-! ## Where the patterns cannot match -/

theorem protectMatcher_some_mem (t rep : Text) (len : Nat)
    (h : protectMatcher t = some (rep, len)) : '\n' ∈ t := by
  unfold protectMatcher at h
  split at h
  · split at h
    · rename_i nl rest hnl
      have := lineBreak_some_mem _ _ _ hnl
      simp [this]
    · simp at h
  · simp at h

theorem trailingMatcher_some_mem (t rep : Text) (len : Nat)
    (h : trailingMatcher t = some (rep, len)) : '\n' ∈ t := by
  unfold trailingMatcher at h
  split at h
  · split at h
    · rename_i s _ nl rest hnl
      have h1 := lineBreak_some_mem _ _ _ hnl
      have h2 : '\n' ∈ s := (List.dropWhile_sublist _).subset h1
      simp [h2]
    · simp at h
  · simp at h

theorem stripPrefix_some (p s rest : Text) (h : stripPrefix p s = some rest) :
    s = p ++ rest := by
  induction p generalizing s with
  | nil => simp [stripPrefix] at h; simp [h]
  | cons a p ih =>
    cases s with
    | nil => simp [stripPrefix] at h
    | cons c cs =>
      simp only [stripPrefix] at h
      split at h
      · rename_i hac
        rw [ih cs h, hac]; rfl
      · simp at h

theorem stripPrefix_append (p rest : Text) : stripPrefix p (p ++ rest) = some rest := by
  induction p with
  | nil => rfl
  | cons a p ih => simp [stripPrefix, ih]

theorem restoreMatcher_some (t rep : Text) (len : Nat)
    (h : restoreMatcher t = some (rep, len)) :
    ∃ nl rest, lineBreak (nl ++ rest) = some (nl, rest) ∧ t = placeholder ++ nl ++ rest ∧
      rep = [' ', ' '] ++ nl ∧ len = placeholder.length + nl.length := by
  unfold restoreMatcher at h
  split at h
  · rename_i rest hp
    split at h
    · rename_i nl rest2 hnl
      refine ⟨nl, rest2, ?_, ?_, ?_, ?_⟩
      · rcases lineBreak_some_cases _ _ _ hnl with ⟨h1, h2⟩ | ⟨h1, h2⟩ <;> subst h1 <;> rfl
      · rw [stripPrefix_some _ _ _ hp]
        rcases lineBreak_some_cases _ _ _ hnl with ⟨h1, h2⟩ | ⟨h1, h2⟩ <;>
          simp [h1, h2]
      · simp at h; simp [h.1]
      · simp at h; simp [h.2]
    · simp at h
  · simp at h

theorem restoreMatcher_some_mem (t rep : Text) (len : Nat)
    (h : restoreMatcher t = some (rep, len)) : '\n' ∈ t := by
  obtain ⟨nl, rest, h1, h2, -, -⟩ := restoreMatcher_some t rep len h
  have := lineBreak_some_mem _ _ _ h1
  rw [h2]; simp only [List.append_assoc, List.mem_append]; right; simpa using this

theorem blankDoubleMatcher_some_mem (t rep : Text) (len : Nat)
    (h : blankDoubleMatcher t = some (rep, len)) : '\n' ∈ t := by
  unfold blankDoubleMatcher at h
  split at h
  · rename_i nl rest hnl
    exact lineBreak_some_mem _ _ _ hnl
  · simp at h

theorem blankDoubleMatcher_cons_of_ne (c : Char) (s : Text) (h1 : c ≠ '\n') (h2 : c ≠ '\r') :
    blankDoubleMatcher (c :: s) = none := by
  unfold blankDoubleMatcher
  rw [lineBreak_cons_of_ne c s h1 h2]

theorem lineBreakRunFrom_cons_of_ne (cnt len : Nat) (last : Text) (c : Char) (s : Text)
    (h1 : c ≠ '\n') (h2 : c ≠ '\r') :
    lineBreakRunFrom cnt len last (c :: s) = (cnt, len, last) := by
  unfold lineBreakRunFrom
  split <;> simp_all

theorem lineBreakRunFrom_nil (cnt len : Nat) (last : Text) :
    lineBreakRunFrom cnt len last [] = (cnt, len, last) := by
  unfold lineBreakRunFrom
  simp

theorem lineBreakRunFrom_lf (cnt len : Nat) (last s : Text) :
    lineBreakRunFrom cnt len last ('\n' :: s) =
      lineBreakRunFrom (cnt + 1) (len + 1) ['\n'] s := by
  rw [lineBreakRunFrom]

theorem lineBreakRunFrom_crlf (cnt len : Nat) (last s : Text) :
    lineBreakRunFrom cnt len last ('\r' :: '\n' :: s) =
      lineBreakRunFrom (cnt + 1) (len + 2) ['\r', '\n'] s := by
  rw [lineBreakRunFrom]

theorem collapseMatcher_cons_of_ne (c : Char) (s : Text) (h1 : c ≠ '\n') (h2 : c ≠ '\r') :
    collapseMatcher (c :: s) = none := by
  simp [collapseMatcher, lineBreakRun, lineBreakRunFrom_cons_of_ne _ _ _ c s h1 h2]

theorem trimEndMatcher_cons_of_ne (c : Char) (s : Text) (h1 : c ≠ '\n') (h2 : c ≠ '\r') :
    trimEndMatcher (c :: s) = none := by
  simp [trimEndMatcher, lineBreakRun, lineBreakRunFrom_cons_of_ne _ _ _ c s h1 h2]

/-! ## The greedy run of line breaks -/



/-- The three shapes of a text with respect to the pattern `(\r?\n)`. -/
theorem lineBreak_shape (s : Text) :
    lineBreak s = none ∨ (∃ r, s = '\n' :: r) ∨ (∃ r, s = '\r' :: '\n' :: r) := by
  cases h : lineBreak s with
  | none => exact Or.inl rfl
  | some p =>
    rcases lineBreak_some_cases s p.1 p.2 h with ⟨-, h2⟩ | ⟨-, h2⟩
    · exact Or.inr (Or.inl ⟨_, h2⟩)
    · exact Or.inr (Or.inr ⟨_, h2⟩)

theorem lineBreakRunFrom_of_none (cnt len : Nat) (last s : Text) (h : lineBreak s = none) :
    lineBreakRunFrom cnt len last s = (cnt, len, last) := by
  unfold lineBreak at h
  split at h
  · simp at h
  · simp at h
  · rename_i h1 h2
    unfold lineBreakRunFrom
    split
    · exact absurd rfl (h1 _)
    · exact absurd rfl (h2 _)
    · rfl

theorem lineBreakRunFrom_eq (n : Nat) : ∀ (cnt len : Nat) (last s : Text), s.length ≤ n →
    lineBreakRunFrom cnt len last s =
      (cnt + (lineBreakRun s).1, len + (lineBreakRun s).2.1,
        if (lineBreakRun s).1 = 0 then last else (lineBreakRun s).2.2) := by
  induction n with
  | zero =>
    intro cnt len last s hs
    have : s = [] := List.length_eq_zero.mp (Nat.le_zero.mp hs)
    subst this
    simp [lineBreakRun, lineBreakRunFrom_nil]
  | succ n ih =>
    intro cnt len last s hs
    rcases lineBreak_shape s with h | ⟨r, rfl⟩ | ⟨r, rfl⟩
    · simp [lineBreakRun, lineBreakRunFrom_of_none _ _ _ s h]
    · have hr : r.length ≤ n := by simp at hs; omega
      rw [lineBreakRun, lineBreakRunFrom_lf, lineBreakRunFrom_lf, ih _ _ _ r hr,
        ih 1 1 ['\n'] r hr]
      simp only [Nat.zero_add]
      refine Prod.ext (by simp; omega) (Prod.ext (by simp; omega) ?_)
      by_cases h0 : (lineBreakRun r).1 = 0 <;> simp [h0]
    · have hr : r.length ≤ n := by simp at hs; omega
      rw [lineBreakRun, lineBreakRunFrom_crlf, lineBreakRunFrom_crlf, ih _ _ _ r hr,
        ih 1 2 ['\r', '\n'] r hr]
      simp only [Nat.zero_add]
      refine Prod.ext (by simp; omega) (Prod.ext (by simp; omega) ?_)
      by_cases h0 : (lineBreakRun r).1 = 0 <;> simp [h0]

theorem lineBreakRun_of_none (s : Text) (h : lineBreak s = none) :
    lineBreakRun s = (0, 0, []) := lineBreakRunFrom_of_none 0 0 [] s h

theorem lineBreakRun_lf (s : Text) :
    lineBreakRun ('\n' :: s) = (1 + (lineBreakRun s).1, 1 + (lineBreakRun s).2.1,
      if (lineBreakRun s).1 = 0 then ['\n'] else (lineBreakRun s).2.2) := by
  rw [lineBreakRun, lineBreakRunFrom_lf, lineBreakRunFrom_eq s.length _ _ _ s (Nat.le_refl _)]

theorem lineBreakRun_crlf (s : Text) :
    lineBreakRun ('\r' :: '\n' :: s) = (1 + (lineBreakRun s).1, 2 + (lineBreakRun s).2.1,
      if (lineBreakRun s).1 = 0 then ['\r', '\n'] else (lineBreakRun s).2.2) := by
  rw [lineBreakRun, lineBreakRunFrom_crlf, lineBreakRunFrom_eq s.length _ _ _ s (Nat.le_refl _)]

/-- A run of line breaks contains a line feed. -/
theorem lineBreakRun_pos_mem (s : Text) (h : 0 < (lineBreakRun s).1) : '\n' ∈ s := by
  rcases lineBreak_shape s with h1 | ⟨r, rfl⟩ | ⟨r, rfl⟩
  · rw [lineBreakRun_of_none s h1] at h; simp at h
  · simp
  · simp

theorem collapseMatcher_some_mem (t rep : Text) (len : Nat)
    (h : collapseMatcher t = some (rep, len)) : '\n' ∈ t := by
  unfold collapseMatcher at h
  split at h
  rename_i cnt len2 last hrun
  split at h
  · rename_i h3
    apply lineBreakRun_pos_mem
    rw [hrun]; simp; omega
  · simp at h

theorem trimEndMatcher_some_mem (t rep : Text) (len : Nat)
    (h : trimEndMatcher t = some (rep, len)) : '\n' ∈ t := by
  unfold trimEndMatcher at h
  split at h
  rename_i cnt len2 last hrun
  split at h
  · rename_i h3
    apply lineBreakRun_pos_mem
    rw [hrun]; simp; omega
  · simp at h

/-- A pattern that needs a line feed leaves a text without line feed unchanged. -/
theorem replaceAll_eq_self_of_no_lf (m : Matcher) (s : Text)
    (hm : ∀ t rep len, m t = some (rep, len) → '\n' ∈ t) (hs : '\n' ∉ s) :
    replaceAll m s = s := by
  apply replaceAll_eq_self
  intro t _ hts
  cases h : m t with
  | none => rfl
  | some p =>
    exact absurd (hts.subset (hm t p.1 p.2 h)) hs

/-! ## Prefixes that the scans copy -/

theorem replaceAll_of_some (m : Matcher) (s rep : Text) (len : Nat)
    (h : m s = some (rep, len)) (hs : s ≠ []) (hlen : 0 < len) :
    replaceAll m s = rep ++ replaceAll m (s.drop len) := by
  cases s with
  | nil => exact absurd rfl hs
  | cons c cs =>
    rw [replaceAll_cons_some m c cs rep len h]
    obtain ⟨k, rfl⟩ : ∃ k, len = k + 1 := ⟨len - 1, by omega⟩
    simp

/-- Framing by first characters: a prefix none of whose characters can start
a match is copied. -/
theorem replaceAll_append_of_heads (m : Matcher) (a s : Text)
    (h : ∀ c ∈ a, ∀ r, m (c :: r) = none) :
    replaceAll m (a ++ s) = a ++ replaceAll m s := by
  apply replaceAll_append_of_none
  intro t ht hta
  cases t with
  | nil => exact absurd rfl ht
  | cons c r => exact h c (hta.subset (List.mem_cons_self c r)) _

theorem replaceAll_eq_self_of_heads (m : Matcher) (s : Text)
    (h : ∀ c ∈ s, ∀ r, m (c :: r) = none) : replaceAll m s = s := by
  have := replaceAll_append_of_heads m s [] h
  simpa [replaceAll_nil] using this

theorem protectMatcher_cons_of_ne (c : Char) (s : Text) (h : c ≠ ' ') :
    protectMatcher (c :: s) = none := by
  unfold protectMatcher
  split
  · rename_i heq
    simp at heq
    exact absurd heq.1 h
  · rfl

theorem protectMatcher_cons_cons_of_ne (d c : Char) (s : Text) (h : c ≠ ' ') :
    protectMatcher (d :: c :: s) = none := by
  unfold protectMatcher
  split
  · rename_i heq
    simp at heq
    exact absurd heq.2.1 h
  · rfl

theorem protectMatcher_of_lineBreak_none (d c : Char) (s : Text) (h : lineBreak s = none) :
    protectMatcher (d :: c :: s) = none := by
  unfold protectMatcher
  split
  · rename_i heq
    simp at heq
    rw [← heq.2.2, h]
  · rfl

theorem protectMatcher_of_lineBreak_some (s nl rest : Text) (h : lineBreak s = some (nl, rest)) :
    protectMatcher (' ' :: ' ' :: s) = some (placeholder ++ nl, 2 + nl.length) := by
  simp [protectMatcher, h]

theorem trailingMatcher_cons_of_ne (c : Char) (s : Text) (h : c ≠ ' ') :
    trailingMatcher (c :: s) = none := by
  unfold trailingMatcher
  split
  · rename_i heq
    simp at heq
    exact absurd heq.1 h
  · rfl

theorem trailingMatcher_sp_of_none (s : Text)
    (h : lineBreak (s.dropWhile (· = ' ')) = none) : trailingMatcher (' ' :: s) = none := by
  simp only [trailingMatcher]
  rw [h]

theorem endSpacesMatcher_cons_of_ne (c : Char) (s : Text) (h : c ≠ ' ') :
    endSpacesMatcher (c :: s) = none := by
  unfold endSpacesMatcher
  split
  · rename_i heq
    simp at heq
    exact absurd heq.1 h
  · rfl

theorem endSpacesMatcher_some_all (t rep : Text) (len : Nat)
    (h : endSpacesMatcher t = some (rep, len)) : ∀ c ∈ t, c = ' ' := by
  unfold endSpacesMatcher at h
  split at h
  · rename_i s
    split at h
    · rename_i hall
      intro c hc
      simp at hc
      rcases hc with rfl | hc
      · rfl
      · simpa using (List.all_eq_true.mp hall) c hc
    · simp at h
  · simp at h

theorem restoreMatcher_cons_of_ne (c : Char) (s : Text) (h : c ≠ Char.ofNat 8225) :
    restoreMatcher (c :: s) = none := by
  have : stripPrefix placeholder (c :: s) = none := by
    simp only [placeholder, List.cons_append, stripPrefix]
    rw [if_neg (fun hh => h hh.symm)]
  simp [restoreMatcher, this]

/-- The number of characters of the placeholder. -/
theorem placeholder_length : placeholder.length = 18 := by decide

theorem placeholder_no_lf : '\n' ∉ placeholder := by decide

theorem placeholder_no_cr : '\r' ∉ placeholder := by decide


/-- The last character of a non-empty suffix is the last character of the text. -/
theorem getLast?_of_suffix (t a : Text) (ht : t ≠ []) (h : t <:+ a) :
    t.getLast? = a.getLast? := by
  obtain ⟨u, rfl⟩ := h
  rw [List.getLast?_append_of_ne_nil u ht]

theorem getLast?_cons_of_ne_nil (c : Char) (r : Text) (hr : r ≠ []) :
    (c :: r).getLast? = r.getLast? := by
  cases r with
  | nil => exact absurd rfl hr
  | cons d r => simp [List.getLast?_cons_cons]

/-- Pattern ` {2}(\r?\n)` matches nowhere inside a line that does not end in
a space, whatever follows the line. -/
theorem protectMatcher_plain (t s : Text) (ht : t ≠ []) (hlf : '\n' ∉ t) (hcr : '\r' ∉ t)
    (hsp : t.getLast? ≠ some ' ') : protectMatcher (t ++ s) = none := by
  match t, ht with
  | [c], _ =>
    have : c ≠ ' ' := by intro h; apply hsp; simp [h]
    exact protectMatcher_cons_of_ne c _ this
  | [c, d], _ =>
    have : d ≠ ' ' := by intro h; apply hsp; simp [h]
    exact protectMatcher_cons_cons_of_ne c d _ this
  | c :: d :: e :: r, _ =>
    have h1 : e ≠ '\n' := by intro h; apply hlf; simp [h]
    have h2 : e ≠ '\r' := by intro h; apply hcr; simp [h]
    exact protectMatcher_of_lineBreak_none c d _ (lineBreak_cons_of_ne e _ h1 h2)

theorem dropWhile_space_plain (r s : Text) (hr : r ≠ []) (hlf : '\n' ∉ r) (hcr : '\r' ∉ r)
    (hsp : r.getLast? ≠ some ' ') : lineBreak ((r ++ s).dropWhile (· = ' ')) = none := by
  induction r with
  | nil => exact absurd rfl hr
  | cons c r ih =>
    by_cases hc : c = ' '
    · subst hc
      have hr2 : r ≠ [] := by intro h; apply hsp; simp [h]
      simp only [List.cons_append, List.dropWhile_cons, decide_True, if_true]
      apply ih hr2
      · intro h; apply hlf; simp [h]
      · intro h; apply hcr; simp [h]
      · intro h; apply hsp
        rw [getLast?_cons_of_ne_nil _ _ hr2]; exact h
    · simp only [List.cons_append, List.dropWhile_cons, hc, decide_False]
      apply lineBreak_cons_of_ne
      · intro h; apply hlf; simp [h]
      · intro h; apply hcr; simp [h]

/-- Pattern ` +(\r?\n)` matches nowhere inside a line that does not end in a
space. -/
theorem trailingMatcher_plain (t s : Text) (ht : t ≠ []) (hlf : '\n' ∉ t) (hcr : '\r' ∉ t)
    (hsp : t.getLast? ≠ some ' ') : trailingMatcher (t ++ s) = none := by
  cases t with
  | nil => exact absurd rfl ht
  | cons c r =>
    by_cases hc : c = ' '
    · subst hc
      have hr2 : r ≠ [] := by intro h; apply hsp; simp [h]
      apply trailingMatcher_sp_of_none
      apply dropWhile_space_plain r s hr2
      · intro h; apply hlf; simp [h]
      · intro h; apply hcr; simp [h]
      · intro h; apply hsp
        rw [getLast?_cons_of_ne_nil _ _ hr2]; exact h
    · exact trailingMatcher_cons_of_ne c _ hc

/-! ## The passes on a line without line break -/

theorem mem_of_suffix_ne (t a : Text) (x : Char) (h : t <:+ a) (hx : x ∉ a) : x ∉ t :=
  fun hm => hx (h.subset hm)

theorem protect_append_plain (a s : Text) (hlf : '\n' ∉ a) (hcr : '\r' ∉ a)
    (hsp : a.getLast? ≠ some ' ') :
    replaceAll protectMatcher (a ++ s) = a ++ replaceAll protectMatcher s := by
  apply replaceAll_append_of_none
  intro t ht hta
  apply protectMatcher_plain t s ht (mem_of_suffix_ne t a _ hta hlf)
    (mem_of_suffix_ne t a _ hta hcr)
  rw [getLast?_of_suffix t a ht hta]; exact hsp

theorem trailing_append_plain (a s : Text) (hlf : '\n' ∉ a) (hcr : '\r' ∉ a)
    (hsp : a.getLast? ≠ some ' ') :
    replaceAll trailingMatcher (a ++ s) = a ++ replaceAll trailingMatcher s := by
  apply replaceAll_append_of_none
  intro t ht hta
  apply trailingMatcher_plain t s ht (mem_of_suffix_ne t a _ hta hlf)
    (mem_of_suffix_ne t a _ hta hcr)
  rw [getLast?_of_suffix t a ht hta]; exact hsp

/-- Pattern ` +$` leaves a text that does not end in a space unchanged. -/
theorem endSpaces_eq_self (s : Text) (hsp : s.getLast? ≠ some ' ') :
    replaceAll endSpacesMatcher s = s := by
  apply replaceAll_eq_self
  intro t ht hts
  cases h : endSpacesMatcher t with
  | none => rfl
  | some p =>
    exfalso
    apply hsp
    rw [← getLast?_of_suffix t s ht hts]
    have hall := endSpacesMatcher_some_all t p.1 p.2 h
    rw [List.getLast?_eq_getLast t ht, hall _ (List.getLast_mem ht)]

/-- When the restoring pattern matches a text that starts with a line
without line break followed by a line feed, the line is the placeholder. -/
theorem restoreMatcher_line (t r rep : Text) (len : Nat) (hlf : '\n' ∉ t) (hcr : '\r' ∉ t)
    (h : restoreMatcher (t ++ '\n' :: r) = some (rep, len)) : t = placeholder := by
  obtain ⟨nl, rest, hnl, heq, -, -⟩ := restoreMatcher_some _ _ _ h
  have hnl2 : ∃ x nl2, nl = x :: nl2 ∧ (x = '\n' ∨ x = '\r') := by
    rcases lineBreak_some_cases _ _ _ hnl with ⟨h1, _⟩ | ⟨h1, _⟩
    · exact ⟨_, _, h1, Or.inl rfl⟩
    · exact ⟨_, _, h1, Or.inr rfl⟩
  obtain ⟨x, nl2, rfl, hx⟩ := hnl2
  rw [List.append_assoc] at heq
  rcases List.append_eq_append_iff.mp heq with ⟨u, h1, h2⟩ | ⟨u, h1, h2⟩
  · -- placeholder = t ++ u
    cases u with
    | nil => simpa using h1.symm
    | cons y u =>
      exfalso
      simp at h2
      have : '\n' ∈ placeholder := by rw [h1, ← h2.1]; simp
      exact placeholder_no_lf this
  · -- t = placeholder ++ u
    cases u with
    | nil => simpa using h1
    | cons y u =>
      exfalso
      simp at h2
      have hy : y ∈ t := by rw [h1]; simp
      rcases hx with hx | hx
      · rw [← h2.1, hx] at hy; exact hlf hy
      · rw [← h2.1, hx] at hy; exact hcr hy

theorem restore_append_plain (a r : Text) (hlf : '\n' ∉ a) (hcr : '\r' ∉ a)
    (hph : ¬ placeholder <:+ a) :
    replaceAll restoreMatcher (a ++ '\n' :: r) = a ++ replaceAll restoreMatcher ('\n' :: r) := by
  apply replaceAll_append_of_none
  intro t _ hta
  cases h : restoreMatcher (t ++ '\n' :: r) with
  | none => rfl
  | some p =>
    exfalso
    apply hph
    rw [← restoreMatcher_line t r p.1 p.2 (mem_of_suffix_ne t a _ hta hlf)
      (mem_of_suffix_ne t a _ hta hcr) h]
    exact hta

theorem blankDouble_append_plain (a s : Text) (hlf : '\n' ∉ a) (hcr : '\r' ∉ a) :
    replaceAll blankDoubleMatcher (a ++ s) = a ++ replaceAll blankDoubleMatcher s := by
  apply replaceAll_append_of_heads
  intro c hc r
  exact blankDoubleMatcher_cons_of_ne c r (fun h => hlf (h ▸ hc)) (fun h => hcr (h ▸ hc))

theorem collapse_append_plain (a s : Text) (hlf : '\n' ∉ a) (hcr : '\r' ∉ a) :
    replaceAll collapseMatcher (a ++ s) = a ++ replaceAll collapseMatcher s := by
  apply replaceAll_append_of_heads
  intro c hc r
  exact collapseMatcher_cons_of_ne c r (fun h => hlf (h ▸ hc)) (fun h => hcr (h ▸ hc))

theorem trimEnd_append_plain (a s : Text) (hlf : '\n' ∉ a) (hcr : '\r' ∉ a) :
    replaceAll trimEndMatcher (a ++ s) = a ++ replaceAll trimEndMatcher s := by
  apply replaceAll_append_of_heads
  intro c hc r
  exact trimEndMatcher_cons_of_ne c r (fun h => hlf (h ▸ hc)) (fun h => hcr (h ▸ hc))

theorem lineBreak_of_no_lf (s : Text) (h : '\n' ∉ s) : lineBreak s = none := by
  cases hs : lineBreak s with
  | none => rfl
  | some p => exact absurd (lineBreak_some_mem s p.1 p.2 hs) h

theorem protect_no_lf (s : Text) (h : '\n' ∉ s) : replaceAll protectMatcher s = s :=
  replaceAll_eq_self_of_no_lf _ s protectMatcher_some_mem h

theorem trailing_no_lf (s : Text) (h : '\n' ∉ s) : replaceAll trailingMatcher s = s :=
  replaceAll_eq_self_of_no_lf _ s trailingMatcher_some_mem h

theorem restore_no_lf (s : Text) (h : '\n' ∉ s) : replaceAll restoreMatcher s = s :=
  replaceAll_eq_self_of_no_lf _ s restoreMatcher_some_mem h

theorem blankDouble_no_lf (s : Text) (h : '\n' ∉ s) : replaceAll blankDoubleMatcher s = s :=
  replaceAll_eq_self_of_no_lf _ s blankDoubleMatcher_some_mem h

theorem collapse_no_lf (s : Text) (h : '\n' ∉ s) : replaceAll collapseMatcher s = s :=
  replaceAll_eq_self_of_no_lf _ s collapseMatcher_some_mem h

theorem trimEnd_no_lf (s : Text) (h : '\n' ∉ s) : replaceAll trimEndMatcher s = s :=
  replaceAll_eq_self_of_no_lf _ s trimEndMatcher_some_mem h

/-! ## Line feeds after a line -/

theorem blankDoubleMatcher_lf_of_no_lf (b : Text) (h : '\n' ∉ b) :
    blankDoubleMatcher ('\n' :: b) = none := by
  unfold blankDoubleMatcher
  rw [lineBreak_lf]
  split
  · rename_i nl rest heq
    simp at heq
    have : lineBreak rest = none := by
      apply lineBreak_of_no_lf
      intro hm; apply h; rw [heq.2]; simp [hm]
    rw [this]
  · rfl

theorem lineBreakRun_of_no_lf (b : Text) (h : '\n' ∉ b) : lineBreakRun b = (0, 0, []) :=
  lineBreakRun_of_none b (lineBreak_of_no_lf b h)

theorem collapseMatcher_lf_of_no_lf (b : Text) (h : '\n' ∉ b) :
    collapseMatcher ('\n' :: b) = none := by
  simp [collapseMatcher, lineBreakRun_lf, lineBreakRun_of_no_lf b h]

theorem trimEndMatcher_lf_of_no_lf (b : Text) (h : '\n' ∉ b) :
    trimEndMatcher ('\n' :: b) = none := by
  simp [trimEndMatcher, lineBreakRun_lf, lineBreakRun_of_no_lf b h]

theorem placeholder_getLast? : placeholder.getLast? = some (Char.ofNat 8225) := by decide

theorem placeholder_ne_nil : placeholder ≠ [] := by decide

theorem restoreMatcher_placeholder_lf (b : Text) :
    restoreMatcher (placeholder ++ '\n' :: b) = some ([' ', ' ', '\n'], 19) := by
  simp [restoreMatcher, stripPrefix_append, lineBreak_lf, placeholder_length]

theorem drop_placeholder_lf (b : Text) : (placeholder ++ '\n' :: b).drop 19 = b := by
  have : (placeholder ++ '\n' :: b) = (placeholder ++ ['\n']) ++ b := by simp
  rw [this, List.drop_left' (by simp [placeholder_length])]

/-- A line that ends in two spaces goes through `sanitize` unchanged, pass by
pass: the two spaces become the placeholder and come back. -/
theorem sanitize_hardBreak (a b : Text) (halF : '\n' ∉ a) (haCr : '\r' ∉ a)
    (haSp : a.getLast? ≠ some ' ') (hbLf : '\n' ∉ b)
    (hbSp : b.getLast? ≠ some ' ') :
    sanitize (a ++ [' ', ' ', '\n'] ++ b) = a ++ [' ', ' ', '\n'] ++ b := by
  have h1 : replaceAll protectMatcher (a ++ [' ', ' ', '\n'] ++ b) =
      a ++ placeholder ++ '\n' :: b := by
    rw [List.append_assoc, protect_append_plain a _ halF haCr haSp]
    have hm : protectMatcher ([' ', ' ', '\n'] ++ b) = some (placeholder ++ ['\n'], 3) := by
      simp [protectMatcher, lineBreak_lf]
    rw [replaceAll_of_some _ _ _ _ hm (by simp) (by decide)]
    simp [protect_no_lf b hbLf]
  have hap : (a ++ placeholder).getLast? ≠ some ' ' := by
    rw [List.getLast?_append_of_ne_nil _ placeholder_ne_nil, placeholder_getLast?]
    decide
  have haplf : '\n' ∉ a ++ placeholder := by
    simp [halF, placeholder_no_lf]
  have hapcr : '\r' ∉ a ++ placeholder := by
    simp [haCr, placeholder_no_cr]
  have h2 : replaceAll trailingMatcher (a ++ placeholder ++ '\n' :: b) =
      a ++ placeholder ++ '\n' :: b := by
    rw [trailing_append_plain (a ++ placeholder) _ haplf hapcr hap,
      replaceAll_cons_none _ _ _ (trailingMatcher_cons_of_ne '\n' b (by decide)),
      trailing_no_lf b hbLf]
  have h3 : replaceAll endSpacesMatcher (a ++ placeholder ++ '\n' :: b) =
      a ++ placeholder ++ '\n' :: b := by
    apply endSpaces_eq_self
    rw [List.getLast?_append_of_ne_nil _ (by simp)]
    cases b with
    | nil => decide
    | cons c b => rw [getLast?_cons_of_ne_nil _ _ (by simp)]; exact hbSp
  have h4 : replaceAll restoreMatcher (a ++ placeholder ++ '\n' :: b) =
      a ++ [' ', ' ', '\n'] ++ b := by
    rw [List.append_assoc, replaceAll_append_of_none restoreMatcher a (placeholder ++ '\n' :: b)]
    · rw [replaceAll_of_some _ _ _ _ (restoreMatcher_placeholder_lf b)
        (by simp) (by decide), drop_placeholder_lf, restore_no_lf b hbLf]
      simp
    · intro t ht hta
      cases h : restoreMatcher (t ++ (placeholder ++ '\n' :: b)) with
      | none => rfl
      | some p =>
        exfalso
        rw [← List.append_assoc] at h
        have hlf2 : '\n' ∉ t ++ placeholder := by
          simp [mem_of_suffix_ne t a _ hta halF, placeholder_no_lf]
        have hcr2 : '\r' ∉ t ++ placeholder := by
          simp [mem_of_suffix_ne t a _ hta haCr, placeholder_no_cr]
        have := restoreMatcher_line (t ++ placeholder) b p.1 p.2 hlf2 hcr2 h
        have hlen := congrArg List.length this
        simp at hlen
        exact ht hlen
  have hsplf : '\n' ∉ a ++ [' ', ' '] := by simp [halF]
  have hspcr : '\r' ∉ a ++ [' ', ' '] := by simp [haCr]
  have hsplit : a ++ [' ', ' ', '\n'] ++ b = (a ++ [' ', ' ']) ++ '\n' :: b := by simp
  have h5 : replaceAll blankDoubleMatcher (a ++ [' ', ' ', '\n'] ++ b) =
      a ++ [' ', ' ', '\n'] ++ b := by
    rw [hsplit, blankDouble_append_plain _ _ hsplf hspcr,
      replaceAll_cons_none _ _ _ (blankDoubleMatcher_lf_of_no_lf b hbLf),
      blankDouble_no_lf b hbLf]
  have h6 : replaceAll collapseMatcher (a ++ [' ', ' ', '\n'] ++ b) =
      a ++ [' ', ' ', '\n'] ++ b := by
    rw [hsplit, collapse_append_plain _ _ hsplf hspcr,
      replaceAll_cons_none _ _ _ (collapseMatcher_lf_of_no_lf b hbLf),
      collapse_no_lf b hbLf]
  have h7 : replaceAll trimEndMatcher (a ++ [' ', ' ', '\n'] ++ b) =
      a ++ [' ', ' ', '\n'] ++ b := by
    rw [hsplit, trimEnd_append_plain _ _ hsplf hspcr,
      replaceAll_cons_none _ _ _ (trimEndMatcher_lf_of_no_lf b hbLf),
      trimEnd_no_lf b hbLf]
  simp only [sanitize]
  rw [h1, h2, h3, h4, h5, h6, h7]

/-! ## Runs of line feeds -/

theorem replaceAll_eq_self_of_not_mem (m : Matcher) (x : Char) (s : Text)
    (hm : ∀ t rep len, m t = some (rep, len) → x ∈ t) (hs : x ∉ s) :
    replaceAll m s = s := by
  apply replaceAll_eq_self
  intro t _ hts
  cases h : m t with
  | none => rfl
  | some p => exact absurd (hts.subset (hm t p.1 p.2 h)) hs

theorem blankDoubleMatcher_some_space (t rep : Text) (len : Nat)
    (h : blankDoubleMatcher t = some (rep, len)) : ' ' ∈ t := by
  unfold blankDoubleMatcher at h
  split at h
  · rename_i nl rest hnl
    rcases lineBreak_some_cases _ _ _ hnl with ⟨-, h2⟩ | ⟨-, h2⟩ <;> simp [h2]
  · simp at h

theorem lineBreakRun_replicate (n : Nat) (b : Text) (hb : lineBreak b = none) :
    lineBreakRun (List.replicate n '\n' ++ b) =
      (n, n, if n = 0 then [] else ['\n']) := by
  induction n with
  | zero => simpa using lineBreakRun_of_none b hb
  | succ n ih =>
    rw [List.replicate_succ, List.cons_append, lineBreakRun_lf, ih]
    refine Prod.ext (by simp; omega) (Prod.ext (by simp; omega) ?_)
    by_cases h0 : n = 0 <;> simp [h0]

theorem lf_heads_protect : ∀ c ∈ List.replicate n '\n', ∀ r, protectMatcher (c :: r) = none := by
  intro c hc r
  rw [List.eq_of_mem_replicate hc]
  exact protectMatcher_cons_of_ne _ _ (by decide)

theorem lf_heads_trailing :
    ∀ c ∈ List.replicate n '\n', ∀ r, trailingMatcher (c :: r) = none := by
  intro c hc r
  rw [List.eq_of_mem_replicate hc]
  exact trailingMatcher_cons_of_ne _ _ (by decide)

theorem lf_heads_restore :
    ∀ c ∈ List.replicate n '\n', ∀ r, restoreMatcher (c :: r) = none := by
  intro c hc r
  rw [List.eq_of_mem_replicate hc]
  exact restoreMatcher_cons_of_ne _ _ (by decide)

/-- The passes on a line followed by three or more line feeds at the end of
the text: the run is collapsed to two line feeds, and these are trimmed. -/
theorem sanitize_line_blank_end (c : Text) (k : Nat) (hk : 2 ≤ k) (hlf : '\n' ∉ c)
    (hcr : '\r' ∉ c) (hsp : c.getLast? ≠ some ' ') (hph : ¬ placeholder <:+ c) :
    sanitize (c ++ List.replicate (k + 1) '\n') = c := by
  have h1 : replaceAll protectMatcher (c ++ List.replicate (k + 1) '\n') =
      c ++ List.replicate (k + 1) '\n' := by
    rw [protect_append_plain c _ hlf hcr hsp, replaceAll_eq_self_of_heads _ _ lf_heads_protect]
  have h2 : replaceAll trailingMatcher (c ++ List.replicate (k + 1) '\n') =
      c ++ List.replicate (k + 1) '\n' := by
    rw [trailing_append_plain c _ hlf hcr hsp,
      replaceAll_eq_self_of_heads _ _ lf_heads_trailing]
  have h3 : replaceAll endSpacesMatcher (c ++ List.replicate (k + 1) '\n') =
      c ++ List.replicate (k + 1) '\n' := by
    apply endSpaces_eq_self
    rw [List.getLast?_append_of_ne_nil _ (by simp), List.replicate_succ',
      List.getLast?_append_of_ne_nil _ (by simp)]
    decide
  have h4 : replaceAll restoreMatcher (c ++ List.replicate (k + 1) '\n') =
      c ++ List.replicate (k + 1) '\n' := by
    rw [List.replicate_succ, restore_append_plain c _ hlf hcr hph, ← List.replicate_succ,
      replaceAll_eq_self_of_heads _ _ lf_heads_restore]
  have h5 : replaceAll blankDoubleMatcher (c ++ List.replicate (k + 1) '\n') =
      c ++ List.replicate (k + 1) '\n' := by
    rw [blankDouble_append_plain c _ hlf hcr,
      replaceAll_eq_self_of_not_mem _ ' ' _ blankDoubleMatcher_some_space]
    intro h
    exact absurd (List.eq_of_mem_replicate h) (by decide)
  have h6 : replaceAll collapseMatcher (c ++ List.replicate (k + 1) '\n') =
      c ++ ['\n', '\n'] := by
    rw [collapse_append_plain c _ hlf hcr]
    have hrun := lineBreakRun_replicate (k + 1) [] lineBreak_nil
    rw [List.append_nil] at hrun
    have hm : collapseMatcher (List.replicate (k + 1) '\n') = some (['\n', '\n'], k + 1) := by
      simp only [collapseMatcher, hrun]
      rw [if_pos (by omega)]
      simp
    rw [replaceAll_of_some _ _ _ _ hm (by simp) (by omega)]
    simp [replaceAll_nil]
  have h7 : replaceAll trimEndMatcher (c ++ ['\n', '\n']) = c := by
    rw [trimEnd_append_plain c _ hlf hcr]
    have hm : trimEndMatcher ['\n', '\n'] = some ([], 2) := by decide
    rw [replaceAll_of_some _ _ _ _ hm (by simp) (by decide)]
    simp [replaceAll_nil]
  simp only [sanitize]
  rw [h1, h2, h3, h4, h5, h6, h7]

theorem blankDoubleMatcher_lf_lf (s : Text) : blankDoubleMatcher ('\n' :: '\n' :: s) = none := by
  simp [blankDoubleMatcher, lineBreak_lf]

/-- The passes on two lines separated by four line feeds: the run is
collapsed to two line feeds. -/
theorem sanitize_lines_blank (a b : Text) (halF : '\n' ∉ a) (haCr : '\r' ∉ a)
    (haSp : a.getLast? ≠ some ' ') (haPh : ¬ placeholder <:+ a) (hbLf : '\n' ∉ b)
    (hbSp : b.getLast? ≠ some ' ') (hb : b ≠ []) :
    sanitize (a ++ ['\n', '\n', '\n', '\n'] ++ b) = a ++ ['\n', '\n'] ++ b := by
  have hrep : (['\n', '\n', '\n', '\n'] : Text) = List.replicate 4 '\n' := rfl
  have h1 : replaceAll protectMatcher (a ++ ['\n', '\n', '\n', '\n'] ++ b) =
      a ++ ['\n', '\n', '\n', '\n'] ++ b := by
    rw [List.append_assoc, protect_append_plain a _ halF haCr haSp, hrep,
      replaceAll_append_of_heads _ _ _ lf_heads_protect, protect_no_lf b hbLf]
  have h2 : replaceAll trailingMatcher (a ++ ['\n', '\n', '\n', '\n'] ++ b) =
      a ++ ['\n', '\n', '\n', '\n'] ++ b := by
    rw [List.append_assoc, trailing_append_plain a _ halF haCr haSp, hrep,
      replaceAll_append_of_heads _ _ _ lf_heads_trailing, trailing_no_lf b hbLf]
  have h3 : replaceAll endSpacesMatcher (a ++ ['\n', '\n', '\n', '\n'] ++ b) =
      a ++ ['\n', '\n', '\n', '\n'] ++ b := by
    apply endSpaces_eq_self
    rw [List.getLast?_append_of_ne_nil _ hb]
    exact hbSp
  have h4 : replaceAll restoreMatcher (a ++ ['\n', '\n', '\n', '\n'] ++ b) =
      a ++ ['\n', '\n', '\n', '\n'] ++ b := by
    have e : a ++ ['\n', '\n', '\n', '\n'] ++ b = a ++ '\n' :: (List.replicate 3 '\n' ++ b) := by
      simp [List.replicate]
    rw [e, restore_append_plain a _ halF haCr haPh,
      replaceAll_cons_none _ _ _ (restoreMatcher_cons_of_ne _ _ (by decide)),
      replaceAll_append_of_heads _ _ _ lf_heads_restore, restore_no_lf b hbLf]
  have h5 : replaceAll blankDoubleMatcher (a ++ ['\n', '\n', '\n', '\n'] ++ b) =
      a ++ ['\n', '\n', '\n', '\n'] ++ b := by
    rw [List.append_assoc, blankDouble_append_plain a _ halF haCr]
    simp only [List.cons_append, List.nil_append]
    rw [replaceAll_cons_none _ _ _ (blankDoubleMatcher_lf_lf _),
      replaceAll_cons_none _ _ _ (blankDoubleMatcher_lf_lf _),
      replaceAll_cons_none _ _ _ (blankDoubleMatcher_lf_lf _),
      replaceAll_cons_none _ _ _ (blankDoubleMatcher_lf_of_no_lf b hbLf),
      blankDouble_no_lf b hbLf]
  have h6 : replaceAll collapseMatcher (a ++ ['\n', '\n', '\n', '\n'] ++ b) =
      a ++ ['\n', '\n'] ++ b := by
    rw [List.append_assoc, collapse_append_plain a _ halF haCr]
    have hrun := lineBreakRun_replicate 4 b (lineBreak_of_no_lf b hbLf)
    have hm : collapseMatcher (['\n', '\n', '\n', '\n'] ++ b) = some (['\n', '\n'], 4) := by
      rw [hrep]
      simp only [collapseMatcher, hrun]
      simp
    rw [replaceAll_of_some _ _ _ _ hm (by simp) (by decide)]
    simp [collapse_no_lf b hbLf]
  have h7 : replaceAll trimEndMatcher (a ++ ['\n', '\n'] ++ b) = a ++ ['\n', '\n'] ++ b := by
    rw [List.append_assoc, trimEnd_append_plain a _ halF haCr]
    have hm : trimEndMatcher ('\n' :: '\n' :: b) = none := by
      have hrun := lineBreakRun_replicate 2 b (lineBreak_of_no_lf b hbLf)
      have hl : 0 < b.length := List.length_pos.mpr hb
      simp only [List.replicate, List.cons_append, List.nil_append] at hrun
      simp only [trimEndMatcher, hrun]
      rw [if_neg]
      simp only [List.length_cons, not_and]
      omega
    simp only [List.cons_append, List.nil_append]
    rw [replaceAll_cons_none _ _ _ hm,
      replaceAll_cons_none _ _ _ (trimEndMatcher_lf_of_no_lf b hbLf), trimEnd_no_lf b hbLf]
  simp only [sanitize]
  rw [h1, h2, h3, h4, h5, h6, h7]

/-! ## Carriage returns through the passes -/

theorem crlfOnly_cons_of_ne (c : Char) (s : Text) (h : c ≠ '\r') :
    crlfOnly (c :: s) = crlfOnly s := by
  cases s with
  | nil =>
    unfold crlfOnly
    split <;> simp_all [crlfOnly]
  | cons d r =>
    conv => lhs; unfold crlfOnly
    split <;> simp_all

theorem crlfOnly_crlf (s : Text) : crlfOnly ('\r' :: '\n' :: s) = crlfOnly s := by
  rw [crlfOnly]

theorem crlfOnly_cr (s : Text) (h : crlfOnly ('\r' :: s) = true) :
    ∃ r, s = '\n' :: r ∧ crlfOnly r = true := by
  cases s with
  | nil => simp [crlfOnly] at h
  | cons d r =>
    by_cases hd : d = '\n'
    · subst hd; exact ⟨r, rfl, by rwa [crlfOnly_crlf] at h⟩
    · exfalso
      unfold crlfOnly at h
      split at h
      · rename_i heq; simp at heq
      · rename_i heq; simp at heq; exact hd heq.1
      · simp at h
      · rename_i hne heq; simp at heq; exact hne heq.1.symm

theorem crlfOnly_tail (c : Char) (s : Text) (h : crlfOnly (c :: s) = true) :
    crlfOnly s = true := by
  by_cases hc : c = '\r'
  · subst hc
    obtain ⟨r, rfl, hr⟩ := crlfOnly_cr s h
    rwa [crlfOnly_cons_of_ne _ _ (by decide)]
  · rwa [crlfOnly_cons_of_ne _ _ hc] at h

theorem crlfOnly_drop (k : Nat) (s : Text) (h : crlfOnly s = true) :
    crlfOnly (s.drop k) = true := by
  induction k generalizing s with
  | zero => simpa using h
  | succ k ih =>
    cases s with
    | nil => simpa using h
    | cons c s => simpa using ih s (crlfOnly_tail c s h)

theorem crlfOnly_append (n : Nat) : ∀ u v : Text, u.length ≤ n → crlfOnly u = true →
    crlfOnly v = true → crlfOnly (u ++ v) = true := by
  induction n with
  | zero =>
    intro u v hu _ hv
    have : u = [] := List.length_eq_zero.mp (Nat.le_zero.mp hu)
    subst this; simpa using hv
  | succ n ih =>
    intro u v hu h1 hv
    cases u with
    | nil => simpa using hv
    | cons c u =>
      by_cases hc : c = '\r'
      · subst hc
        obtain ⟨r, rfl, hr⟩ := crlfOnly_cr u h1
        simp only [List.cons_append, crlfOnly_crlf]
        exact ih r v (by simp at hu; omega) hr hv
      · rw [List.cons_append, crlfOnly_cons_of_ne _ _ hc]
        rw [crlfOnly_cons_of_ne _ _ hc] at h1
        exact ih u v (by simp at hu; omega) h1 hv

/-- A scan keeps the carriage returns attached to their line feeds when its
replacements do and when it cannot match at the line feed of a `\r\n` it did
not match at. -/
theorem crlfOnly_replaceAllFrom (m : Matcher)
    (hrep : ∀ t rep len, m t = some (rep, len) → crlfOnly rep = true)
    (hlf : ∀ s, m ('\r' :: '\n' :: s) = none → m ('\n' :: s) = none)
    (s : Text) : ∀ k, crlfOnly s = true → crlfOnly (replaceAllFrom m k s) = true := by
  induction s with
  | nil => intro k _; cases k <;> simp [replaceAllFrom, crlfOnly]
  | cons c cs ih =>
    intro k h
    have hcs := crlfOnly_tail c cs h
    cases k with
    | succ k => simp only [replaceAllFrom]; exact ih k hcs
    | zero =>
      simp only [replaceAllFrom]
      cases hm : m (c :: cs) with
      | some p =>
        simp only
        exact crlfOnly_append _ _ _ (Nat.le_refl _) (hrep _ _ _ hm) (ih _ hcs)
      | none =>
        simp only
        by_cases hc : c = '\r'
        · subst hc
          obtain ⟨r, rfl, hr⟩ := crlfOnly_cr cs h
          have h2 := hlf r hm
          have h3 := ih 0 hcs
          simp only [replaceAllFrom, h2] at h3 ⊢
          rw [crlfOnly_crlf]
          rwa [crlfOnly_cons_of_ne _ _ (by decide)] at h3
        · rw [crlfOnly_cons_of_ne _ _ hc]
          exact ih 0 hcs

theorem crlfOnly_replaceAll (m : Matcher)
    (hrep : ∀ t rep len, m t = some (rep, len) → crlfOnly rep = true)
    (hlf : ∀ s, m ('\r' :: '\n' :: s) = none → m ('\n' :: s) = none)
    (s : Text) (h : crlfOnly s = true) : crlfOnly (replaceAll m s) = true :=
  crlfOnly_replaceAllFrom m hrep hlf s 0 h

/-! ## What a match looks like -/

theorem isLineBreak_of_lineBreak (s nl rest : Text) (h : lineBreak s = some (nl, rest)) :
    IsLineBreak nl ∧ s = nl ++ rest := by
  rcases lineBreak_some_cases s nl rest h with ⟨h1, h2⟩ | ⟨h1, h2⟩
  · exact ⟨Or.inl h1, by simp [h1, h2]⟩
  · exact ⟨Or.inr h1, by simp [h1, h2]⟩

theorem protectMatcher_some (t rep : Text) (len : Nat)
    (h : protectMatcher t = some (rep, len)) :
    ∃ nl rest, IsLineBreak nl ∧ t = ' ' :: ' ' :: nl ++ rest ∧
      rep = placeholder ++ nl ∧ len = 2 + nl.length := by
  unfold protectMatcher at h
  split at h
  · split at h
    · rename_i s _ nl rest hnl
      obtain ⟨h1, h2⟩ := isLineBreak_of_lineBreak _ _ _ hnl
      simp at h
      exact ⟨nl, rest, h1, by simp [h2], h.1.symm, h.2.symm⟩
    · simp at h
  · simp at h

theorem takeWhile_space_eq (s : Text) :
    s.takeWhile (· = ' ') = List.replicate (s.takeWhile (· = ' ')).length ' ' := by
  induction s with
  | nil => rfl
  | cons c s ih =>
    by_cases hc : c = ' '
    · subst hc
      simp only [List.takeWhile_cons, decide_True, if_true, List.length_cons,
        List.replicate_succ]
      rw [← ih]
    · simp [List.takeWhile_cons, hc]

theorem trailingMatcher_some (t rep : Text) (len : Nat)
    (h : trailingMatcher t = some (rep, len)) :
    ∃ n nl rest, IsLineBreak nl ∧ t = List.replicate (n + 1) ' ' ++ nl ++ rest ∧
      rep = nl ∧ len = n + 1 + nl.length := by
  unfold trailingMatcher at h
  split at h
  · split at h
    · rename_i s _ nl rest hnl
      obtain ⟨h1, h2⟩ := isLineBreak_of_lineBreak _ _ _ hnl
      simp at h
      refine ⟨(s.takeWhile (· = ' ')).length, nl, rest, h1, ?_, h.1.symm, by omega⟩
      have hs : s = s.takeWhile (· = ' ') ++ s.dropWhile (· = ' ') :=
        (List.takeWhile_append_dropWhile _ s).symm
      rw [List.replicate_succ, List.cons_append, List.cons_append, ← takeWhile_space_eq,
        List.append_assoc, ← h2, ← hs]
    · simp at h
  · simp at h

theorem endSpacesMatcher_some (t rep : Text) (len : Nat)
    (h : endSpacesMatcher t = some (rep, len)) :
    rep = [] ∧ len = t.length ∧ 0 < len ∧ ∀ c ∈ t, c = ' ' := by
  have hall := endSpacesMatcher_some_all t rep len h
  unfold endSpacesMatcher at h
  split at h
  · split at h
    · simp at h
      refine ⟨h.1, ?_, by omega, hall⟩
      simp; omega
    · simp at h
  · simp at h

theorem blankDoubleMatcher_some (t rep : Text) (len : Nat)
    (h : blankDoubleMatcher t = some (rep, len)) :
    ∃ nl nl2 rest, IsLineBreak nl ∧ IsLineBreak nl2 ∧ t = nl ++ ' ' :: ' ' :: nl2 ++ rest ∧
      rep = nl ∧ len = nl.length + 2 + nl2.length := by
  unfold blankDoubleMatcher at h
  split at h
  · rename_i nl r hnl
    split at h
    · rename_i nl2 rest hnl2
      obtain ⟨h1, h2⟩ := isLineBreak_of_lineBreak _ _ _ hnl
      obtain ⟨h3, h4⟩ := isLineBreak_of_lineBreak _ _ _ hnl2
      simp at h
      exact ⟨nl, nl2, rest, h1, h3, by rw [h2, h4]; simp, h.1.symm, h.2.symm⟩
    · simp at h
  · simp at h

/-- The run of line breaks found by the greedy iteration: it is a prefix of
the text made of carriage returns and line feeds only, the text after it
starts with no line break, and the group holds a line break once one was
taken. -/
theorem lineBreakRun_spec (n : Nat) : ∀ s : Text, s.length ≤ n →
    (lineBreakRun s).2.1 ≤ s.length ∧
    lineBreak (s.drop (lineBreakRun s).2.1) = none ∧
    (∀ c ∈ s.take (lineBreakRun s).2.1, c = '\r' ∨ c = '\n') ∧
    (0 < (lineBreakRun s).1 → IsLineBreak (lineBreakRun s).2.2) ∧
    ((lineBreakRun s).1 = 0 ↔ (lineBreakRun s).2.1 = 0) := by
  induction n with
  | zero =>
    intro s hs
    have : s = [] := List.length_eq_zero.mp (Nat.le_zero.mp hs)
    subst this
    simp [lineBreakRun_of_none [] lineBreak_nil, lineBreak_nil]
  | succ n ih =>
    intro s hs
    rcases lineBreak_shape s with h | ⟨r, rfl⟩ | ⟨r, rfl⟩
    · simp [lineBreakRun_of_none s h, h]
    · obtain ⟨i1, i2, i3, i4, i5⟩ := ih r (by simp at hs; omega)
      rw [lineBreakRun_lf]
      refine ⟨by simp; omega, ?_, ?_, ?_, by simp⟩
      · simpa [Nat.add_comm 1] using i2
      · intro c hc
        simp only [Nat.add_comm 1, List.take_succ_cons, List.mem_cons] at hc
        rcases hc with rfl | hc
        · exact Or.inr rfl
        · exact i3 c hc
      · intro _
        by_cases h0 : (lineBreakRun r).1 = 0
        · simp [h0, IsLineBreak]
        · simp only [h0, if_false]; exact i4 (by omega)
    · obtain ⟨i1, i2, i3, i4, i5⟩ := ih r (by simp at hs; omega)
      rw [lineBreakRun_crlf]
      refine ⟨by simp; omega, ?_, ?_, ?_, by simp⟩
      · simpa [Nat.add_comm 2] using i2
      · intro c hc
        simp only [Nat.add_comm 2, List.take_succ_cons, List.mem_cons] at hc
        rcases hc with rfl | rfl | hc
        · exact Or.inl rfl
        · exact Or.inr rfl
        · exact i3 c hc
      · intro _
        by_cases h0 : (lineBreakRun r).1 = 0
        · simp [h0, IsLineBreak]
        · simp only [h0, if_false]; exact i4 (by omega)

/-! ## Carriage returns: the first five passes -/

theorem crlfOnly_of_isLineBreak (nl : Text) (h : IsLineBreak nl) : crlfOnly nl = true := by
  rcases h with rfl | rfl <;> decide

theorem lineBreak_append_of_isLineBreak (nl rest : Text) (h : IsLineBreak nl) :
    lineBreak (nl ++ rest) = some (nl, rest) := by
  rcases h with rfl | rfl <;> rfl

theorem crlfOnly_protect (s : Text) (h : crlfOnly s = true) :
    crlfOnly (replaceAll protectMatcher s) = true := by
  apply crlfOnly_replaceAll _ _ _ s h
  · intro t rep len hm
    obtain ⟨nl, rest, h1, -, h3, -⟩ := protectMatcher_some t rep len hm
    rw [h3]
    exact crlfOnly_append _ _ _ (Nat.le_refl _) (by decide) (crlfOnly_of_isLineBreak nl h1)
  · intro r _
    exact protectMatcher_cons_of_ne _ _ (by decide)

theorem crlfOnly_trailing (s : Text) (h : crlfOnly s = true) :
    crlfOnly (replaceAll trailingMatcher s) = true := by
  apply crlfOnly_replaceAll _ _ _ s h
  · intro t rep len hm
    obtain ⟨n, nl, rest, h1, -, h3, -⟩ := trailingMatcher_some t rep len hm
    rw [h3]
    exact crlfOnly_of_isLineBreak nl h1
  · intro r _
    exact trailingMatcher_cons_of_ne _ _ (by decide)

theorem crlfOnly_endSpaces (s : Text) (h : crlfOnly s = true) :
    crlfOnly (replaceAll endSpacesMatcher s) = true := by
  apply crlfOnly_replaceAll _ _ _ s h
  · intro t rep len hm
    rw [(endSpacesMatcher_some t rep len hm).1]
    rfl
  · intro r _
    exact endSpacesMatcher_cons_of_ne _ _ (by decide)

theorem crlfOnly_restore (s : Text) (h : crlfOnly s = true) :
    crlfOnly (replaceAll restoreMatcher s) = true := by
  apply crlfOnly_replaceAll _ _ _ s h
  · intro t rep len hm
    obtain ⟨nl, rest, h1, -, h3, -⟩ := restoreMatcher_some t rep len hm
    rw [h3]
    have hnl : IsLineBreak nl := by
      have := (isLineBreak_of_lineBreak _ _ _ h1).1
      exact this
    exact crlfOnly_append _ _ _ (Nat.le_refl _) (by decide) (crlfOnly_of_isLineBreak nl hnl)
  · intro r _
    exact restoreMatcher_cons_of_ne _ _ (by decide)

theorem blankDoubleMatcher_lf_of_crlf (s : Text)
    (h : blankDoubleMatcher ('\r' :: '\n' :: s) = none) :
    blankDoubleMatcher ('\n' :: s) = none := by
  cases hm : blankDoubleMatcher ('\n' :: s) with
  | none => rfl
  | some p =>
    exfalso
    obtain ⟨nl, nl2, rest, h1, h2, h3, -, -⟩ := blankDoubleMatcher_some _ _ _ hm
    have hs : s = ' ' :: ' ' :: nl2 ++ rest := by
      rcases h1 with rfl | rfl
      · simpa using h3
      · simp at h3
    rw [hs] at h
    simp [blankDoubleMatcher, lineBreak_crlf, lineBreak_append_of_isLineBreak nl2 rest h2] at h

theorem crlfOnly_blankDouble (s : Text) (h : crlfOnly s = true) :
    crlfOnly (replaceAll blankDoubleMatcher s) = true := by
  apply crlfOnly_replaceAll _ _ _ s h
  · intro t rep len hm
    obtain ⟨nl, nl2, rest, h1, -, -, h3, -⟩ := blankDoubleMatcher_some t rep len hm
    rw [h3]
    exact crlfOnly_of_isLineBreak nl h1
  · exact blankDoubleMatcher_lf_of_crlf

/-! ## The collapsing pass leaves no run of three line breaks -/

theorem lineBreakRun_isLineBreak_append (nl s : Text) (h : IsLineBreak nl) :
    (lineBreakRun (nl ++ s)).1 = 1 + (lineBreakRun s).1 := by
  rcases h with rfl | rfl
  · simp [lineBreakRun_lf]
  · simp [lineBreakRun_crlf]


theorem noTripleBreak_nil : NoTripleBreak [] := by
  intro t ht
  rw [List.suffix_nil.mp ht, lineBreakRun_of_none [] lineBreak_nil]
  decide

theorem noTripleBreak_cons (c : Char) (y : Text) (hy : NoTripleBreak y)
    (hc : (lineBreakRun (c :: y)).1 < 3) : NoTripleBreak (c :: y) := by
  intro t ht
  rcases List.suffix_cons_iff.mp ht with rfl | h
  · exact hc
  · exact hy t h

theorem noTripleBreak_lineBreak_append (nl y : Text) (h : IsLineBreak nl)
    (hy : NoTripleBreak y) (hle : (lineBreakRun y).1 ≤ 1) : NoTripleBreak (nl ++ y) := by
  rcases h with rfl | rfl
  · apply noTripleBreak_cons _ _ hy
    rw [lineBreakRun_lf]; simp; omega
  · apply noTripleBreak_cons
    · apply noTripleBreak_cons _ _ hy
      rw [lineBreakRun_lf]; simp; omega
    · show (lineBreakRun ('\r' :: '\n' :: y)).1 < 3
      rw [lineBreakRun_crlf]; simp; omega

theorem collapseMatcher_of_lt (s : Text) (h : (lineBreakRun s).1 < 3) :
    collapseMatcher s = none := by
  simp only [collapseMatcher]
  rw [if_neg (by omega)]

theorem collapseMatcher_of_ge (s : Text) (h : 3 ≤ (lineBreakRun s).1) :
    collapseMatcher s =
      some ((lineBreakRun s).2.2 ++ (lineBreakRun s).2.2, (lineBreakRun s).2.1) := by
  simp only [collapseMatcher]
  rw [if_pos h]

theorem lineBreakRun_lf_count (s : Text) :
    (lineBreakRun ('\n' :: s)).1 = 1 + (lineBreakRun s).1 := by
  rw [lineBreakRun_lf]

theorem lineBreakRun_crlf_count (s : Text) :
    (lineBreakRun ('\r' :: '\n' :: s)).1 = 1 + (lineBreakRun s).1 := by
  rw [lineBreakRun_crlf]

/-- On a text whose carriage returns all belong to `\r\n`, the collapsing
pass leaves no run of three line breaks, and a run of line breaks at the
start of the text is cut down to at most two. -/
theorem collapse_cap (n : Nat) : ∀ x : Text, x.length ≤ n → crlfOnly x = true →
    NoTripleBreak (replaceAll collapseMatcher x) ∧
      (lineBreakRun (replaceAll collapseMatcher x)).1 = min (lineBreakRun x).1 2 := by
  induction n with
  | zero =>
    intro x hx _
    have : x = [] := List.length_eq_zero.mp (Nat.le_zero.mp hx)
    subst this
    rw [replaceAll_nil]
    exact ⟨noTripleBreak_nil, by simp [lineBreakRun_of_none [] lineBreak_nil]⟩
  | succ n ih =>
    intro x hx hwf
    by_cases hge : 3 ≤ (lineBreakRun x).1
    · -- the pattern matches at the start of the text
      obtain ⟨s1, s2, -, s4, s5⟩ := lineBreakRun_spec x.length x (Nat.le_refl _)
      have hlen : 0 < (lineBreakRun x).2.1 := by
        rcases Nat.eq_zero_or_pos (lineBreakRun x).2.1 with h0 | h0
        · have := s5.mpr h0; omega
        · exact h0
      have hne : x ≠ [] := by
        intro h; subst h; simp at s1; omega
      rw [replaceAll_of_some _ _ _ _ (collapseMatcher_of_ge x hge) hne hlen]
      have hrest : (x.drop (lineBreakRun x).2.1).length ≤ n := by
        simp; omega
      obtain ⟨i1, i2⟩ := ih _ hrest (crlfOnly_drop _ x hwf)
      rw [lineBreakRun_of_none _ s2] at i2
      simp only [Nat.zero_min] at i2
      have hbr := s4 (by omega)
      have hmid : (lineBreakRun ((lineBreakRun x).2.2 ++
          replaceAll collapseMatcher (x.drop (lineBreakRun x).2.1))).1 = 1 := by
        rw [lineBreakRun_isLineBreak_append _ _ hbr, i2]
      constructor
      · rw [List.append_assoc]
        apply noTripleBreak_lineBreak_append _ _ hbr _ (by omega)
        exact noTripleBreak_lineBreak_append _ _ hbr i1 (by omega)
      · rw [List.append_assoc, lineBreakRun_isLineBreak_append _ _ hbr, hmid]
        omega
    · -- the pattern does not match at the start of the text
      have hlt : (lineBreakRun x).1 < 3 := by omega
      rcases lineBreak_shape x with h | ⟨r, rfl⟩ | ⟨r, rfl⟩
      · cases x with
        | nil =>
          rw [replaceAll_nil]
          exact ⟨noTripleBreak_nil, by simp [lineBreakRun_of_none [] lineBreak_nil]⟩
        | cons c cs =>
          have hc1 : c ≠ '\n' := by
            intro hc; subst hc; rw [lineBreak_lf] at h; simp at h
          have hc2 : c ≠ '\r' := by
            intro hc; subst hc
            obtain ⟨r, rfl, -⟩ := crlfOnly_cr cs hwf
            rw [lineBreak_crlf] at h; simp at h
          rw [replaceAll_cons_none _ _ _ (collapseMatcher_cons_of_ne c cs hc1 hc2)]
          obtain ⟨i1, -⟩ := ih cs (by simp at hx; omega) (crlfOnly_tail c cs hwf)
          have h0 : ∀ y, (lineBreakRun (c :: y)).1 = 0 := fun y => by
            rw [lineBreakRun_of_none _ (lineBreak_cons_of_ne c y hc1 hc2)]
          refine ⟨noTripleBreak_cons _ _ i1 (by rw [h0]; decide), ?_⟩
          rw [h0, h0]; rfl
      · rw [replaceAll_cons_none _ _ _ (collapseMatcher_of_lt _ hlt)]
        obtain ⟨i1, i2⟩ := ih r (by simp at hx; omega) (crlfOnly_tail _ r hwf)
        rw [lineBreakRun_lf_count] at hlt
        have hr : (lineBreakRun (replaceAll collapseMatcher r)).1 = (lineBreakRun r).1 := by
          rw [i2]; omega
        constructor
        · exact noTripleBreak_lineBreak_append ['\n'] (replaceAll collapseMatcher r)
            (Or.inl rfl) i1 (by omega)
        · rw [lineBreakRun_lf_count, lineBreakRun_lf_count, hr]
          omega
      · have hlt2 : (lineBreakRun ('\n' :: r)).1 < 3 := by
          rw [lineBreakRun_crlf_count] at hlt
          rw [lineBreakRun_lf_count]
          exact hlt
        rw [replaceAll_cons_none _ _ _ (collapseMatcher_of_lt _ hlt),
          replaceAll_cons_none _ _ _ (collapseMatcher_of_lt _ hlt2)]
        have hwf2 : crlfOnly r = true := by rwa [crlfOnly_crlf] at hwf
        obtain ⟨i1, i2⟩ := ih r (by simp at hx; omega) hwf2
        rw [lineBreakRun_crlf_count] at hlt
        have hr : (lineBreakRun (replaceAll collapseMatcher r)).1 = (lineBreakRun r).1 := by
          rw [i2]; omega
        constructor
        · exact noTripleBreak_lineBreak_append ['\r', '\n'] (replaceAll collapseMatcher r)
            (Or.inr rfl) i1 (by omega)
        · rw [lineBreakRun_crlf_count, lineBreakRun_crlf_count, hr]
          omega

/-! ## The trimming pass returns a prefix -/

theorem trimEndMatcher_some (t rep : Text) (len : Nat)
    (h : trimEndMatcher t = some (rep, len)) :
    rep = [] ∧ len = t.length ∧ 2 ≤ (lineBreakRun t).1 ∧ len = (lineBreakRun t).2.1 := by
  simp only [trimEndMatcher] at h
  split at h
  · rename_i hc
    simp at h
    exact ⟨h.1, by omega, hc.1, h.2.symm⟩
  · simp at h

theorem trimEnd_initial (y : Text) : replaceAll trimEndMatcher y <+: y := by
  induction y with
  | nil => simp [replaceAll_nil]
  | cons c cs ih =>
    cases hm : trimEndMatcher (c :: cs) with
    | none =>
      rw [replaceAll_cons_none _ _ _ hm]
      exact (List.prefix_cons_inj c).mpr ih
    | some p =>
      obtain ⟨h1, h2, -, -⟩ := trimEndMatcher_some _ p.1 p.2 hm
      rw [replaceAll_cons_some _ _ _ p.1 p.2 hm, h1, h2]
      simp [replaceAll_nil]

theorem lineBreakRun_append_le (n : Nat) : ∀ t u : Text, t.length ≤ n →
    (lineBreakRun t).1 ≤ (lineBreakRun (t ++ u)).1 := by
  induction n with
  | zero =>
    intro t u ht
    have : t = [] := List.length_eq_zero.mp (Nat.le_zero.mp ht)
    subst this
    simp [lineBreakRun_of_none [] lineBreak_nil]
  | succ n ih =>
    intro t u ht
    rcases lineBreak_shape t with h | ⟨r, rfl⟩ | ⟨r, rfl⟩
    · simp [lineBreakRun_of_none t h]
    · have := ih r u (by simp at ht; omega)
      rw [List.cons_append, lineBreakRun_lf_count, lineBreakRun_lf_count]
      omega
    · have := ih r u (by simp at ht; omega)
      rw [List.cons_append, List.cons_append, lineBreakRun_crlf_count, lineBreakRun_crlf_count]
      omega

theorem noTripleBreak_of_initial (y z : Text) (h : y <+: z) (hz : NoTripleBreak z) :
    NoTripleBreak y := by
  intro t ht
  obtain ⟨u, rfl⟩ := h
  obtain ⟨v, rfl⟩ := ht
  have h1 := lineBreakRun_append_le t.length t u (Nat.le_refl _)
  have h2 := hz (t ++ u) ⟨v, by simp⟩
  omega

theorem noTripleBreak_no_run (y b1 b2 b3 : Text) (hy : NoTripleBreak y)
    (h1 : IsLineBreak b1) (h2 : IsLineBreak b2) (h3 : IsLineBreak b3) :
    ¬ (b1 ++ b2 ++ b3 <:+: y) := by
  rintro ⟨u, v, rfl⟩
  have := hy (b1 ++ (b2 ++ (b3 ++ v))) ⟨u, by simp⟩
  rw [lineBreakRun_isLineBreak_append _ _ h1, lineBreakRun_isLineBreak_append _ _ h2,
    lineBreakRun_isLineBreak_append _ _ h3] at this
  omega

/-- The output of `sanitize` has no run of three line breaks when every
carriage return of the input belongs to a `\r\n`. -/
theorem sanitize_noTripleBreak (x : Text) (hx : crlfOnly x = true) :
    NoTripleBreak (sanitize x) := by
  simp only [sanitize]
  apply noTripleBreak_of_initial _ _ (trimEnd_initial _)
  exact (collapse_cap _ _ (Nat.le_refl _)
    (crlfOnly_blankDouble _ (crlfOnly_restore _ (crlfOnly_endSpaces _
      (crlfOnly_trailing _ (crlfOnly_protect _ hx)))))).1

/-! ## Runs of spaces through the first four passes -/

theorem suffix_replicate (t : Text) (n : Nat) (c : Char) (h : t <:+ List.replicate n c) :
    t = List.replicate t.length c := by
  apply List.eq_replicate_of_mem
  intro b hb
  exact List.eq_of_mem_replicate (h.subset hb)

theorem dropWhile_space_of_head (z : Text) (h : z.head? ≠ some ' ') :
    z.dropWhile (· = ' ') = z := by
  cases z with
  | nil => rfl
  | cons d z =>
    have : d ≠ ' ' := by intro hd; apply h; simp [hd]
    simp [List.dropWhile_cons, this]

theorem dropWhile_space_replicate (j : Nat) (z : Text) :
    (List.replicate j ' ' ++ z).dropWhile (· = ' ') = z.dropWhile (· = ' ') := by
  induction j with
  | zero => rfl
  | succ j ih => simp [List.replicate_succ, List.dropWhile_cons, ih]

theorem takeWhile_space_of_head (z : Text) (h : z.head? ≠ some ' ') :
    z.takeWhile (· = ' ') = [] := by
  cases z with
  | nil => rfl
  | cons d z =>
    have : d ≠ ' ' := by intro hd; apply h; simp [hd]
    simp [List.takeWhile_cons, this]

theorem lineBreak_space (s : Text) : lineBreak (' ' :: s) = none :=
  lineBreak_cons_of_ne ' ' s (by decide) (by decide)

theorem protectMatcher_spaces (j : Nat) (rest : Text) (hh : rest.head? ≠ some ' ')
    (hl : lineBreak rest = none) :
    protectMatcher (List.replicate (j + 1) ' ' ++ rest) = none := by
  match j with
  | 0 =>
    cases rest with
    | nil => decide
    | cons d r =>
      have : d ≠ ' ' := by intro hd; apply hh; simp [hd]
      exact protectMatcher_cons_cons_of_ne _ _ _ this
  | 1 => exact protectMatcher_of_lineBreak_none _ _ _ hl
  | j + 2 => exact protectMatcher_of_lineBreak_none _ _ _ (lineBreak_space _)

theorem trailingMatcher_spaces (j : Nat) (z : Text) (hh : z.head? ≠ some ' ')
    (hl : lineBreak z = none) :
    trailingMatcher (List.replicate (j + 1) ' ' ++ z) = none := by
  rw [List.replicate_succ, List.cons_append]
  apply trailingMatcher_sp_of_none
  rw [dropWhile_space_replicate, dropWhile_space_of_head z hh]
  exact hl

/-- Framing over a run of spaces: the scan copies the run when the pattern
matches at none of its positions. -/
theorem replaceAll_spaces (m : Matcher) (n : Nat) (z : Text)
    (h : ∀ j, m (List.replicate (j + 1) ' ' ++ z) = none) :
    replaceAll m (List.replicate n ' ' ++ z) = List.replicate n ' ' ++ replaceAll m z := by
  apply replaceAll_append_of_none
  intro t ht hts
  rw [suffix_replicate t n ' ' hts]
  obtain ⟨j, hj⟩ : ∃ j, t.length = j + 1 :=
    ⟨t.length - 1, by have := List.length_pos.mpr ht; omega⟩
  rw [hj]
  exact h j

theorem protect_spaces (n : Nat) (rest : Text) (hh : rest.head? ≠ some ' ')
    (hl : lineBreak rest = none) :
    replaceAll protectMatcher (List.replicate n ' ' ++ rest) =
      List.replicate n ' ' ++ replaceAll protectMatcher rest :=
  replaceAll_spaces _ n rest (fun j => protectMatcher_spaces j rest hh hl)

theorem trailing_spaces (n : Nat) (z : Text) (hh : z.head? ≠ some ' ')
    (hl : lineBreak z = none) :
    replaceAll trailingMatcher (List.replicate n ' ' ++ z) =
      List.replicate n ' ' ++ replaceAll trailingMatcher z :=
  replaceAll_spaces _ n z (fun j => trailingMatcher_spaces j z hh hl)

theorem endSpacesMatcher_of_mem (t : Text) (d : Char) (hd : d ≠ ' ') (hm : d ∈ t) :
    endSpacesMatcher t = none := by
  cases h : endSpacesMatcher t with
  | none => rfl
  | some p => exact absurd (endSpacesMatcher_some_all t p.1 p.2 h d hm) hd

theorem endSpaces_spaces (n : Nat) (d : Char) (z : Text) (hd : d ≠ ' ') :
    replaceAll endSpacesMatcher (List.replicate n ' ' ++ d :: z) =
      List.replicate n ' ' ++ replaceAll endSpacesMatcher (d :: z) :=
  replaceAll_spaces _ n _ (fun _ => endSpacesMatcher_of_mem _ d hd (by simp))

theorem restore_spaces (n : Nat) (z : Text) :
    replaceAll restoreMatcher (List.replicate n ' ' ++ z) =
      List.replicate n ' ' ++ replaceAll restoreMatcher z := by
  apply replaceAll_append_of_heads
  intro c hc r
  rw [List.eq_of_mem_replicate hc]
  exact restoreMatcher_cons_of_ne _ _ (by decide)

/-- The scan copies a line break at whose characters the pattern cannot
start. -/
theorem replaceAll_lineBreak_heads (m : Matcher) (nl z : Text) (hnl : IsLineBreak nl)
    (h1 : ∀ r, m ('\n' :: r) = none) (h2 : ∀ r, m ('\r' :: r) = none) :
    replaceAll m (nl ++ z) = nl ++ replaceAll m z := by
  apply replaceAll_append_of_heads
  intro c hc r
  rcases hnl with rfl | rfl
  · simp at hc; subst hc; exact h1 r
  · simp at hc; rcases hc with rfl | rfl
    · exact h2 r
    · exact h1 r

theorem protect_lineBreak (nl z : Text) (hnl : IsLineBreak nl) :
    replaceAll protectMatcher (nl ++ z) = nl ++ replaceAll protectMatcher z :=
  replaceAll_lineBreak_heads _ nl z hnl
    (fun _ => protectMatcher_cons_of_ne _ _ (by decide))
    (fun _ => protectMatcher_cons_of_ne _ _ (by decide))

theorem trailing_lineBreak (nl z : Text) (hnl : IsLineBreak nl) :
    replaceAll trailingMatcher (nl ++ z) = nl ++ replaceAll trailingMatcher z :=
  replaceAll_lineBreak_heads _ nl z hnl
    (fun _ => trailingMatcher_cons_of_ne _ _ (by decide))
    (fun _ => trailingMatcher_cons_of_ne _ _ (by decide))

theorem endSpaces_lineBreak (nl z : Text) (hnl : IsLineBreak nl) :
    replaceAll endSpacesMatcher (nl ++ z) = nl ++ replaceAll endSpacesMatcher z :=
  replaceAll_lineBreak_heads _ nl z hnl
    (fun _ => endSpacesMatcher_cons_of_ne _ _ (by decide))
    (fun _ => endSpacesMatcher_cons_of_ne _ _ (by decide))

theorem restore_lineBreak (nl z : Text) (hnl : IsLineBreak nl) :
    replaceAll restoreMatcher (nl ++ z) = nl ++ replaceAll restoreMatcher z :=
  replaceAll_lineBreak_heads _ nl z hnl
    (fun _ => restoreMatcher_cons_of_ne _ _ (by decide))
    (fun _ => restoreMatcher_cons_of_ne _ _ (by decide))

/-! ## The first three passes, run of spaces by run of spaces -/

theorem sanitize_eq (x : Text) :
    sanitize x = replaceAll trimEndMatcher (replaceAll collapseMatcher
      (replaceAll blankDoubleMatcher (trailingSpacePasses x))) := rfl

theorem stripPasses_nil : stripPasses [] = [] := by
  simp [stripPasses, replaceAll_nil]

theorem stripPasses_cons (c : Char) (r : Text) (h1 : c ≠ ' ') :
    stripPasses (c :: r) = c :: stripPasses r := by
  simp only [stripPasses]
  rw [replaceAll_cons_none _ _ _ (protectMatcher_cons_of_ne c r h1),
    replaceAll_cons_none _ _ _ (trailingMatcher_cons_of_ne c _ h1),
    replaceAll_cons_none _ _ _ (endSpacesMatcher_cons_of_ne c _ h1)]

theorem stripPasses_append (w s : Text) (hw : ∀ c ∈ w, c ≠ ' ') :
    stripPasses (w ++ s) = w ++ stripPasses s := by
  induction w with
  | nil => rfl
  | cons c w ih =>
    rw [List.cons_append, stripPasses_cons _ _ (hw c (by simp)),
      ih (fun d hd => hw d (by simp [hd]))]
    rfl

theorem no_lf_replicate_space (n : Nat) : '\n' ∉ List.replicate n ' ' := by
  intro h
  exact absurd (List.eq_of_mem_replicate h) (by decide)

theorem endSpaces_all_spaces (n : Nat) :
    replaceAll endSpacesMatcher (List.replicate n ' ') = [] := by
  cases n with
  | zero => exact replaceAll_nil _
  | succ n =>
    have hm : endSpacesMatcher (List.replicate (n + 1) ' ') = some ([], n + 1) := by
      simp [endSpacesMatcher, List.replicate_succ, Nat.add_comm]
    rw [replaceAll_of_some _ _ _ _ hm (by simp) (by omega)]
    simp [replaceAll_nil]

/-- A text made of spaces only is emptied. -/
theorem stripPasses_spaces (n : Nat) : stripPasses (List.replicate n ' ') = [] := by
  simp only [stripPasses]
  rw [protect_no_lf _ (no_lf_replicate_space n), trailing_no_lf _ (no_lf_replicate_space n),
    endSpaces_all_spaces]

theorem isLineBreak_head (nl : Text) (h : IsLineBreak nl) :
    ∃ c t, nl = c :: t ∧ c ≠ ' ' ∧ (c = '\n' ∨ c = '\r') := by
  rcases h with rfl | rfl
  · exact ⟨_, _, rfl, by decide, Or.inl rfl⟩
  · exact ⟨_, _, rfl, by decide, Or.inr rfl⟩

/-- A single space before a line break is removed. -/
theorem stripPasses_space_lineBreak (nl r : Text) (hnl : IsLineBreak nl) :
    stripPasses (' ' :: (nl ++ r)) = nl ++ stripPasses r := by
  obtain ⟨c, t, hc, hc1, -⟩ := isLineBreak_head nl hnl
  have hp : protectMatcher (' ' :: (nl ++ r)) = none := by
    rw [hc]; exact protectMatcher_cons_cons_of_ne _ _ _ hc1
  have ht : ∀ z, trailingMatcher (' ' :: (nl ++ z)) = some (nl, 1 + nl.length) := by
    intro z
    have hh : (nl ++ z).head? ≠ some ' ' := by
      rw [hc]; simpa using hc1
    simp only [trailingMatcher]
    rw [dropWhile_space_of_head _ hh, takeWhile_space_of_head _ hh,
      lineBreak_append_of_isLineBreak nl z hnl]
    simp
  have hd : ∀ z, (' ' :: (nl ++ z)).drop (1 + nl.length) = z := by
    intro z
    rw [Nat.add_comm, List.drop_succ_cons, List.drop_left]
  simp only [stripPasses]
  rw [replaceAll_cons_none _ _ _ hp, protect_lineBreak nl r hnl,
    replaceAll_of_some _ _ _ _ (ht _) (by simp) (by omega), hd,
    endSpaces_lineBreak nl _ hnl]

theorem lineBreak_replicate_space_append (k : Nat) (s : Text) :
    lineBreak (List.replicate k ' ' ++ (' ' :: s)) = none := by
  cases k with
  | zero => exact lineBreak_space s
  | succ k => exact lineBreak_space _

theorem protect_spaces_lineBreak (k : Nat) (nl r : Text) (hnl : IsLineBreak nl) :
    replaceAll protectMatcher (List.replicate k ' ' ++ (' ' :: ' ' :: (nl ++ r))) =
      List.replicate k ' ' ++ (placeholder ++ (nl ++ replaceAll protectMatcher r)) := by
  induction k with
  | zero =>
    have hm := protectMatcher_of_lineBreak_some (nl ++ r) nl r
      (lineBreak_append_of_isLineBreak nl r hnl)
    have hd : (' ' :: ' ' :: (nl ++ r)).drop (2 + nl.length) = r := by
      rw [Nat.add_comm, List.drop_succ_cons, List.drop_succ_cons, List.drop_left]
    simp only [List.replicate, List.nil_append]
    rw [replaceAll_of_some _ _ _ _ hm (by simp) (by omega), hd, List.append_assoc]
  | succ k ih =>
    have hm : protectMatcher (' ' :: (List.replicate k ' ' ++ (' ' :: ' ' :: (nl ++ r)))) =
        none := by
      cases k with
      | zero => exact protectMatcher_of_lineBreak_none _ _ _ (lineBreak_space _)
      | succ k =>
        exact protectMatcher_of_lineBreak_none _ _ _ (lineBreak_replicate_space_append _ _)
    rw [List.replicate_succ, List.cons_append, replaceAll_cons_none _ _ _ hm, ih]
    rfl

theorem placeholder_heads_ne_space : ∀ c ∈ placeholder, c ≠ ' ' := by decide

theorem placeholder_cons :
    placeholder = Char.ofNat 8225 :: placeholder.tail := by decide

theorem lineBreak_placeholder_append (s : Text) : lineBreak (placeholder ++ s) = none := by
  rw [placeholder_cons, List.cons_append]
  exact lineBreak_cons_of_ne _ _ (by decide) (by decide)

theorem head?_placeholder_append (s : Text) : (placeholder ++ s).head? ≠ some ' ' := by
  rw [placeholder_cons, List.cons_append]
  simp

theorem restoreMatcher_placeholder_lineBreak (nl z : Text) (hnl : IsLineBreak nl) :
    restoreMatcher (placeholder ++ (nl ++ z)) =
      some ([' ', ' '] ++ nl, placeholder.length + nl.length) := by
  simp [restoreMatcher, stripPrefix_append, lineBreak_append_of_isLineBreak nl z hnl]

/-- Two or more spaces before a line break: the last two become the
placeholder, the others stay. -/
theorem stripPasses_spaces_lineBreak (k : Nat) (nl r : Text) (hnl : IsLineBreak nl) :
    stripPasses (List.replicate k ' ' ++ (' ' :: ' ' :: (nl ++ r))) =
      List.replicate k ' ' ++ (placeholder ++ (nl ++ stripPasses r)) := by
  have h2 : ∀ z, replaceAll trailingMatcher
      (List.replicate k ' ' ++ (placeholder ++ (nl ++ z))) =
      List.replicate k ' ' ++ (placeholder ++ (nl ++ replaceAll trailingMatcher z)) := by
    intro z
    rw [trailing_spaces k _ (head?_placeholder_append _) (lineBreak_placeholder_append _),
      replaceAll_append_of_heads trailingMatcher placeholder _
        (fun c hc r => trailingMatcher_cons_of_ne c r (placeholder_heads_ne_space c hc)),
      trailing_lineBreak nl z hnl]
  have h3 : ∀ z, replaceAll endSpacesMatcher
      (List.replicate k ' ' ++ (placeholder ++ (nl ++ z))) =
      List.replicate k ' ' ++ (placeholder ++ (nl ++ replaceAll endSpacesMatcher z)) := by
    intro z
    have e : placeholder ++ (nl ++ z) = Char.ofNat 8225 :: (placeholder.tail ++ (nl ++ z)) := by
      conv => lhs; rw [placeholder_cons]
      rfl
    rw [e, endSpaces_spaces k _ _ (by decide), ← e,
      replaceAll_append_of_heads endSpacesMatcher placeholder _
        (fun c hc r => endSpacesMatcher_cons_of_ne c r (placeholder_heads_ne_space c hc)),
      endSpaces_lineBreak nl z hnl]
  simp only [stripPasses]
  rw [protect_spaces_lineBreak k nl r hnl, h2, h3]

theorem lineBreak_cr_of_ne (e : Char) (s : Text) (h : e ≠ '\n') :
    lineBreak ('\r' :: e :: s) = none := by
  unfold lineBreak
  split
  · rename_i heq; simp at heq
  · rename_i heq; simp at heq; exact absurd heq.1 h
  · rfl

/-- The protecting pass does not bring a line feed to the front of a text. -/
theorem lineBreak_cons_protect (d : Char) (r : Text) (h : lineBreak (d :: r) = none) :
    lineBreak (d :: replaceAll protectMatcher r) = none := by
  have hd : d ≠ '\n' := by
    intro hd; subst hd; rw [lineBreak_lf] at h; simp at h
  by_cases hcr : d = '\r'
  · subst hcr
    cases r with
    | nil => rw [replaceAll_nil]; rfl
    | cons e r =>
      have he : e ≠ '\n' := by
        intro he; subst he; rw [lineBreak_crlf] at h; simp at h
      cases hm : protectMatcher (e :: r) with
      | none =>
        rw [replaceAll_cons_none _ _ _ hm]
        exact lineBreak_cr_of_ne e _ he
      | some p =>
        obtain ⟨nl, rest, -, -, h3, -⟩ := protectMatcher_some _ p.1 p.2 hm
        rw [replaceAll_cons_some _ _ _ p.1 p.2 hm, h3, placeholder_cons]
        exact lineBreak_cr_of_ne _ _ (by decide)
  · exact lineBreak_cons_of_ne d _ hd hcr

/-- Spaces that are followed by something else than a line break are kept. -/
theorem stripPasses_spaces_cons (n : Nat) (d : Char) (r : Text) (h1 : d ≠ ' ')
    (hl : lineBreak (d :: r) = none) :
    stripPasses (List.replicate n ' ' ++ (d :: r)) =
      List.replicate n ' ' ++ stripPasses (d :: r) := by
  have hh : ∀ z : Text, (d :: z).head? ≠ some ' ' := by
    intro z; simpa using h1
  simp only [stripPasses]
  rw [protect_spaces n _ (hh r) hl,
    replaceAll_cons_none _ _ _ (protectMatcher_cons_of_ne d r h1),
    trailing_spaces n _ (hh _) (lineBreak_cons_protect d r hl),
    replaceAll_cons_none _ _ _ (trailingMatcher_cons_of_ne d _ h1),
    endSpaces_spaces n d _ h1]

/-- A text that starts with a space: its run of spaces and what follows. -/
theorem spaces_split (r : Text) :
    ∃ n rest, ' ' :: r = List.replicate (n + 1) ' ' ++ rest ∧ rest.head? ≠ some ' ' ∧
      rest.length ≤ r.length := by
  induction r with
  | nil => exact ⟨0, [], rfl, by simp, by simp⟩
  | cons c r ih =>
    by_cases hc : c = ' '
    · subst hc
      obtain ⟨n, rest, h1, h2, h3⟩ := ih
      refine ⟨n + 1, rest, ?_, h2, by simp; omega⟩
      rw [h1]; rfl
    · exact ⟨0, c :: r, rfl, by simpa using hc, by simp⟩

theorem replicate_add_two (k : Nat) (c : Char) (s : Text) :
    List.replicate (k + 2) c ++ s = List.replicate k c ++ (c :: c :: s) := by
  induction k with
  | zero => rfl
  | succ k ih =>
    rw [List.replicate_succ, List.cons_append, ih]
    rfl

/-! ## Where the placeholder can be found after the first three passes -/

theorem placeholder_word : ∀ c ∈ placeholder, c ≠ ' ' ∧ c ≠ '\n' ∧ c ≠ '\r' := by decide

/-- A text splits into its first word (no space, no line feed, no carriage
return) and a rest that is empty or starts with one of these characters. -/
theorem word_split (x : Text) :
    ∃ w rest, x = w ++ rest ∧ (∀ c ∈ w, c ≠ ' ' ∧ c ≠ '\n' ∧ c ≠ '\r') ∧
      (rest = [] ∨ ∃ e z, rest = e :: z ∧ (e = ' ' ∨ e = '\n' ∨ e = '\r')) := by
  induction x with
  | nil => exact ⟨[], [], rfl, by simp, Or.inl rfl⟩
  | cons c x ih =>
    by_cases hc : c = ' ' ∨ c = '\n' ∨ c = '\r'
    · exact ⟨[], c :: x, rfl, by simp, Or.inr ⟨c, x, rfl, hc⟩⟩
    · obtain ⟨w, rest, h1, h2, h3⟩ := ih
      refine ⟨c :: w, rest, by rw [h1]; rfl, ?_, h3⟩
      intro d hd
      simp only [List.mem_cons] at hd
      rcases hd with rfl | hd
      · simp only [not_or] at hc; exact hc
      · exact h2 d hd

/-- How the output of the first three passes starts when the input is empty
or starts with a space, a line feed or a carriage return: it is empty, or it
starts with one of these characters, or the input starts with exactly two
spaces and a line break and the output with the placeholder and this line
break. -/
theorem stripPasses_head (rest : Text)
    (h : rest = [] ∨ ∃ e z, rest = e :: z ∧ (e = ' ' ∨ e = '\n' ∨ e = '\r')) :
    stripPasses rest = [] ∨
      (∃ e z, stripPasses rest = e :: z ∧ (e = ' ' ∨ e = '\n' ∨ e = '\r')) ∨
      (∃ nl r, IsLineBreak nl ∧ rest = ' ' :: ' ' :: (nl ++ r) ∧
        stripPasses rest = placeholder ++ (nl ++ stripPasses r)) := by
  rcases h with rfl | ⟨e, z, rfl, he⟩
  · exact Or.inl stripPasses_nil
  · by_cases hsp : e = ' '
    · subst hsp
      obtain ⟨n, rest, h1, h2, -⟩ := spaces_split z
      rw [h1]
      cases rest with
      | nil =>
        left
        rw [List.append_nil, stripPasses_spaces]
      | cons d r2 =>
        have hd1 : d ≠ ' ' := by simpa using h2
        cases hl : lineBreak (d :: r2) with
        | none =>
          right; left
          rw [stripPasses_spaces_cons _ d r2 hd1 hl]
          exact ⟨' ', _, rfl, Or.inl rfl⟩
        | some p =>
          obtain ⟨hnl, heq⟩ := isLineBreak_of_lineBreak _ p.1 p.2 hl
          rw [heq]
          match n with
          | 0 =>
            right; left
            obtain ⟨c, t, hc, -, hc2⟩ := isLineBreak_head p.1 hnl
            refine ⟨c, t ++ stripPasses p.2, ?_, Or.inr hc2⟩
            show stripPasses (' ' :: (p.1 ++ p.2)) = _
            rw [stripPasses_space_lineBreak _ _ hnl, hc]
            rfl
          | 1 =>
            right; right
            refine ⟨p.1, p.2, hnl, rfl, ?_⟩
            exact stripPasses_spaces_lineBreak 0 p.1 p.2 hnl
          | k + 2 =>
            right; left
            rw [replicate_add_two, stripPasses_spaces_lineBreak _ _ _ hnl]
            exact ⟨' ', _, rfl, Or.inl rfl⟩
    · right; left
      rw [stripPasses_cons e z hsp]
      exact ⟨e, _, rfl, he⟩

/-- After the first three passes, the restoring pattern can match at the
start of a text that does not start with a space only when the text itself
starts with the placeholder. -/
theorem restoreMatcher_stripPasses (x : Text) (p : Text × Nat) (hx : x.head? ≠ some ' ')
    (h : restoreMatcher (stripPasses x) = some p) : placeholder <+: x := by
  obtain ⟨w, rest, hxw, hw, hrest⟩ := word_split x
  have hstrip : stripPasses x = w ++ stripPasses rest := by
    rw [hxw]; exact stripPasses_append w rest (fun c hc => (hw c hc).1)
  obtain ⟨nl, rest', hnl, heq, -, -⟩ := restoreMatcher_some _ p.1 p.2 h
  have hbr : IsLineBreak nl := (isLineBreak_of_lineBreak _ _ _ hnl).1
  obtain ⟨c0, t0, hc0, -, hc0'⟩ := isLineBreak_head nl hbr
  rw [hstrip, List.append_assoc] at heq
  rcases List.append_eq_append_iff.mp heq with ⟨a, h1, h2⟩ | ⟨a, h1, h2⟩
  swap
  · -- the word is the placeholder followed by `a`
    rw [hxw, h1, List.append_assoc]
    exact List.prefix_append _ _
  · -- the placeholder is the word followed by `a`
    cases a with
    | nil =>
      rw [List.append_nil] at h1
      rw [hxw, h1]
      exact List.prefix_append _ _
    | cons e a =>
      exfalso
      have he : e ∈ placeholder := by rw [h1]; simp
      have hword := placeholder_word e he
      rcases stripPasses_head rest hrest with h0 | ⟨e', z, h0, he'⟩ | ⟨nl1, r1, hnl1, hr1, h0⟩
      · rw [h0] at h2; simp at h2
      · rw [h0] at h2
        simp only [List.cons_append, List.cons.injEq] at h2
        rw [h2.1] at he'
        rcases he' with h | h | h
        · exact hword.1 h
        · exact hword.2.1 h
        · exact hword.2.2 h
      · cases w with
        | nil =>
          apply hx
          rw [hxw, hr1]
          rfl
        | cons cw w =>
          rw [h0] at h2
          rcases List.append_eq_append_iff.mp h2 with ⟨b, h3, h4⟩ | ⟨b, h3, h4⟩
          · -- `e :: a` is the placeholder followed by `b`
            have hl1 := congrArg List.length h1
            have hl2 := congrArg List.length h3
            simp at hl1 hl2
            omega
          · -- the placeholder is `e :: a` followed by `b`
            cases b with
            | nil =>
              have hl1 := congrArg List.length h1
              have hl2 := congrArg List.length h3
              simp at hl1 hl2
              omega
            | cons e2 b =>
              have he2 : e2 ∈ placeholder := by rw [h3]; simp
              have hword2 := placeholder_word e2 he2
              rw [hc0] at h4
              simp only [List.cons_append, List.cons.injEq] at h4
              rw [← h4.1] at hword2
              rcases hc0' with h | h
              · exact hword2.2.1 h
              · exact hword2.2.2 h

/-! ## The first four passes, run of spaces by run of spaces -/

theorem trailingSpacePasses_nil : trailingSpacePasses [] = [] := by
  simp [trailingSpacePasses, stripPasses_nil, replaceAll_nil]

/-- A character other than the space is copied, as long as the text does not
start with the placeholder. -/
theorem trailingSpacePasses_cons (c : Char) (r : Text) (h1 : c ≠ ' ')
    (h2 : ¬ placeholder <+: c :: r) :
    trailingSpacePasses (c :: r) = c :: trailingSpacePasses r := by
  have hm : restoreMatcher (c :: stripPasses r) = none := by
    cases h : restoreMatcher (c :: stripPasses r) with
    | none => rfl
    | some p =>
      exfalso
      rw [← stripPasses_cons c r h1] at h
      exact h2 (restoreMatcher_stripPasses (c :: r) p (by simpa using h1) h)
  simp only [trailingSpacePasses]
  rw [stripPasses_cons c r h1, replaceAll_cons_none _ _ _ hm]

/-- A text made of spaces only is emptied. -/
theorem trailingSpacePasses_spaces (n : Nat) :
    trailingSpacePasses (List.replicate n ' ') = [] := by
  simp only [trailingSpacePasses]
  rw [stripPasses_spaces, replaceAll_nil]

/-- A single space before a line break is removed. -/
theorem trailingSpacePasses_space_lineBreak (nl r : Text) (hnl : IsLineBreak nl) :
    trailingSpacePasses (' ' :: (nl ++ r)) = nl ++ trailingSpacePasses r := by
  simp only [trailingSpacePasses]
  rw [stripPasses_space_lineBreak nl r hnl, restore_lineBreak nl _ hnl]

/-- Two or more spaces before a line break are kept, all of them. -/
theorem trailingSpacePasses_spaces_lineBreak (k : Nat) (nl r : Text) (hnl : IsLineBreak nl) :
    trailingSpacePasses (List.replicate k ' ' ++ (' ' :: ' ' :: (nl ++ r))) =
      List.replicate k ' ' ++ (' ' :: ' ' :: (nl ++ trailingSpacePasses r)) := by
  have hd : ∀ z, (placeholder ++ (nl ++ z)).drop (placeholder.length + nl.length) = z := by
    intro z
    rw [← List.append_assoc, List.drop_left' (by simp)]
  simp only [trailingSpacePasses]
  rw [stripPasses_spaces_lineBreak k nl r hnl, restore_spaces k,
    replaceAll_of_some _ _ _ _ (restoreMatcher_placeholder_lineBreak nl _ hnl)
      (by simp [placeholder_ne_nil])
      (by rw [placeholder_length]; omega), hd]
  rfl

/-- Spaces that are followed by something else than a line break are kept. -/
theorem trailingSpacePasses_spaces_cons (n : Nat) (d : Char) (r : Text) (h1 : d ≠ ' ')
    (hl : lineBreak (d :: r) = none) :
    trailingSpacePasses (List.replicate n ' ' ++ (d :: r)) =
      List.replicate n ' ' ++ trailingSpacePasses (d :: r) := by
  simp only [trailingSpacePasses]
  rw [stripPasses_spaces_cons n d r h1 hl, restore_spaces n]

/-! ## The non-whitespace content -/

theorem nonWhitespace_append (u v : Text) :
    nonWhitespace (u ++ v) = nonWhitespace u ++ nonWhitespace v := by
  simp [nonWhitespace]

theorem nonWhitespace_cons (c : Char) (s : Text) :
    nonWhitespace (c :: s) = nonWhitespace [c] ++ nonWhitespace s :=
  nonWhitespace_append [c] s

theorem nonWhitespace_eq_nil (s : Text) (h : ∀ c ∈ s, c = ' ' ∨ c = '\r' ∨ c = '\n') :
    nonWhitespace s = [] := by
  simp only [nonWhitespace, List.filter_eq_nil_iff]
  intro c hc
  rcases h c hc with rfl | rfl | rfl <;> decide

theorem nonWhitespace_spaces (n : Nat) : nonWhitespace (List.replicate n ' ') = [] :=
  nonWhitespace_eq_nil _ (fun _ hc => Or.inl (List.eq_of_mem_replicate hc))

theorem nonWhitespace_lineBreak (nl : Text) (h : IsLineBreak nl) : nonWhitespace nl = [] := by
  rcases h with rfl | rfl <;> decide

theorem nonWhitespace_space_cons (s : Text) : nonWhitespace (' ' :: s) = nonWhitespace s := by
  simp [nonWhitespace]

theorem not_infix_of_suffix (p s x : Text) (h : ¬ p <:+: x) (hs : s <:+ x) : ¬ p <:+: s :=
  fun hp => h (hp.trans hs.isInfix)

/-- The first four passes keep the non-whitespace content of a text in which
the placeholder does not occur. -/
theorem nonWhitespace_trailingSpacePasses (n : Nat) : ∀ x : Text, x.length ≤ n →
    ¬ placeholder <:+: x → nonWhitespace (trailingSpacePasses x) = nonWhitespace x := by
  induction n with
  | zero =>
    intro x hx _
    have : x = [] := List.length_eq_zero.mp (Nat.le_zero.mp hx)
    subst this
    rw [trailingSpacePasses_nil]
  | succ n ih =>
    intro x hx hph
    cases x with
    | nil => rw [trailingSpacePasses_nil]
    | cons c r =>
      have hlen : r.length ≤ n := by simp at hx; omega
      by_cases hc : c = ' '
      · subst hc
        obtain ⟨k, rest, h1, h2, h3⟩ := spaces_split r
        rw [h1] at hph ⊢
        have hprest : ¬ placeholder <:+: rest :=
          not_infix_of_suffix _ _ _ hph (List.suffix_append _ _)
        cases rest with
        | nil =>
          rw [List.append_nil, trailingSpacePasses_spaces, nonWhitespace_spaces]
          rfl
        | cons d r2 =>
          have hd1 : d ≠ ' ' := by simpa using h2
          cases hl : lineBreak (d :: r2) with
          | none =>
            rw [trailingSpacePasses_spaces_cons _ d r2 hd1 hl, nonWhitespace_append,
              nonWhitespace_append, ih (d :: r2) (by omega) hprest]
          | some p =>
            obtain ⟨hnl, heq⟩ := isLineBreak_of_lineBreak _ p.1 p.2 hl
            have hp2 : p.2.length ≤ n := by
              have := congrArg List.length heq
              simp at this h3
              omega
            have hpp : ¬ placeholder <:+: p.2 := by
              apply not_infix_of_suffix _ _ _ hprest
              rw [heq]; exact List.suffix_append _ _
            have i := ih p.2 hp2 hpp
            rw [heq]
            cases k with
            | zero =>
              show nonWhitespace (trailingSpacePasses (' ' :: (p.1 ++ p.2))) = _
              rw [trailingSpacePasses_space_lineBreak _ _ hnl, nonWhitespace_append, i,
                nonWhitespace_append, nonWhitespace_append, nonWhitespace_lineBreak _ hnl,
                nonWhitespace_spaces]
              rfl
            | succ k =>
              rw [replicate_add_two, trailingSpacePasses_spaces_lineBreak _ _ _ hnl]
              simp only [nonWhitespace_append, nonWhitespace_space_cons, i]
      · have hpre : ¬ placeholder <+: c :: r := fun h => hph h.isInfix
        rw [trailingSpacePasses_cons c r hc hpre, nonWhitespace_cons, nonWhitespace_cons c r,
          ih r hlen (not_infix_of_suffix _ _ _ hph (List.suffix_cons c r))]

/-- A scan whose matches and replacements are made of whitespace keeps the
non-whitespace content. -/
theorem nonWhitespace_replaceAll (m : Matcher)
    (hm : ∀ t rep len, m t = some (rep, len) →
      0 < len ∧ nonWhitespace rep = [] ∧ nonWhitespace (t.take len) = [])
    (n : Nat) : ∀ s : Text, s.length ≤ n →
    nonWhitespace (replaceAll m s) = nonWhitespace s := by
  induction n with
  | zero =>
    intro s hs
    have : s = [] := List.length_eq_zero.mp (Nat.le_zero.mp hs)
    subst this
    rw [replaceAll_nil]
  | succ n ih =>
    intro s hs
    cases s with
    | nil => rw [replaceAll_nil]
    | cons c cs =>
      cases h : m (c :: cs) with
      | none =>
        rw [replaceAll_cons_none _ _ _ h, nonWhitespace_cons, nonWhitespace_cons c cs,
          ih cs (by simp at hs; omega)]
      | some p =>
        obtain ⟨h1, h2, h3⟩ := hm _ p.1 p.2 h
        rw [replaceAll_of_some _ _ _ _ h (by simp) h1, nonWhitespace_append, h2,
          ih _ (by simp at hs ⊢; omega)]
        conv => rhs; rw [← List.take_append_drop p.2 (c :: cs)]
        rw [nonWhitespace_append, h3]

theorem blankDoubleMatcher_whitespace (t rep : Text) (len : Nat)
    (h : blankDoubleMatcher t = some (rep, len)) :
    0 < len ∧ nonWhitespace rep = [] ∧ nonWhitespace (t.take len) = [] := by
  obtain ⟨nl, nl2, rest, h1, h2, h3, h4, h5⟩ := blankDoubleMatcher_some t rep len h
  refine ⟨by omega, by rw [h4]; exact nonWhitespace_lineBreak nl h1, ?_⟩
  rw [h3, h5, List.take_left' (by simp; omega)]
  simp only [nonWhitespace_append, nonWhitespace_space_cons, nonWhitespace_lineBreak _ h1,
    nonWhitespace_lineBreak _ h2]
  rfl

theorem lineBreakRun_whitespace (t : Text) :
    nonWhitespace (t.take (lineBreakRun t).2.1) = [] := by
  obtain ⟨-, -, s3, -, -⟩ := lineBreakRun_spec t.length t (Nat.le_refl _)
  apply nonWhitespace_eq_nil
  intro c hc
  rcases s3 c hc with h | h
  · exact Or.inr (Or.inl h)
  · exact Or.inr (Or.inr h)

theorem lineBreakRun_length_pos (t : Text) (h : 0 < (lineBreakRun t).1) :
    0 < (lineBreakRun t).2.1 := by
  obtain ⟨-, -, -, -, s5⟩ := lineBreakRun_spec t.length t (Nat.le_refl _)
  rcases Nat.eq_zero_or_pos (lineBreakRun t).2.1 with h0 | h0
  · have := s5.mpr h0; omega
  · exact h0

theorem collapseMatcher_whitespace (t rep : Text) (len : Nat)
    (h : collapseMatcher t = some (rep, len)) :
    0 < len ∧ nonWhitespace rep = [] ∧ nonWhitespace (t.take len) = [] := by
  by_cases hge : 3 ≤ (lineBreakRun t).1
  · rw [collapseMatcher_of_ge t hge] at h
    simp at h
    obtain ⟨-, -, -, s4, -⟩ := lineBreakRun_spec t.length t (Nat.le_refl _)
    have hbr := s4 (by omega)
    refine ⟨?_, ?_, ?_⟩
    · rw [← h.2]; exact lineBreakRun_length_pos t (by omega)
    · rw [← h.1, nonWhitespace_append, nonWhitespace_lineBreak _ hbr]; rfl
    · rw [← h.2]; exact lineBreakRun_whitespace t
  · rw [collapseMatcher_of_lt t (by omega)] at h
    simp at h

theorem trimEndMatcher_whitespace (t rep : Text) (len : Nat)
    (h : trimEndMatcher t = some (rep, len)) :
    0 < len ∧ nonWhitespace rep = [] ∧ nonWhitespace (t.take len) = [] := by
  obtain ⟨h1, -, h3, h4⟩ := trimEndMatcher_some t rep len h
  refine ⟨?_, by rw [h1]; rfl, ?_⟩
  · rw [h4]; exact lineBreakRun_length_pos t (by omega)
  · rw [h4]; exact lineBreakRun_whitespace t

/-- The whole of `sanitize` keeps the non-whitespace content of a text in
which the placeholder does not occur. -/
theorem nonWhitespace_sanitize (x : Text) (h : ¬ placeholder <:+: x) :
    nonWhitespace (sanitize x) = nonWhitespace x := by
  rw [sanitize_eq,
    nonWhitespace_replaceAll _ trimEndMatcher_whitespace _ _ (Nat.le_refl _),
    nonWhitespace_replaceAll _ collapseMatcher_whitespace _ _ (Nat.le_refl _),
    nonWhitespace_replaceAll _ blankDoubleMatcher_whitespace _ _ (Nat.le_refl _),
    nonWhitespace_trailingSpacePasses _ x (Nat.le_refl _) h]

/-! ## The templates: sensitive values, gating, placeholders -/

theorem rangeOver_congr {α : Type} (xs : List α) (b1 b2 : α → Text)
    (h : ∀ x ∈ xs, b1 x = b2 x) : rangeOver xs b1 = rangeOver xs b2 := by
  induction xs with
  | nil => rfl
  | cons x xs ih =>
    simp only [rangeOver]
    rw [h x (by simp), ih (fun y hy => h y (by simp [hy]))]

theorem rangeOver_map {α β : Type} (xs : List α) (g : α → β) (body : β → Text) :
    rangeOver (xs.map g) body = rangeOver xs (fun x => body (g x)) := by
  induction xs with
  | nil => rfl
  | cons x xs ih => simp only [List.map, rangeOver]; rw [ih]

theorem isEmpty_map_eq {α β : Type} (xs : List α) (g : α → β) :
    (xs.map g).isEmpty = xs.isEmpty := by
  cases xs <;> rfl

/-- The rendering of an output does not read the value of a sensitive output. -/
theorem compactOutput_blank (f : Funcs) (settings : Settings) (o : Output) :
    compactOutputsItem f settings (if o.Sensitive then { o with GetValue := [] } else o) =
      compactOutputsItem f settings o := by
  cases h : o.Sensitive with
  | false => simp
  | true => simp [compactOutputsItem, ternary, h]

theorem compactOutputs_blank (f : Funcs) (settings : Settings) (module : Module) :
    compactOutputsTpl f settings (withoutSensitiveValues module) =
      compactOutputsTpl f settings module := by
  simp only [compactOutputsTpl, withoutSensitiveValues, rangeOver_map, isEmpty_map_eq]
  rw [rangeOver_congr _ _ _ (fun o _ => compactOutput_blank f settings o)]

theorem compactDocument_blank (f : Funcs) (settings : Settings) (module : Module) :
    compactTpl f settings (withoutSensitiveValues module) =
      compactTpl f settings module := by
  simp only [compactTpl, compactOutputs_blank]
  rfl

theorem Print_renderCompact (ε : Type) (f : Funcs) (settings : Settings) (module : Module) :
    Print ε (renderCompact ε f settings) module =
      (sanitize (compactTpl f settings module), none) := rfl

/-- An occurrence of `p` in `a ++ b` lies in `a` when the last character of
`p` does not occur in `b`. -/
theorem infix_left_of_last (p a b : Text) (c : Char) (hp : p.getLast? = some c)
    (hc : c ∉ b) (h : p <:+: a ++ b) : p <:+: a := by
  obtain ⟨s, t, hst⟩ := h
  rw [List.append_eq_append_iff] at hst
  rcases hst with ⟨a', h1, _⟩ | ⟨c', h1, h2⟩
  · exact ⟨s, a', h1.symm⟩
  · cases c' with
    | nil => exact ⟨s, [], by simp [h1]⟩
    | cons x xs =>
      exfalso
      have e := congrArg List.getLast? h1
      rw [List.getLast?_append, List.getLast?_append, hp] at e
      obtain ⟨y, hy⟩ : ∃ y, (x :: xs).getLast? = some y := by
        cases hh : (x :: xs).getLast? with
        | none => simp at hh
        | some y => exact ⟨y, rfl⟩
      rw [hy] at e
      simp at e
      subst e
      exact hc (by rw [h2]; exact List.mem_append_left _ (List.mem_of_getLast?_eq_some hy))

/-! ## Literal replacements: `strings.Replace` -/

theorem literalMatcher_some (old new t : Text) (p : Text × Nat)
    (h : literalMatcher old new t = some p) :
    ∃ rest, t = old ++ rest ∧ p = (new, old.length) := by
  unfold literalMatcher at h
  split at h
  · rename_i rest hp
    simp at h
    exact ⟨rest, stripPrefix_some _ _ _ hp, h.symm⟩
  · simp at h

theorem literalMatcher_append (old new rest : Text) :
    literalMatcher old new (old ++ rest) = some (new, old.length) := by
  simp [literalMatcher, stripPrefix_append]

theorem stringsReplace_nil (old new : Text) : stringsReplace old new [] = [] :=
  replaceAll_nil _

/-- A match of the literal at the start of the text. -/
theorem stringsReplace_append (old new rest : Text) (h : old ≠ []) :
    stringsReplace old new (old ++ rest) = new ++ stringsReplace old new rest := by
  unfold stringsReplace
  rw [replaceAll_of_some _ _ _ _ (literalMatcher_append old new rest) (by simp [h])
    (List.length_pos.mpr h), List.drop_left]

/-- No match of the literal at the start of the text. -/
theorem stringsReplace_cons (old new : Text) (c : Char) (cs : Text)
    (h : ¬ old <+: c :: cs) :
    stringsReplace old new (c :: cs) = c :: stringsReplace old new cs := by
  unfold stringsReplace
  apply replaceAll_cons_none
  cases hm : literalMatcher old new (c :: cs) with
  | none => rfl
  | some p =>
    obtain ⟨rest, h1, -⟩ := literalMatcher_some _ _ _ _ hm
    exact absurd ⟨rest, h1.symm⟩ h

/-- Replacing every line feed leaves no line feed, when the replacement has
none. -/
theorem stringsReplace_lf_no_lf (new t : Text) (hnew : '\n' ∉ new) :
    '\n' ∉ stringsReplace ['\n'] new t := by
  induction t with
  | nil => rw [stringsReplace_nil]; simp
  | cons c cs ih =>
    by_cases hc : c = '\n'
    · subst hc
      have := stringsReplace_append ['\n'] new cs (by simp)
      rw [List.singleton_append] at this
      rw [this, List.mem_append]
      rintro (h | h)
      · exact hnew h
      · exact ih h
    · have hp : ¬ ['\n'] <+: c :: cs := by
        rintro ⟨r, hr⟩
        simp at hr
        exact hc hr.1.symm
      rw [stringsReplace_cons _ _ _ _ hp, List.mem_cons]
      rintro (h | h)
      · exact hc h.symm
      · exact ih h

/-- The text `<br>`. -/
theorem br_toList : "<br>".toList = ['<', 'b', 'r', '>'] := by decide

/-- When the output of the replacement of `<br>` by a line feed starts with a
character other than the line feed, the input starts with this character and
the character was copied. -/
theorem stringsReplace_br_head (cs : Text) (a : Char) (z : Text) (ha : a ≠ '\n')
    (h : stringsReplace "<br>".toList ['\n'] cs = a :: z) :
    ∃ cs1, cs = a :: cs1 ∧ stringsReplace "<br>".toList ['\n'] cs1 = z := by
  cases cs with
  | nil => rw [stringsReplace_nil] at h; simp at h
  | cons d cs1 =>
    by_cases hp : "<br>".toList <+: d :: cs1
    · obtain ⟨r, hr⟩ := hp
      rw [← hr, stringsReplace_append _ _ _ (by decide)] at h
      simp at h
      exact absurd h.1.symm ha
    · rw [stringsReplace_cons _ _ _ _ hp] at h
      simp at h
      exact ⟨cs1, by rw [h.1], h.2⟩

/-- No position of the output of the replacement of `<br>` by a line feed
starts with `<br>`. -/
theorem stringsReplace_br_suffix (n : Nat) : ∀ t : Text, t.length ≤ n →
    ∀ u, u <:+ stringsReplace "<br>".toList ['\n'] t → ¬ "<br>".toList <+: u := by
  induction n with
  | zero =>
    intro t ht u hu
    have : t = [] := List.length_eq_zero.mp (Nat.le_zero.mp ht)
    subst this
    rw [stringsReplace_nil] at hu
    rw [List.suffix_nil.mp hu]
    decide
  | succ n ih =>
    intro t ht u hu
    cases t with
    | nil =>
      rw [stringsReplace_nil] at hu
      rw [List.suffix_nil.mp hu]
      decide
    | cons c cs =>
      by_cases hp : "<br>".toList <+: c :: cs
      · obtain ⟨r, hr⟩ := hp
        have hlen : r.length ≤ n := by
          have := congrArg List.length hr
          rw [br_toList] at this
          simp at this ht
          omega
        rw [← hr, stringsReplace_append _ _ _ (by decide)] at hu
        rcases List.suffix_cons_iff.mp hu with rfl | h
        · rintro ⟨v, hv⟩
          rw [br_toList] at hv
          simp at hv
        · exact ih r hlen u h
      · rw [stringsReplace_cons _ _ _ _ hp] at hu
        rcases List.suffix_cons_iff.mp hu with rfl | h
        · rintro ⟨v, hv⟩
          apply hp
          rw [br_toList] at hv ⊢
          simp only [List.cons_append, List.nil_append, List.cons.injEq] at hv
          obtain ⟨hc, hv⟩ := hv
          obtain ⟨cs1, e1, h1⟩ := stringsReplace_br_head cs 'b' _ (by decide) hv.symm
          obtain ⟨cs2, e2, h2⟩ := stringsReplace_br_head cs1 'r' _ (by decide) h1
          obtain ⟨cs3, e3, -⟩ := stringsReplace_br_head cs2 '>' _ (by decide) h2
          exact ⟨cs3, by rw [e1, e2, e3, ← hc]; rfl⟩
        · exact ih cs (by simp at ht; omega) u h

/-- Replacing every `<br>` by a line feed leaves no `<br>`. -/
theorem stringsReplace_br_none (t : Text) :
    ¬ ("<br>".toList <:+: stringsReplace "<br>".toList ['\n'] t) := by
  rintro ⟨u, v, h⟩
  apply stringsReplace_br_suffix t.length t (Nat.le_refl _) ("<br>".toList ++ v)
  · exact ⟨u, by rw [← h]; simp⟩
  · exact List.prefix_append _ _

/-! ## Lines: `strings.Split` and `strings.Join` -/

theorem containsNewline_iff (v : Text) : containsNewline v = true ↔ '\n' ∈ v := by
  simp [containsNewline]

theorem splitLines_ne_nil (s : Text) : splitLines s ≠ [] := by
  cases s with
  | nil => simp [splitLines]
  | cons c cs =>
    simp only [splitLines]
    split
    · simp
    · split <;> simp

theorem splitLines_lf (s : Text) : splitLines ('\n' :: s) = [] :: splitLines s := by
  simp [splitLines]

theorem splitLines_cons (c : Char) (s l : Text) (ls : List Text) (hc : c ≠ '\n')
    (h : splitLines s = l :: ls) : splitLines (c :: s) = (c :: l) :: ls := by
  simp [splitLines, hc, h]

/-- A text without line feed is one line. -/
theorem splitLines_of_no_lf (s : Text) (h : '\n' ∉ s) : splitLines s = [s] := by
  induction s with
  | nil => rfl
  | cons c cs ih =>
    have hc : c ≠ '\n' := fun e => h (by simp [e])
    exact splitLines_cons c cs cs [] hc (ih (fun e => h (by simp [e])))

/-- The lines of two texts joined by a line feed are the lines of the first
followed by the lines of the second. -/
theorem splitLines_append_lf (a b : Text) :
    splitLines (a ++ '\n' :: b) = splitLines a ++ splitLines b := by
  induction a with
  | nil => simp [splitLines]
  | cons c a ih =>
    by_cases hc : c = '\n'
    · subst hc
      rw [List.cons_append, splitLines_lf, splitLines_lf, ih]
      rfl
    · obtain ⟨l, ls, hl⟩ := List.exists_cons_of_ne_nil (splitLines_ne_nil a)
      rw [List.cons_append, splitLines_cons c a l ls hc hl,
        splitLines_cons c (a ++ '\n' :: b) l (ls ++ splitLines b) hc (by rw [ih, hl]; rfl)]
      rfl

/-- A line has no line feed. -/
theorem no_lf_of_mem_splitLines (s l : Text) (h : l ∈ splitLines s) : '\n' ∉ l := by
  induction s generalizing l with
  | nil => simp [splitLines] at h; subst h; simp
  | cons c cs ih =>
    by_cases hc : c = '\n'
    · subst hc
      rw [splitLines_lf] at h
      simp only [List.mem_cons] at h
      rcases h with rfl | h
      · simp
      · exact ih l h
    · obtain ⟨l0, ls, hl⟩ := List.exists_cons_of_ne_nil (splitLines_ne_nil cs)
      rw [splitLines_cons c cs l0 ls hc hl] at h
      simp only [List.mem_cons] at h
      rcases h with rfl | h
      · have := ih l0 (by rw [hl]; simp)
        simp only [List.mem_cons, not_or]
        exact ⟨fun e => hc e.symm, this⟩
      · exact ih l (by rw [hl]; simp [h])

theorem joinLines_cons_cons (l l2 : Text) (ls : List Text) :
    joinLines (l :: l2 :: ls) = l ++ '\n' :: joinLines (l2 :: ls) := rfl

/-- Joining lines and splitting again gives the lines back. -/
theorem splitLines_joinLines (ls : List Text) (hne : ls ≠ []) (h : ∀ l ∈ ls, '\n' ∉ l) :
    splitLines (joinLines ls) = ls := by
  induction ls with
  | nil => exact absurd rfl hne
  | cons l ls ih =>
    cases ls with
    | nil => exact splitLines_of_no_lf l (h l (by simp))
    | cons l2 ls =>
      rw [joinLines_cons_cons, splitLines_append_lf, splitLines_of_no_lf l (h l (by simp)),
        ih (by simp) (fun x hx => h x (by simp [hx]))]
      rfl

/-! ## The fenced code block with indentation -/

/-- The lines of the fence around `code`: the lines of the opening fence
tagged with the language, the lines of the code, the closing fence. -/
theorem splitLines_block (code language : Text) :
    splitLines ("```".toList ++ language ++ "\n".toList ++ code ++ "\n```".toList) =
      splitLines ("```".toList ++ language) ++ splitLines code ++ ["```".toList] := by
  have e : "```".toList ++ language ++ "\n".toList ++ code ++ "\n```".toList =
      ("```".toList ++ language) ++ '\n' :: (code ++ '\n' :: "```".toList) := by
    have e1 : "\n".toList = ['\n'] := rfl
    have e2 : "\n```".toList = '\n' :: "```".toList := rfl
    rw [e1, e2]
    simp
  rw [e, splitLines_append_lf, splitLines_append_lf,
    splitLines_of_no_lf "```".toList (by decide), List.append_assoc]

theorem no_lf_indent (l : Text) (h : '\n' ∉ l) : '\n' ∉ "    ".toList ++ l := by
  rw [List.mem_append]
  rintro (h1 | h1)
  · revert h1; decide
  · exact h h1

/-- The multi-line case of `printFencedCodeBlockWithIndent`, line by line. -/
theorem printFencedCodeBlockWithIndent_lines (code language : Text) (h : '\n' ∈ code) :
    printFencedCodeBlockWithIndent code language =
        "\n".toList ++ joinLines ((splitLines ("```".toList ++ language) ++ splitLines code ++
          ["```".toList]).map (fun l => "    ".toList ++ l)) ++ "\n".toList ∧
      splitLines (printFencedCodeBlockWithIndent code language) =
        [] :: (splitLines ("```".toList ++ language) ++ splitLines code ++
          ["```".toList]).map (fun l => "    ".toList ++ l) ++ [[]] := by
  have hc : containsNewline code = true := (containsNewline_iff code).mpr h
  have heq : printFencedCodeBlockWithIndent code language =
      "\n".toList ++ joinLines ((splitLines ("```".toList ++ language) ++ splitLines code ++
        ["```".toList]).map (fun l => "    ".toList ++ l)) ++ "\n".toList := by
    simp only [printFencedCodeBlockWithIndent, hc, Bool.not_true, Bool.false_eq_true, if_false]
    rw [splitLines_block]
  refine ⟨heq, ?_⟩
  rw [heq]
  have key : ∀ J : Text, splitLines ("\n".toList ++ J ++ "\n".toList) =
      [] :: (splitLines J ++ [[]]) := by
    intro J
    show splitLines ('\n' :: (J ++ '\n' :: [])) = _
    rw [splitLines_lf, splitLines_append_lf]
    rfl
  rw [key, splitLines_joinLines]
  · rfl
  · simp
  · intro l hl
    rw [List.mem_map] at hl
    obtain ⟨l0, hl0, rfl⟩ := hl
    apply no_lf_indent
    simp only [List.mem_append, List.mem_singleton] at hl0
    rcases hl0 with (h1 | h1) | h1
    · exact no_lf_of_mem_splitLines _ _ h1
    · exact no_lf_of_mem_splitLines _ _ h1
    · rw [h1]; decide

/-! ## The template `input` and the tables -/

theorem compactInputTpl_eq (f : Funcs) (settings : Settings) (input : Input) :
    compactInputTpl f settings input =
      compactInputHead f input ++
        (if input.HasDefault = true ∨ settings.ShowRequired = false then
          compactInputDefault f input else []) ++
        "\n\n".toList := by
  cases h1 : input.HasDefault <;> cases h2 : settings.ShowRequired <;>
    simp [compactInputTpl, compactInputHead, compactInputDefault, isRequired, h1, h2]

theorem compactInputDefault_ne_nil (f : Funcs) (input : Input) :
    compactInputDefault f input ≠ [] := by
  intro h
  have := congrArg List.length h
  simp [compactInputDefault] at this

theorem rangeOver_eq_flatten {α : Type} (xs : List α) (body : α → Text) :
    rangeOver xs body = (xs.map body).flatten := by
  induction xs with
  | nil => rfl
  | cons x xs ih => simp [rangeOver, ih]

/-! ## `convertMultiLineText`: the last replacement and what the steps keep -/

/-- Replacing every line feed: each line feed becomes the replacement and
every other character is kept. -/
theorem stringsReplace_lf_flatMap (new t : Text) :
    stringsReplace ['\n'] new t = t.flatMap (fun c => if c = '\n' then new else [c]) := by
  induction t with
  | nil => rw [stringsReplace_nil]; rfl
  | cons c cs ih =>
    by_cases hc : c = '\n'
    · subst hc
      have := stringsReplace_append ['\n'] new cs (by simp)
      rw [List.singleton_append] at this
      rw [this, ih]
      simp [List.flatMap_cons]
    · have hp : ¬ ['\n'] <+: c :: cs := by
        rintro ⟨r, hr⟩
        simp at hr
        exact hc hr.1.symm
      rw [stringsReplace_cons _ _ _ _ hp, ih]
      simp [List.flatMap_cons, hc]

/-- A scan whose replacements bring no `x` writes no `x` into a text that has
none. -/
theorem replaceAll_not_mem (m : Matcher) (x : Char)
    (hm : ∀ t rep len, m t = some (rep, len) → x ∉ t → x ∉ rep) (n : Nat) :
    ∀ s : Text, s.length ≤ n → x ∉ s → x ∉ replaceAll m s := by
  induction n with
  | zero =>
    intro s hs _
    have : s = [] := List.length_eq_zero.mp (by omega)
    subst this
    rw [replaceAll_nil]
    simp
  | succ n ih =>
    intro s hs hx
    cases s with
    | nil => rw [replaceAll_nil]; simp
    | cons c cs =>
      have hcs : x ∉ cs := fun h => hx (List.mem_cons_of_mem _ h)
      cases h : m (c :: cs) with
      | none =>
        rw [replaceAll_cons_none m c cs h, List.mem_cons]
        rintro (e | e)
        · exact hx (by simp [e])
        · exact ih cs (by simp at hs; omega) hcs e
      | some p =>
        obtain ⟨rep, len⟩ := p
        rw [replaceAll_cons_some m c cs rep len h, List.mem_append]
        rintro (e | e)
        · exact hm _ _ _ h hx e
        · refine ih (cs.drop (len - 1)) ?_ (fun h2 => hcs (List.mem_of_mem_drop h2)) e
          simp at hs ⊢
          omega

theorem stringsReplace_not_mem (old new s : Text) (x : Char) (hnew : x ∉ new) (hs : x ∉ s) :
    x ∉ stringsReplace old new s := by
  unfold stringsReplace
  refine replaceAll_not_mem _ x ?_ s.length s (Nat.le_refl _) hs
  intro t rep len h _
  obtain ⟨_, _, h2⟩ := literalMatcher_some _ _ _ _ h
  simp only [Prod.mk.injEq] at h2
  rw [h2.1]
  exact hnew

theorem paragraphMatcher_some (t rep : Text) (len : Nat)
    (h : paragraphMatcher t = some (rep, len)) :
    ∃ nl rest, lineBreak (t.dropWhile (fun c => !regexSpace c)) = some (nl, rest) ∧
      rep = t.takeWhile (fun c => !regexSpace c) ++ "  ".toList ++ nl ++
        rest.takeWhile regexSpace ++ (rest.dropWhile regexSpace).takeWhile regexWord := by
  unfold paragraphMatcher at h
  split at h
  · rename_i nl rest hnl
    simp only at h
    split at h
    · simp at h
    · simp only [Option.some.injEq, Prod.mk.injEq] at h
      exact ⟨nl, rest, hnl, h.1.symm⟩
  · simp at h

theorem paragraphMatcher_some_lf (t rep : Text) (len : Nat)
    (h : paragraphMatcher t = some (rep, len)) : '\n' ∈ t := by
  obtain ⟨nl, rest, hnl, -⟩ := paragraphMatcher_some t rep len h
  exact (List.dropWhile_sublist _).subset (lineBreak_some_mem _ _ _ hnl)

theorem paragraphMatcher_not_mem (x : Char) (hx : x ≠ ' ') (t rep : Text) (len : Nat)
    (h : paragraphMatcher t = some (rep, len)) (ht : x ∉ t) : x ∉ rep := by
  obtain ⟨nl, rest, hnl, hrep⟩ := paragraphMatcher_some t rep len h
  have hd : x ∉ t.dropWhile (fun c => !regexSpace c) :=
    fun e => ht ((List.dropWhile_sublist _).subset e)
  have hnlrest : x ∉ nl ∧ x ∉ rest := by
    rcases lineBreak_some_cases _ _ _ hnl with ⟨h1, h2⟩ | ⟨h1, h2⟩
    · rw [h2] at hd
      subst h1
      simp only [List.mem_cons, not_or] at hd
      simp only [List.mem_singleton]
      exact ⟨hd.1, hd.2⟩
    · rw [h2] at hd
      subst h1
      simp only [List.mem_cons, not_or] at hd
      simp only [List.mem_cons, List.mem_singleton, not_or, List.not_mem_nil, or_false]
      exact ⟨⟨hd.1, hd.2.1⟩, hd.2.2⟩
  rw [hrep]
  simp only [List.mem_append, not_or]
  refine ⟨⟨⟨⟨fun e => ht ((List.takeWhile_sublist _).subset e), ?_⟩, hnlrest.1⟩,
    fun e => hnlrest.2 ((List.takeWhile_sublist _).subset e)⟩,
    fun e => hnlrest.2 ((List.dropWhile_sublist _).subset ((List.takeWhile_sublist _).subset e))⟩
  intro e
  have : x = ' ' := by
    revert e
    simp
  exact hx this

theorem TrimSpace_subset (s : Text) : TrimSpace s ⊆ s := by
  intro x hx
  unfold TrimSpace at hx
  rw [List.mem_reverse] at hx
  have h1 := (List.dropWhile_sublist isSpace).subset hx
  rw [List.mem_reverse] at h1
  exact (List.dropWhile_sublist isSpace).subset h1

/-- The shared steps write no character other than `<`, `b`, `r`, `>`, space
and line feed that the text does not have. -/
theorem convertParagraphs_not_mem (s : Text) (x : Char) (hsp : x ≠ ' ') (hlf : x ≠ '\n')
    (hbr : x ∉ "<br>".toList) (hs : x ∉ s) : x ∉ convertParagraphs s := by
  unfold convertParagraphs
  apply stringsReplace_not_mem _ _ _ _ (by simp; exact hlf)
  apply stringsReplace_not_mem _ _ _ _ (by simp; exact ⟨hsp, hlf⟩)
  apply replaceAll_not_mem _ x (paragraphMatcher_not_mem x hsp) _ _ (Nat.le_refl _)
  apply stringsReplace_not_mem _ _ _ _ _ hs
  intro e
  have e2 : x ∈ "<br>".toList ++ "<br>".toList := e
  rw [List.mem_append] at e2
  exact hbr (e2.elim id id)

theorem literalMatcher_some_mem (old new : Text) (x : Char) (hx : x ∈ old) (t rep : Text)
    (len : Nat) (h : literalMatcher old new t = some (rep, len)) : x ∈ t := by
  obtain ⟨rest, h1, -⟩ := literalMatcher_some _ _ _ _ h
  rw [h1]
  exact List.mem_append_left _ hx

theorem stringsReplace_eq_self_of_not_mem (old new s : Text) (x : Char) (hx : x ∈ old)
    (hs : x ∉ s) : stringsReplace old new s = s :=
  replaceAll_eq_self_of_not_mem _ x s (literalMatcher_some_mem old new x hx) hs

/-- The shared steps leave a text without line feed unchanged. -/
theorem convertParagraphs_of_no_lf (s : Text) (h : '\n' ∉ s) : convertParagraphs s = s := by
  unfold convertParagraphs
  simp only
  rw [stringsReplace_eq_self_of_not_mem "\n\n".toList _ s '\n' (by decide) h,
    replaceAll_eq_self_of_not_mem paragraphMatcher '\n' s paragraphMatcher_some_lf h,
    stringsReplace_eq_self_of_not_mem "    \n".toList _ s '\n' (by decide) h,
    stringsReplace_eq_self_of_not_mem "<br>  \n".toList _ s '\n' (by decide) h]

theorem convertMultiLineText_table (s : Text) :
    convertMultiLineText s true =
      stringsReplace "\n".toList "<br>".toList
        (stringsReplace "  \n".toList "<br>".toList (convertParagraphs (TrimSpace s))) := rfl

theorem convertMultiLineText_plain (s : Text) :
    convertMultiLineText s false =
      stringsReplace "<br>".toList "\n".toList (convertParagraphs s) := rfl

/-! ## The claims -/

/-- C1, evaluated at the failing input: on a text with two consecutive lines
made of two spaces, `sanitize` removes only the first of them, and a second
application removes the other one, so `sanitize` applied twice differs from
`sanitize` applied once. -/
theorem sanitize_twice_differs :
    sanitize "a\n  \n  \nb".toList = "a\n  \nb".toList ∧
      sanitize (sanitize "a\n  \n  \nb".toList) = "a\nb".toList ∧
      sanitize (sanitize "a\n  \n  \nb".toList) ≠ sanitize "a\n  \n  \nb".toList := by
  decide

/-- C2, as stated, fails: a text that is the placeholder followed by a line
feed loses the placeholder, which is non-whitespace content. -/
theorem nonWhitespace_placeholder_lost :
    sanitize (placeholder ++ ['\n']) = [' ', ' ', '\n'] ∧
      nonWhitespace (sanitize (placeholder ++ ['\n'])) ≠ nonWhitespace (placeholder ++ ['\n']) := by
  decide

/-- C2, amended: for every text in which the placeholder
`‡‡‡DOUBLESPACES‡‡‡` does not occur, the non-whitespace characters of
`sanitize x` (everything except space, carriage return and line feed) are
exactly the non-whitespace characters of `x`, in the same order. -/
theorem sanitize_keeps_content (x : Text) (h : ¬ placeholder <:+: x) :
    nonWhitespace (sanitize x) = nonWhitespace x :=
  nonWhitespace_sanitize x h

/-- The content of a sample text, which has double daggers but not the
placeholder, is kept. -/
theorem sanitize_keeps_content_witness :
    ¬ placeholder <:+: [Char.ofNat 8225, ' ', '\n'] ++ "a \n  \n\n\n\nb  \nc ".toList ∧
      nonWhitespace (sanitize ([Char.ofNat 8225, ' ', '\n'] ++ "a \n  \n\n\n\nb  \nc ".toList)) =
        nonWhitespace ([Char.ofNat 8225, ' ', '\n'] ++ "a \n  \n\n\n\nb  \nc ".toList) :=
  ⟨by decide, sanitize_keeps_content _ (by decide)⟩

/-- C3. A sensitive output's value never reaches the document.  When values
are shown, the rendering of a sensitive output is the same whatever its value
(its Value line is built from the constant `<sensitive>`), and two modules
that are equal once the values of their sensitive outputs are set aside are
printed to the same document. -/
theorem sensitive_value_hidden (ε : Type) (f : Funcs) (settings : Settings) :
    (∀ (o : Output) (v : Text), o.Sensitive = true → settings.OutputValues = true →
      compactOutputsItem f settings { o with GetValue := v } =
        "\n\n- ".toList ++ inlineOutputType o.Name ++ " - ".toList ++
          f.sanitizeTbl (f.tostring o.Description) ++ "\n\n".toList ++
          (f.indent 1 " ".toList ++ " Value: ".toList ++ value (value "<sensitive>".toList) ++
            "\n\n".toList ++
            (if settings.ShowSensitivity then
              f.indent 1 " ".toList ++ " Sensitive: ".toList ++ "yes".toList
             else []) ++
            "\n".toList) ++
          "\n".toList) ∧
    (∀ m1 m2 : Module, withoutSensitiveValues m1 = withoutSensitiveValues m2 →
      Print ε (renderCompact ε f settings) m1 =
        Print ε (renderCompact ε f settings) m2) := by
  constructor
  · intro o v ho hv
    simp [compactOutputsItem, ternary, ho, hv]
  · intro m1 m2 h
    rw [Print_renderCompact, Print_renderCompact, ← compactDocument_blank f settings m1,
      ← compactDocument_blank f settings m2, h]

/-- Two sample modules that differ in the value of a sensitive output. -/
theorem sensitive_value_hidden_witness :
    withoutSensitiveValues (sampleModule "hunter2".toList) =
        withoutSensitiveValues (sampleModule "swordfish".toList) ∧
      Print Unit (renderCompact Unit sampleFuncs sampleSettings)
          (sampleModule "hunter2".toList) =
        Print Unit (renderCompact Unit sampleFuncs sampleSettings)
          (sampleModule "swordfish".toList) :=
  ⟨by decide, (sensitive_value_hidden Unit sampleFuncs sampleSettings).2 _ _ (by decide)⟩

/-- C4. `Print` returns no partial output on failure: if the rendering fails
with an error `e`, `Print` returns the empty text together with `e`; if it
succeeds with the raw text `r`, `Print` returns `sanitize r` and no error. -/
theorem Print_all_or_nothing (ε : Type) (render : Module → Except ε Text) (module : Module) :
    (∀ e, render module = .error e → Print ε render module = ([], some e)) ∧
      (∀ r, render module = .ok r → Print ε render module = (sanitize r, none)) := by
  constructor <;> intro x h <;> simp [Print, h]

/-- A failing and a succeeding renderer. -/
theorem Print_all_or_nothing_witness :
    Print Nat (fun _ => Except.error 7) (sampleModule []) = ([], some 7) ∧
      Print Nat (fun _ => Except.ok "a \n".toList) (sampleModule []) =
        (sanitize "a \n".toList, none) :=
  ⟨(Print_all_or_nothing Nat _ _).1 7 rfl, (Print_all_or_nothing Nat _ _).2 _ rfl⟩

/-- C5, evaluated at the failing input: a line that ends in three spaces is
returned unchanged, the three spaces are not stripped. -/
theorem sanitize_three_trailing_spaces :
    sanitize "foo   \n".toList = "foo   \n".toList ∧
      sanitize "foo   \n".toList ≠ "foo\n".toList := by
  decide

/-- C6, as stated, fails: a line followed by three line feeds is sanitized to
the line alone, without a trailing line feed. -/
theorem sanitize_trailing_newline_dropped :
    "c".toList ≠ [] ∧ '\n' ∉ "c".toList ∧ '\r' ∉ "c".toList ∧
      "c".toList.getLast? ≠ some ' ' ∧ ¬ (placeholder <:+: "c".toList) ∧
      sanitize ("c".toList ++ List.replicate (2 + 1) '\n') = "c".toList ∧
      sanitize ("c".toList ++ List.replicate (2 + 1) '\n') ≠ "c".toList ++ ['\n'] := by
  decide

/-- C6, amended: for every single-line content `c` (no carriage return, no
line feed, not ending in a space, not containing the hard-break placeholder)
and every `k ≥ 2`, sanitizing `c` followed by `k + 1` line feeds yields `c`
itself, with no line feed after it; this holds for an empty `c` as well. -/
theorem sanitize_trailing_trim (c : Text) (k : Nat) (hk : 2 ≤ k) (hlf : '\n' ∉ c)
    (hcr : '\r' ∉ c) (hsp : c.getLast? ≠ some ' ') (hph : ¬ placeholder <:+: c) :
    sanitize (c ++ List.replicate (k + 1) '\n') = c :=
  sanitize_line_blank_end c k hk hlf hcr hsp (fun h => hph h.isInfix)

/-- A line followed by five line feeds. -/
theorem sanitize_trailing_trim_witness :
    sanitize ("foo bar".toList ++ List.replicate (4 + 1) '\n') = "foo bar".toList :=
  sanitize_trailing_trim "foo bar".toList 4 (by decide) (by decide) (by decide) (by decide)
    (by decide)

/-- C7, as stated, fails: with a carriage return that belongs to no `\r\n`,
the output has a run of three line breaks (`\n`, `\r\n`, `\n`); a run of four
line feeds at the end of the text is removed, not cut down to two; and a line
that ends in the placeholder gets two spaces instead. -/
theorem sanitize_blank_cap_fails :
    (['\n'] ++ ['\r', '\n'] ++ ['\n'] <:+: sanitize "a\n\r\r\n\n\nb".toList) ∧
      sanitize ("a".toList ++ ['\n', '\n', '\n', '\n'] ++ []) ≠ "a".toList ++ ['\n', '\n'] ++ [] ∧
      sanitize (placeholder ++ ['\n', '\n', '\n', '\n'] ++ "b".toList) ≠
        placeholder ++ ['\n', '\n'] ++ "b".toList := by
  refine ⟨⟨['a'], ['b'], by decide⟩, by decide, by decide⟩

/-- C7, amended: for every text in which each carriage return is immediately
followed by a line feed, `sanitize x` contains no run of three consecutive
line breaks (each `\n` or `\r\n`); and for single-line `a` and `b` that do not
end in a space, `a` not ending in the placeholder and `b` not empty,
`sanitize (a ++ "\n\n\n\n" ++ b) = a ++ "\n\n" ++ b`. -/
theorem sanitize_blank_cap :
    (∀ x : Text, crlfOnly x = true → ∀ b1 b2 b3 : Text,
      IsLineBreak b1 → IsLineBreak b2 → IsLineBreak b3 →
        ¬ (b1 ++ b2 ++ b3 <:+: sanitize x)) ∧
    (∀ a b : Text, '\n' ∉ a → '\r' ∉ a → a.getLast? ≠ some ' ' → ¬ placeholder <:+ a →
      '\n' ∉ b → b.getLast? ≠ some ' ' → b ≠ [] →
        sanitize (a ++ ['\n', '\n', '\n', '\n'] ++ b) = a ++ ['\n', '\n'] ++ b) :=
  ⟨fun x hx b1 b2 b3 h1 h2 h3 =>
      noTripleBreak_no_run _ b1 b2 b3 (sanitize_noTripleBreak x hx) h1 h2 h3,
    fun a b h1 h2 h3 h4 h5 h6 h7 => sanitize_lines_blank a b h1 h2 h3 h4 h5 h6 h7⟩

/-- A text with `\r\n` line breaks, and two lines four line feeds apart. -/
theorem sanitize_blank_cap_witness :
    (crlfOnly "a\r\n\r\n\n\n\r\nb".toList = true ∧
      ¬ (['\n'] ++ ['\r', '\n'] ++ ['\n'] <:+: sanitize "a\r\n\r\n\n\n\r\nb".toList)) ∧
    sanitize ("a b".toList ++ ['\n', '\n', '\n', '\n'] ++ "c".toList) =
      "a b".toList ++ ['\n', '\n'] ++ "c".toList :=
  ⟨⟨by decide, sanitize_blank_cap.1 _ (by decide) _ _ _ (Or.inl rfl) (Or.inr rfl) (Or.inl rfl)⟩,
    sanitize_blank_cap.2 _ _ (by decide) (by decide) (by decide) (by decide) (by decide)
      (by decide) (by decide)⟩

/-- C8. Hard break preserved: for single-line `a` and `b` (no carriage return
or line feed in `a`, no line feed in `b`) that do not end in a space,
`sanitize (a ++ "  \n" ++ b) = a ++ "  \n" ++ b`; this holds for an empty `a`
as well. -/
theorem sanitize_hardBreak_preserved (a b : Text) (halF : '\n' ∉ a) (haCr : '\r' ∉ a)
    (haSp : a.getLast? ≠ some ' ') (hbLf : '\n' ∉ b) (hbSp : b.getLast? ≠ some ' ') :
    sanitize (a ++ [' ', ' ', '\n'] ++ b) = a ++ [' ', ' ', '\n'] ++ b :=
  sanitize_hardBreak a b halF haCr haSp hbLf hbSp

/-- The lines `foo` and `bar` with a hard break between them. -/
theorem sanitize_hardBreak_preserved_witness :
    sanitize ("foo".toList ++ [' ', ' ', '\n'] ++ "bar".toList) =
      "foo".toList ++ [' ', ' ', '\n'] ++ "bar".toList :=
  sanitize_hardBreak_preserved _ _ (by decide) (by decide) (by decide) (by decide) (by decide)

/-- C9. Section gating: each section template renders to the empty text when
its Show flag is false, whatever the module contains (so with
`ShowOutputs = false` no `Attributes Reference` heading comes from the outputs
template), and the document printed then does not depend on the records of
that section: two modules that differ only there are printed identically. -/
theorem section_gating (ε : Type) (f : Funcs) (settings : Settings) (module : Module) :
    (settings.ShowHeader = false → compactHeaderTpl f settings module = []) ∧
    (settings.ShowRequirements = false → compactRequirementsTpl f settings module = []) ∧
    (settings.ShowProviders = false → compactProvidersTpl f settings module = []) ∧
    (settings.ShowModuleCalls = false → compactModulecallsTpl f settings module = []) ∧
    (settings.ShowResources = false → compactResourcesTpl f settings module = []) ∧
    (settings.ShowInputs = false → compactInputsTpl f settings module = []) ∧
    (settings.ShowOutputs = false → compactOutputsTpl f settings module = []) ∧
    (settings.ShowHeader = false → ∀ header : Text,
      Print ε (renderCompact ε f settings) { module with Header := header } =
        Print ε (renderCompact ε f settings) module) ∧
    (settings.ShowRequirements = false → ∀ requirements : List Requirement,
      Print ε (renderCompact ε f settings) { module with Requirements := requirements } =
        Print ε (renderCompact ε f settings) module) ∧
    (settings.ShowProviders = false → ∀ providers : List Provider,
      Print ε (renderCompact ε f settings) { module with Providers := providers } =
        Print ε (renderCompact ε f settings) module) ∧
    (settings.ShowModuleCalls = false → ∀ calls : List ModuleCall,
      Print ε (renderCompact ε f settings) { module with ModuleCalls := calls } =
        Print ε (renderCompact ε f settings) module) ∧
    (settings.ShowResources = false → ∀ resources : List Resource,
      Print ε (renderCompact ε f settings) { module with Resources := resources } =
        Print ε (renderCompact ε f settings) module) ∧
    (settings.ShowInputs = false → ∀ inputs required optional : List Input,
      Print ε (renderCompact ε f settings)
          { module with Inputs := inputs, RequiredInputs := required,
                        OptionalInputs := optional } =
        Print ε (renderCompact ε f settings) module) ∧
    (settings.ShowOutputs = false → ∀ outputs : List Output,
      Print ε (renderCompact ε f settings) { module with Outputs := outputs } =
        Print ε (renderCompact ε f settings) module) := by
  refine ⟨?_, ?_, ?_, ?_, ?_, ?_, ?_, ?_, ?_, ?_, ?_, ?_, ?_, ?_⟩
  · intro h; simp [compactHeaderTpl, h]
  · intro h; simp [compactRequirementsTpl, h]
  · intro h; simp [compactProvidersTpl, h]
  · intro h; simp [compactModulecallsTpl, h]
  · intro h; simp [compactResourcesTpl, h]
  · intro h; simp [compactInputsTpl, h]
  · intro h; simp [compactOutputsTpl, h]
  · intro h header
    have e : ∀ m : Module, compactHeaderTpl f settings m = [] := fun m => by
      simp [compactHeaderTpl, h]
    simp only [Print_renderCompact, compactTpl, e]
    rfl
  · intro h requirements
    have e : ∀ m : Module, compactRequirementsTpl f settings m = [] := fun m => by
      simp [compactRequirementsTpl, h]
    simp only [Print_renderCompact, compactTpl, e]
    rfl
  · intro h providers
    have e : ∀ m : Module, compactProvidersTpl f settings m = [] := fun m => by
      simp [compactProvidersTpl, h]
    simp only [Print_renderCompact, compactTpl, e]
    rfl
  · intro h calls
    have e : ∀ m : Module, compactModulecallsTpl f settings m = [] := fun m => by
      simp [compactModulecallsTpl, h]
    simp only [Print_renderCompact, compactTpl, e]
    rfl
  · intro h resources
    have e : ∀ m : Module, compactResourcesTpl f settings m = [] := fun m => by
      simp [compactResourcesTpl, h]
    simp only [Print_renderCompact, compactTpl, e]
    rfl
  · intro h inputs required optional
    have e : ∀ m : Module, compactInputsTpl f settings m = [] := fun m => by
      simp [compactInputsTpl, h]
    simp only [Print_renderCompact, compactTpl, e]
    rfl
  · intro h outputs
    have e : ∀ m : Module, compactOutputsTpl f settings m = [] := fun m => by
      simp [compactOutputsTpl, h]
    simp only [Print_renderCompact, compactTpl, e]
    rfl

/-- The gating of the outputs section on the sample module. -/
theorem section_gating_witness :
    compactOutputsTpl sampleFuncs { sampleSettings with ShowOutputs := false }
        (sampleModule "x".toList) = [] ∧
      Print Unit (renderCompact Unit sampleFuncs { sampleSettings with ShowOutputs := false })
          { sampleModule "x".toList with Outputs := [] } =
        Print Unit (renderCompact Unit sampleFuncs { sampleSettings with ShowOutputs := false })
          (sampleModule "x".toList) :=
  ⟨(section_gating Unit sampleFuncs _ _).2.2.2.2.2.2.1 rfl,
    (section_gating Unit sampleFuncs _ _).2.2.2.2.2.2.2.2.2.2.2.2.2 rfl []⟩

/-- C10. Empty-collection placeholder: with an empty `Resources` sequence and
`ShowResources = true`, the Resources section is the heading line, an empty
line, the line `No resources.` and an empty line.  `No resources.` is one of
its lines, and the section has no table header: an occurrence of `| Name |`
or of `|------|` in the section could only lie inside the heading marker that
`indent` returns, the template writes none. -/
theorem resources_placeholder (f : Funcs) (settings : Settings) (module : Module)
    (hres : module.Resources = []) (hshow : settings.ShowResources = true) :
    compactResourcesTpl f settings module =
        f.indent 0 "#".toList ++ " Resources\n\nNo resources.\n\n".toList ∧
      splitLines (compactResourcesTpl f settings module) =
        splitLines (f.indent 0 "#".toList ++ " Resources".toList) ++
          [[], "No resources.".toList, [], []] ∧
      "No resources.".toList ∈ splitLines (compactResourcesTpl f settings module) ∧
      ("| Name |".toList <:+: compactResourcesTpl f settings module →
        "| Name |".toList <:+: f.indent 0 "#".toList) ∧
      ("|------|".toList <:+: compactResourcesTpl f settings module →
        "|------|".toList <:+: f.indent 0 "#".toList) := by
  have heq : compactResourcesTpl f settings module =
      f.indent 0 "#".toList ++ " Resources\n\nNo resources.\n\n".toList := by
    simp [compactResourcesTpl, hres, hshow]
  have hlines : splitLines (compactResourcesTpl f settings module) =
      splitLines (f.indent 0 "#".toList ++ " Resources".toList) ++
        [[], "No resources.".toList, [], []] := by
    have e : f.indent 0 "#".toList ++ " Resources\n\nNo resources.\n\n".toList =
        (f.indent 0 "#".toList ++ " Resources".toList) ++
          '\n' :: "\nNo resources.\n\n".toList := by
      rw [List.append_assoc]
      rfl
    rw [heq, e, splitLines_append_lf]
    rfl
  refine ⟨heq, hlines, ?_, ?_, ?_⟩
  · rw [hlines]
    simp
  · intro h
    rw [heq] at h
    exact infix_left_of_last _ _ _ '|' (by decide) (by decide) h
  · intro h
    rw [heq] at h
    exact infix_left_of_last _ _ _ '|' (by decide) (by decide) h

/-- The resources section of the sample module, which has no resource. -/
theorem resources_placeholder_witness :
    compactResourcesTpl sampleFuncs sampleSettings (sampleModule []) =
        "## Resources\n\nNo resources.\n\n".toList ∧
      "No resources.".toList ∈
        splitLines (compactResourcesTpl sampleFuncs sampleSettings (sampleModule [])) :=
  ⟨(resources_placeholder sampleFuncs sampleSettings (sampleModule []) rfl rfl).1.trans
      (by decide),
    (resources_placeholder sampleFuncs sampleSettings (sampleModule []) rfl rfl).2.2.1⟩

/-- C11. Default-line rule: the template `input` writes the line `Default:`
exactly when the input has a default or `ShowRequired` (what `isRequired`
returns) is false: the rendering is the head of the input (its line and the
line of its type), then the default line under this condition and nothing
otherwise, then the two line feeds that end the template; the default line is
never empty, and with `ShowRequired = false` it is written for every input. -/
theorem default_line_rule (f : Funcs) (settings : Settings) (input : Input) :
    isRequired settings = settings.ShowRequired ∧
    compactInputDefault f input =
      "\n\n".toList ++ f.indent 1 " ".toList ++ " Default: ".toList ++
        value (orDefault "n/a".toList input.GetValue) ∧
    compactInputDefault f input ≠ [] ∧
    (input.HasDefault = true ∨ isRequired settings = false →
      compactInputTpl f settings input =
        compactInputHead f input ++ compactInputDefault f input ++ "\n\n".toList) ∧
    (¬ (input.HasDefault = true ∨ isRequired settings = false) →
      compactInputTpl f settings input = compactInputHead f input ++ "\n\n".toList) ∧
    (settings.ShowRequired = false →
      compactInputTpl f settings input =
        compactInputHead f input ++ compactInputDefault f input ++ "\n\n".toList) := by
  refine ⟨rfl, rfl, compactInputDefault_ne_nil f input, ?_, ?_, ?_⟩
  · intro h
    have h2 : input.HasDefault = true ∨ settings.ShowRequired = false := h
    rw [compactInputTpl_eq, if_pos h2]
  · intro h
    have h2 : ¬ (input.HasDefault = true ∨ settings.ShowRequired = false) := h
    rw [compactInputTpl_eq, if_neg h2]
    simp
  · intro h
    rw [compactInputTpl_eq, if_pos (Or.inr h)]

/-- An input without default still gets its default line, here `n/a`, when
`ShowRequired` is false. -/
theorem default_line_rule_witness :
    compactInputTpl sampleFuncs sampleSettings
        { sampleInput with HasDefault := false, GetValue := [] } =
      ("\n\n\n- <a id='input_region' href='#region'>`region`</a> - (Required) AWS region" ++
        "\n\n    Type: `string`\n\n    Default: n/a\n\n").toList :=
  ((default_line_rule sampleFuncs sampleSettings _).2.2.2.2.2 rfl).trans (by decide)

/-- C12. Record order: with a non-empty `ModuleCalls` sequence and
`ShowModuleCalls = true`, the Modules section is the heading line, an empty
line, the two lines of the table header and then one row per module call, in
the order of the sequence, each row being `| Name | Source | Version |` on a
line of its own; there are as many rows as module calls. -/
theorem modulecalls_rows (f : Funcs) (settings : Settings) (module : Module)
    (hne : module.ModuleCalls ≠ []) (hshow : settings.ShowModuleCalls = true) :
    compactModulecallsTpl f settings module =
        f.indent 0 "#".toList ++ " Modules\n".toList ++
          "\n| Name | Source | Version |\n|------|--------|---------|".toList ++
          (module.ModuleCalls.map (fun c => "\n".toList ++ moduleCallRow c)).flatten ++
          "\n".toList ++ "\n".toList ∧
      (module.ModuleCalls.map (fun c => "\n".toList ++ moduleCallRow c)).length =
        module.ModuleCalls.length ∧
      ∀ c : ModuleCall, moduleCallRow c =
        "| ".toList ++ c.Name ++ " | ".toList ++ c.Source ++ " | ".toList ++ c.Version ++
          " |".toList := by
  refine ⟨?_, by simp, fun c => rfl⟩
  have he : module.ModuleCalls.isEmpty = false := by
    cases h : module.ModuleCalls with
    | nil => exact absurd h hne
    | cons c cs => rfl
  simp only [compactModulecallsTpl, hshow, he, if_true, rangeOver_eq_flatten]
  simp [moduleCallRow]

/-- Two module calls, rendered in their order. -/
theorem modulecalls_rows_witness :
    compactModulecallsTpl sampleFuncs sampleSettings
        { sampleModule [] with ModuleCalls :=
            [⟨"vpc".toList, "./vpc".toList, "1.0".toList⟩,
             ⟨"db".toList, "./db".toList, "2.1".toList⟩] } =
      ("## Modules\n\n| Name | Source | Version |\n|------|--------|---------|" ++
        "\n| vpc | ./vpc | 1.0 |\n| db | ./db | 2.1 |\n\n").toList :=
  (modulecalls_rows sampleFuncs sampleSettings _ (by simp) rfl).1.trans (by decide)

/-- C13. `printFencedCodeBlockWithIndent` (the template function `type` with
the language `hcl`): a value without line feed is wrapped in single backticks;
a value with a line feed becomes a text whose lines are an empty line, the
lines of the opening fence tagged with the language (one line, the fence, when
the language has no line feed), the lines of the value, the closing fence and
an empty line, each line of the fence and of the value indented by four
spaces. -/
theorem codeBlock_shape (v l : Text) :
    typeFn v = printFencedCodeBlockWithIndent v "hcl".toList ∧
    ('\n' ∉ v → printFencedCodeBlockWithIndent v l = "`".toList ++ v ++ "`".toList) ∧
    ('\n' ∈ v → printFencedCodeBlockWithIndent v l =
      "\n".toList ++ joinLines ((splitLines ("```".toList ++ l) ++ splitLines v ++
        ["```".toList]).map (fun x => "    ".toList ++ x)) ++ "\n".toList) ∧
    ('\n' ∈ v → splitLines (printFencedCodeBlockWithIndent v l) =
      [] :: (splitLines ("```".toList ++ l) ++ splitLines v ++
        ["```".toList]).map (fun x => "    ".toList ++ x) ++ [[]]) ∧
    ('\n' ∉ l → splitLines ("```".toList ++ l) = ["```".toList ++ l]) := by
  refine ⟨rfl, ?_, ?_, ?_, ?_⟩
  · intro h
    have hc : containsNewline v = false := by
      cases hb : containsNewline v with
      | false => rfl
      | true => exact absurd ((containsNewline_iff v).mp hb) h
    simp [printFencedCodeBlockWithIndent, hc]
  · intro h
    exact (printFencedCodeBlockWithIndent_lines v l h).1
  · intro h
    exact (printFencedCodeBlockWithIndent_lines v l h).2
  · intro h
    apply splitLines_of_no_lf
    rw [List.mem_append]
    rintro (h1 | h1)
    · revert h1; decide
    · exact h h1

/-- A two-line type expression, fenced and indented. -/
theorem codeBlock_shape_witness :
    typeFn "a\nb".toList = "\n    ```hcl\n    a\n    b\n    ```\n".toList ∧
      typeFn "string".toList = "`string`".toList :=
  ⟨(codeBlock_shape "a\nb".toList "hcl".toList).1.trans
      (((codeBlock_shape "a\nb".toList "hcl".toList).2.2.1 (by decide)).trans (by decide)),
    (codeBlock_shape "string".toList "hcl".toList).1.trans
      (((codeBlock_shape "string".toList "hcl".toList).2.1 (by decide)).trans (by decide))⟩

/-- C14. Anchored code: `inlineType v` is the anchor with id `input_v` and
target `#v` around the text of `printFencedCodeBlock v "hcl"`,
`inlineOutputType v` the same with id `output_v`; that text is `v` in single
backticks, with the flag false, when `v` has no line feed, and the fence
tagged `hcl` between two line feeds and a final line feed, with the flag true,
when it has one. -/
theorem anchoredCode_shape (v : Text) :
    inlineType v =
      "<a id='input_".toList ++ v ++ "' href='#".toList ++ v ++ "'>".toList ++
        (printFencedCodeBlock v "hcl".toList).1 ++ "</a>".toList ∧
    inlineOutputType v =
      "<a id='output_".toList ++ v ++ "' href='#".toList ++ v ++ "'>".toList ++
        (printFencedCodeBlock v "hcl".toList).1 ++ "</a>".toList ∧
    ('\n' ∉ v → printFencedCodeBlock v "hcl".toList = ("`".toList ++ v ++ "`".toList, false)) ∧
    ('\n' ∈ v → printFencedCodeBlock v "hcl".toList =
      ("\n\n```hcl\n".toList ++ v ++ "\n```\n".toList, true)) := by
  refine ⟨rfl, rfl, ?_, ?_⟩
  · intro h
    have hc : containsNewline v = false := by
      cases hb : containsNewline v with
      | false => rfl
      | true => exact absurd ((containsNewline_iff v).mp hb) h
    simp [printFencedCodeBlock, hc]
  · intro h
    have hc : containsNewline v = true := (containsNewline_iff v).mpr h
    simp only [printFencedCodeBlock, hc, if_true]
    have e : "\n\n```".toList ++ "hcl".toList ++ "\n".toList = "\n\n```hcl\n".toList := by decide
    rw [← e]

/-- The anchors of a single-line and of a two-line name. -/
theorem anchoredCode_shape_witness :
    printFencedCodeBlock "region".toList "hcl".toList = ("`region`".toList, false) ∧
      printFencedCodeBlock "a\nb".toList "hcl".toList =
        ("\n\n```hcl\na\nb\n```\n".toList, true) :=
  ⟨((anchoredCode_shape "region".toList).2.2.1 (by decide)).trans (by decide),
    ((anchoredCode_shape "a\nb".toList).2.2.2 (by decide)).trans (by decide)⟩

/-- C15. The template function `value`: the text `n/a` passes through
unchanged, and every other value is rendered by
`printFencedCodeBlockWithIndent` with the language `json`: inline single
backticks without line feed, the indented fence otherwise. -/
theorem value_shape (v : Text) :
    value "n/a".toList = "n/a".toList ∧
    (v ≠ "n/a".toList → value v = printFencedCodeBlockWithIndent v "json".toList) ∧
    (v ≠ "n/a".toList → '\n' ∉ v → value v = "`".toList ++ v ++ "`".toList) ∧
    (v ≠ "n/a".toList → '\n' ∈ v → value v =
      "\n".toList ++ joinLines ((["```json".toList] ++ splitLines v ++
        ["```".toList]).map (fun x => "    ".toList ++ x)) ++ "\n".toList) := by
  have h2 : v ≠ "n/a".toList → value v = printFencedCodeBlockWithIndent v "json".toList := by
    intro h
    unfold value
    rw [if_neg h]
  refine ⟨by decide, h2, ?_, ?_⟩
  · intro h hlf
    rw [h2 h]
    have hc : containsNewline v = false := by
      cases hb : containsNewline v with
      | false => rfl
      | true => exact absurd ((containsNewline_iff v).mp hb) hlf
    simp [printFencedCodeBlockWithIndent, hc]
  · intro h hlf
    rw [h2 h, (printFencedCodeBlockWithIndent_lines v "json".toList hlf).1]
    have e : splitLines ("```".toList ++ "json".toList) = ["```json".toList] := by decide
    rw [e]

/-- A single-line and a two-line value. -/
theorem value_shape_witness :
    value "x".toList = "`x`".toList ∧
      value "[\n]".toList = "\n    ```json\n    [\n    ]\n    ```\n".toList :=
  ⟨((value_shape "x".toList).2.2.1 (by decide) (by decide)).trans (by decide),
    ((value_shape "[\n]".toList).2.2.2 (by decide) (by decide)).trans (by decide)⟩

/-- C16. Required-flag inversion: `requiredFlag true` is `(Optional)` and
`requiredFlag false` is `(Required)`, and the line of every input carries,
after the anchor of its name, the label `(Optional)` when `HasDefault` is true
and `(Required)` when it is false. -/
theorem requiredFlag_inversion (f : Funcs) (settings : Settings) (input : Input) :
    requiredFlag true = "(Optional)".toList ∧
    requiredFlag false = "(Required)".toList ∧
    (requiredFlag input.HasDefault = "(Optional)".toList ↔ input.HasDefault = true) ∧
    (requiredFlag input.HasDefault = "(Required)".toList ↔ input.HasDefault = false) ∧
    compactInputTpl f settings input =
      "\n".toList ++ "\n".toList ++ "\n- ".toList ++ inlineType input.Name ++ " - ".toList ++
        (if input.HasDefault then "(Optional)".toList else "(Required)".toList) ++
        (" ".toList ++ f.sanitizeTbl (f.tostring input.Description) ++ "\n\n".toList ++
          f.indent 1 " ".toList ++ " Type: ".toList ++ typeFn (f.tostring input.TypeExpr) ++
          (if input.HasDefault = true ∨ settings.ShowRequired = false then
            "\n\n".toList ++ f.indent 1 " ".toList ++ " Default: ".toList ++
              value (orDefault "n/a".toList input.GetValue)
           else []) ++
          "\n\n".toList) := by
  refine ⟨rfl, rfl, ?_, ?_, ?_⟩
  · cases input.HasDefault <;> decide
  · cases input.HasDefault <;> decide
  · rw [compactInputTpl_eq]
    simp [compactInputHead, compactInputDefault, requiredFlag]

/-- The sample input has a default and carries the label `(Optional)`. -/
theorem requiredFlag_inversion_witness :
    requiredFlag sampleInput.HasDefault = "(Optional)".toList ∧
      compactInputTpl sampleFuncs sampleSettings sampleInput =
        ("\n\n\n- <a id='input_region' href='#region'>`region`</a> - (Optional) AWS region" ++
          "\n\n    Type: `string`\n\n    Default: `\"us-east-1\"`\n\n").toList :=
  ⟨(requiredFlag_inversion sampleFuncs sampleSettings sampleInput).2.2.1.mpr rfl,
    (requiredFlag_inversion sampleFuncs sampleSettings sampleInput).2.2.2.2.trans (by decide)⟩

set_option maxRecDepth 100000 in
/-- C17, as stated, fails: the input `region` of type `string` is rendered with
an anchor around its name, `input_region`, and its type as plain inline code;
no anchor `input_string` is written. -/
theorem type_anchor_absent :
    compactInputTpl sampleFuncs sampleSettings sampleInput =
      ("\n\n\n- <a id='input_region' href='#region'>`region`</a> - (Optional) AWS region" ++
        "\n\n    Type: `string`\n\n    Default: `\"us-east-1\"`\n\n").toList ∧
    ¬ ("input_string".toList <:+: compactInputTpl sampleFuncs sampleSettings sampleInput) := by
  decide

/-- C17, amended: for every input, the template `input` wraps the rendering of
the Name in an anchor with id `input_<Name>` and target `#<Name>`, and writes
the Type after `Type:` without anchor, through the function `type`: inline
single-backtick code when the Type has no line feed, and when it has one the
fence tagged `hcl`, each line indented by four spaces, between two line
feeds. -/
theorem type_rendering (f : Funcs) (settings : Settings) (input : Input) :
    compactInputTpl f settings input =
      "\n".toList ++ "\n".toList ++ "\n- ".toList ++
        ("<a id='input_".toList ++ input.Name ++ "' href='#".toList ++ input.Name ++
          "'>".toList ++ (printFencedCodeBlock input.Name "hcl".toList).1 ++ "</a>".toList) ++
        " - ".toList ++ requiredFlag input.HasDefault ++ " ".toList ++
        f.sanitizeTbl (f.tostring input.Description) ++ "\n\n".toList ++
        f.indent 1 " ".toList ++ " Type: ".toList ++
        printFencedCodeBlockWithIndent (f.tostring input.TypeExpr) "hcl".toList ++
        (if input.HasDefault = true ∨ settings.ShowRequired = false then
          "\n\n".toList ++ f.indent 1 " ".toList ++ " Default: ".toList ++
            value (orDefault "n/a".toList input.GetValue)
         else []) ++
        "\n\n".toList ∧
    ('\n' ∉ f.tostring input.TypeExpr →
      printFencedCodeBlockWithIndent (f.tostring input.TypeExpr) "hcl".toList =
        "`".toList ++ f.tostring input.TypeExpr ++ "`".toList) ∧
    ('\n' ∈ f.tostring input.TypeExpr →
      printFencedCodeBlockWithIndent (f.tostring input.TypeExpr) "hcl".toList =
        "\n".toList ++ joinLines ((["```hcl".toList] ++ splitLines (f.tostring input.TypeExpr) ++
          ["```".toList]).map (fun x => "    ".toList ++ x)) ++ "\n".toList) := by
  refine ⟨?_, ?_, ?_⟩
  · rw [compactInputTpl_eq]
    simp [compactInputHead, compactInputDefault, inlineType, typeFn]
  · intro h
    have hc : containsNewline (f.tostring input.TypeExpr) = false := by
      cases hb : containsNewline (f.tostring input.TypeExpr) with
      | false => rfl
      | true => exact absurd ((containsNewline_iff _).mp hb) h
    simp [printFencedCodeBlockWithIndent, hc]
  · intro h
    rw [(printFencedCodeBlockWithIndent_lines _ "hcl".toList h).1]
    have e : splitLines ("```".toList ++ "hcl".toList) = ["```hcl".toList] := by decide
    rw [e]

/-- The type of the sample input is single-line and rendered inline; a
two-line type is fenced. -/
theorem type_rendering_witness :
    printFencedCodeBlockWithIndent (sampleFuncs.tostring sampleInput.TypeExpr) "hcl".toList =
        "`string`".toList ∧
      printFencedCodeBlockWithIndent
          (sampleFuncs.tostring { sampleInput with TypeExpr := "a\nb".toList }.TypeExpr)
          "hcl".toList =
        "\n    ```hcl\n    a\n    b\n    ```\n".toList :=
  ⟨((type_rendering sampleFuncs sampleSettings sampleInput).2.1 (by decide)).trans (by decide),
    ((type_rendering sampleFuncs sampleSettings
        { sampleInput with TypeExpr := "a\nb".toList }).2.2 (by decide)).trans (by decide)⟩

/-- C18, evaluated at the failing input: of two consecutive lines made of two
spaces, `sanitize` removes only the first, and its output still has a line
break, two spaces and a line break in a row. -/
theorem sanitize_keeps_double_space_line :
    sanitize "a\n  \n  \nb".toList = "a\n  \nb".toList ∧
      ['\n'] ++ [' ', ' '] ++ ['\n'] <:+: sanitize "a\n  \n  \nb".toList :=
  ⟨by decide, ⟨['a'], ['b'], by decide⟩⟩

/-- C19, evaluated at the failing input: the row of a resource without URL is
an empty line followed by the line `| aws_instance.web`, with no closing
` |`, while the row of a resource with a URL is closed and follows the table
directly; in the section, and in the printed document, the open row stands
apart from the table header, after an empty line. -/
theorem resource_row_not_closed :
    compactResourcesRow sampleResource = "\n\n| aws_instance.web".toList ∧
      ¬ (" |".toList <:+ compactResourcesRow sampleResource) ∧
      compactResourcesRow { sampleResource with URL := "https://x".toList } =
        "\n| [aws_instance.web](https://x) |".toList ∧
      compactResourcesTpl sampleFuncs sampleSettings
          { sampleModule [] with Resources := [sampleResource] } =
        "## Resources\n\n| Name |\n|------|\n\n| aws_instance.web\n\n".toList ∧
      Print Unit (renderCompact Unit sampleFuncs sampleResourcesOnly)
          { sampleModule [] with Resources := [sampleResource] } =
        ("## Resources\n\n| Name |\n|------|\n\n| aws_instance.web".toList, none) := by
  decide

/-- C20, as stated, fails: in a text with the line break `\r\n`, the table
mode turns the line feed into `<br>` and keeps the carriage return, so the
line break has not become `<br>` and the result still has a line break
character. -/
theorem convertMultiLineText_keeps_cr :
    convertMultiLineText "a\r\nb".toList true = "a  \r<br>b".toList ∧
      '\r' ∈ convertMultiLineText "a\r\nb".toList true ∧
      convertMultiLineText "a\r\nb".toList true ≠ "a<br>b".toList := by
  decide

/-- C20, amended.  For a table (`isTable = true`) the result has no line
feed: it is the text of the earlier steps in which the last step has replaced
every line feed by `<br>` and kept every other character; a carriage return
is only there if the input has one, so for an input without carriage return
the result has no line break character at all; and an input without line feed
is only trimmed.  Otherwise (`isTable = false`) the text `<br>` does not occur
in the result, which is the text of the shared steps with every `<br>`
replaced by a line feed; an input without line feed goes through that
replacement only. -/
theorem convertMultiLineText_shape (s : Text) :
    '\n' ∉ convertMultiLineText s true ∧
    convertMultiLineText s true =
      (stringsReplace "  \n".toList "<br>".toList (convertParagraphs (TrimSpace s))).flatMap
        (fun c => if c = '\n' then "<br>".toList else [c]) ∧
    ('\r' ∉ s → '\r' ∉ convertMultiLineText s true) ∧
    ('\n' ∉ s → convertMultiLineText s true = TrimSpace s) ∧
    ¬ ("<br>".toList <:+: convertMultiLineText s false) ∧
    convertMultiLineText s false =
      stringsReplace "<br>".toList "\n".toList (convertParagraphs s) ∧
    ('\n' ∉ s → convertMultiLineText s false = stringsReplace "<br>".toList "\n".toList s) := by
  refine ⟨?_, ?_, ?_, ?_, ?_, rfl, ?_⟩
  · simp only [convertMultiLineText, if_true]
    exact stringsReplace_lf_no_lf "<br>".toList _ (by decide)
  · rw [convertMultiLineText_table]
    exact stringsReplace_lf_flatMap _ _
  · intro h
    rw [convertMultiLineText_table]
    apply stringsReplace_not_mem _ _ _ _ (by decide)
    apply stringsReplace_not_mem _ _ _ _ (by decide)
    exact convertParagraphs_not_mem _ _ (by decide) (by decide) (by decide)
      (fun e => h (TrimSpace_subset s e))
  · intro h
    have ht : '\n' ∉ TrimSpace s := fun e => h (TrimSpace_subset s e)
    rw [convertMultiLineText_table, convertParagraphs_of_no_lf _ ht,
      stringsReplace_eq_self_of_not_mem "  \n".toList _ _ '\n' (by decide) ht,
      stringsReplace_eq_self_of_not_mem "\n".toList _ _ '\n' (by decide) ht]
  · simp only [convertMultiLineText, Bool.false_eq_true, if_false]
    exact stringsReplace_br_none _
  · intro h
    rw [convertMultiLineText_plain, convertParagraphs_of_no_lf _ h]

/-- A description of two paragraphs, without carriage return, and a
description of one line that mentions `<br>`. -/
theorem convertMultiLineText_shape_witness :
    convertMultiLineText "a\nb\n\nc".toList true = "a<br>b<br><br>c".toList ∧
      '\r' ∉ convertMultiLineText "a\nb\n\nc".toList true ∧
      convertMultiLineText " one line ".toList true = "one line".toList ∧
      convertMultiLineText "a<br>b".toList false = "a\nb".toList :=
  ⟨(convertMultiLineText_shape "a\nb\n\nc".toList).2.1.trans (by decide),
    (convertMultiLineText_shape "a\nb\n\nc".toList).2.2.1 (by decide),
    ((convertMultiLineText_shape " one line ".toList).2.2.2.1 (by decide)).trans (by decide),
    ((convertMultiLineText_shape "a<br>b".toList).2.2.2.2.2.2 (by decide)).trans (by decide)⟩

end TerraformDocs
